import Mathlib

/-!
Verification of the AhmadKarmiDotCom migration and WordPress-client code.

Each definition in the first part of this file is a shallow embedding of a
function of the repository, translated from the TypeScript/JavaScript source.
Strings are modelled by Lean `String` (a list of unicode characters), JS
numbers that the code only ever uses integrally are modelled by `Int`/`Nat`,
and JS `NaN`/absent values are modelled by `Option`.  Theorems about the
claims follow after all definitions.
-/

set_option autoImplicit false

namespace AKSite

/-! ## JS character class helpers -/

/-- The JS regex metacharacter `.` (without the `s` flag) matches every
character except the line terminators LF, CR, U+2028 and U+2029. -/
def jsDot (c : Char) : Bool :=
  c ≠ '\n' && c ≠ '\r' && c.val ≠ 0x2028 && c.val ≠ 0x2029

/-- The JS regex class `\d`, exactly the ASCII digits. -/
def jsDigit (c : Char) : Bool :=
  '0' ≤ c && c ≤ '9'

/-- Numeric value of an ASCII digit character. -/
def digitVal (c : Char) : Nat :=
  c.toNat - 48

/-- The JS whitespace set used by `String.prototype.trim` and the regex
class `\s`: ASCII whitespace, NBSP, BOM, the unicode space separators and
the line terminators. -/
def jsWhitespace (c : Char) : Bool :=
  c = ' ' || c = '\t' || c = '\n' || c = '\r' ||
  c.val = 0x0B || c.val = 0x0C || c.val = 0xA0 || c.val = 0xFEFF ||
  c.val = 0x1680 || (0x2000 ≤ c.val && c.val ≤ 0x200A) ||
  c.val = 0x2028 || c.val = 0x2029 || c.val = 0x202F ||
  c.val = 0x205F || c.val = 0x3000

/-- JS `String.prototype.trim`: drop JS whitespace from both ends. -/
def jsTrimList (cs : List Char) : List Char :=
  ((cs.dropWhile jsWhitespace).reverse.dropWhile jsWhitespace).reverse

/-- JS `String.prototype.trim` on `String`. -/
def jsTrim (s : String) : String :=
  String.mk (jsTrimList s.data)

/-- ASCII lower-casing, the effect of JS `toLowerCase` on the ASCII inputs
this code handles. -/
def asciiLower (s : String) : String :=
  String.mk (s.data.map Char.toLower)

/-! ## C1: the slug duplicate-suffix stripper

`stripWpDuplicateSuffix` (src/unnamed/part_010 lines 359-365, and the copy in
src/migration/sync_wp_insights_from_csv.mjs lines 114-121) matches the slug
against the regex `^(.*)-(\d{1,2})$`.  Since `(.*)` is greedy and cannot cross
a line terminator, the regex matches exactly when the slug ends in a literal
dash followed by one or two ASCII digits reaching the end of the string, with
every character before the dash acceptable to `.`; greediness makes the
one-digit reading preferred over the two-digit one.  `dupSuffixMatchRev`
implements that match on the reversed character list. -/

/-- Match of `^(.*)-(\d{1,2})$` against the reversed character list: returns
the captured base (in source order) and the numeric value of the digit
suffix. -/
def dupSuffixMatchRev (rc : List Char) : Option (List Char × Nat) :=
  match rc with
  | c1 :: c2 :: rest =>
    if c2 = '-' && jsDigit c1 && rest.all jsDot then
      some (rest.reverse, digitVal c1)
    else
      match rest with
      | c3 :: rest2 =>
        if c3 = '-' && jsDigit c2 && jsDigit c1 && rest2.all jsDot then
          some (rest2.reverse, 10 * digitVal c2 + digitVal c1)
        else none
      | [] => none
  | _ => none

/-- Embedding of `stripWpDuplicateSuffix`: strip a trailing `-n` when the
regex matches and `2 <= n <= 99` (the parsed one- or two-digit number is
always finite, so the `Number.isFinite` guard of the source never fires). -/
def stripWpDuplicateSuffix (slug : String) : String :=
  match dupSuffixMatchRev slug.data.reverse with
  | none => slug
  | some (base, n) => if n < 2 || 99 < n then slug else String.mk base

/-- Embedding of `isWpDuplicateSlug` (part_010 lines 367-369). -/
def isWpDuplicateSlug (slug : String) : Bool :=
  stripWpDuplicateSuffix slug != slug

/-! ## C4 / C10: the retry helper

`retry` (src/unnamed/part_003 lines 61-84) runs `fn` for attempts
`1..maxRetries`; a success returns immediately, a failure on the last attempt
re-throws the caught error, and any earlier failure sleeps `delay * attempt`
milliseconds before the next attempt.  If the loop is never entered the
trailing `throw new Error('Unreachable')` runs.  The embedding records, as
the observable behaviour, the final result, the list of sleep durations and
the number of invocations of `fn`; the behaviour of `fn` on the k-th
invocation is supplied as `fn k`. -/

/-- Result of a `retry` call: the awaited value, the re-thrown error of the
final attempt, or the trailing `Unreachable` error. -/
inductive RetryResult (ε α : Type) where
  | ok (value : α)
  | err (error : ε)
  | unreachable
  deriving DecidableEq

/-- Observable trace of a `retry` call. -/
structure RetryTrace (ε α : Type) where
  result : RetryResult ε α
  delays : List Nat
  calls : Nat
  deriving DecidableEq

/-- The attempt loop of `retry`, starting at a given attempt number. -/
def retryLoop (ε α : Type) (fn : Nat → Except ε α) (maxRetries delay attempt : Nat) :
    RetryTrace ε α :=
  if _h : attempt ≤ maxRetries then
    match fn attempt with
    | .ok v => ⟨.ok v, [], 1⟩
    | .error e =>
      if hl : attempt = maxRetries then ⟨.err e, [], 1⟩
      else
        let rest := retryLoop ε α fn maxRetries delay (attempt + 1)
        ⟨rest.result, delay * attempt :: rest.delays, rest.calls + 1⟩
  else ⟨.unreachable, [], 0⟩
termination_by maxRetries + 1 - attempt
decreasing_by omega

/-- Embedding of `retry` with explicit options (the source defaults are
`maxRetries = 3`, `delay = 1000`). -/
def retry (ε α : Type) (fn : Nat → Except ε α) (maxRetries delay : Nat) :
    RetryTrace ε α :=
  retryLoop ε α fn maxRetries delay 1

/-! ## A small model of JS values

`normalizeStrapiMedia` and `parseAcfBoolean` receive untyped JS values; `J`
models the value space the scripts traverse.  JS numbers are modelled by
`Int` (the code only compares them with the integers 0 and 1). -/

/-- Untyped JS values. -/
inductive J where
  | jundef
  | jnull
  | jbool (b : Bool)
  | jnum (n : Int)
  | jstr (s : String)
  | jarr (elems : List J)
  | jobj (fields : List (String × J))

/-- JS truthiness. -/
def truthy : J → Bool
  | .jundef => false
  | .jnull => false
  | .jbool b => b
  | .jnum n => n ≠ 0
  | .jstr s => s ≠ ""
  | .jarr _ => true
  | .jobj _ => true

/-- First binding of a key in an object literal (JS objects have unique
keys; the model reads the first one). -/
def getField : List (String × J) → String → Option J
  | [], _ => none
  | (k, v) :: rest, key => if k = key then some v else getField rest key

/-- `Object.prototype.hasOwnProperty`. -/
def hasOwn (fields : List (String × J)) (key : String) : Bool :=
  (getField fields key).isSome

/-- Property access `obj[key]`, which yields `undefined` for a missing key. -/
def getFieldD (fields : List (String × J)) (key : String) : J :=
  (getField fields key).getD J.jundef

/-- Assignment `obj[key] = v`: overwrite the existing binding in place, or
append a new one. -/
def setField : List (String × J) → String → J → List (String × J)
  | [], key, v => [(key, v)]
  | (k, w) :: rest, key, v =>
    if k = key then (k, v) :: rest else (k, w) :: setField rest key v

/-- Object spread `{ ...base, ...extra }` semantics: assign the bindings of
`extra` over `base` in order. -/
def spreadOnto (base : List (String × J)) (extra : List (String × J)) :
    List (String × J) :=
  extra.foldl (fun acc kv => setField acc kv.1 kv.2) base

/-! ## C6: Strapi media normalization

`normalizeStrapiMediaNode` and `normalizeStrapiMedia`
(src/complete-migration.mjs lines 36-61; an identical copy sits in
src/unnamed/part_000 lines 22-47). -/

/-- Embedding of `normalizeStrapiMediaNode`.  A falsy node becomes `null`;
a node with a truthy object-typed `attributes` field is flattened to
`{ id: node.id, ...node.attributes }` (JS arrays also have typeof
`object`, in which case the spread contributes index keys); anything else
is returned unchanged. -/
def normalizeStrapiMediaNode (node : J) : J :=
  if !truthy node then .jnull
  else
    match node with
    | .jobj fields =>
      match getField fields "attributes" with
      | some (J.jobj attrs) =>
        .jobj (spreadOnto [("id", getFieldD fields "id")] attrs)
      | some (J.jarr elems) =>
        .jobj (spreadOnto [("id", getFieldD fields "id")]
          (elems.enum.map (fun p => (toString p.1, p.2))))
      | _ => node
    | _ => node

/-- Embedding of `normalizeStrapiMedia`. -/
def normalizeStrapiMedia (value : J) : J :=
  if !truthy value then .jnull
  else
    match value with
    | .jarr elems => .jarr ((elems.map normalizeStrapiMediaNode).filter truthy)
    | .jobj fields =>
      if hasOwn fields "data" then
        let data := getFieldD fields "data"
        if !truthy data then .jnull
        else
          match data with
          | .jarr ds => .jarr ((ds.map normalizeStrapiMediaNode).filter truthy)
          | _ => normalizeStrapiMediaNode data
      else normalizeStrapiMediaNode value
    | _ => normalizeStrapiMediaNode value

/-! ## C7: the boolean parsers

`parseAcfBoolean` (src/unnamed/part_010 lines 225-234; also `parseBoolean`
in src/complete-migration.mjs lines 25-34) and the CSV `parseBoolean`
(src/migration/src, in the utils shown as src/unnamed/part_001 lines
79-83). -/

/-- Embedding of `parseAcfBoolean`: the if-chain of the source compares the
value with the literals `true`, `false`, `1`, `0`, the strings "1", "0",
"true", "false", "", and `null`/`undefined`; all those checks are on
distinct values, so the chain is written as a match, and the final line
coerces any remaining value with `Boolean(value)`. -/
def parseAcfBoolean : J → Bool
  | .jbool b => b
  | .jnum 1 => true
  | .jnum 0 => false
  | .jstr "1" => true
  | .jstr "0" => false
  | .jstr "true" => true
  | .jstr "false" => false
  | .jstr "" => false
  | .jnull => false
  | .jundef => false
  | v => truthy v

/-- Embedding of the CSV `parseBoolean`: falsy strings map to `false`,
otherwise the lower-cased trimmed value is compared with the three accepted
true-forms. -/
def parseBoolean (value : String) : Bool :=
  if value = "" then false
  else
    let normalized := jsTrim (asciiLower value)
    normalized = "true" || normalized = "yes" || normalized = "1"

/-! ## C8 / C9: the Strapi media downloader

`downloadImage`, `uploadToStrapi` and `processImage`
(src/migration/src/uploaders/media.ts lines 10-123).  The filename logic of
`downloadImage` is pure and embedded below; the HTTP layer is modelled by an
explicit outcome per request. -/

/-- Value of a hex digit, if any. -/
def hexVal : Char → Option Nat
  | c =>
    if '0' ≤ c && c ≤ '9' then some (c.toNat - 48)
    else if 'a' ≤ c && c ≤ 'f' then some (c.toNat - 87)
    else if 'A' ≤ c && c ≤ 'F' then some (c.toNat - 55)
    else none

/-- First pass of `decodeURIComponent`: replace each `%XX` escape by the
byte it denotes (`Sum.inl`), keep every other character (`Sum.inr`); a `%`
not followed by two hex digits raises a `URIError`, modelled by `none`. -/
def pctTokens : List Char → Option (List (Sum Nat Char))
  | [] => some []
  | '%' :: a :: b :: rest =>
    match hexVal a, hexVal b with
    | some ha, some hb => (pctTokens rest).map (Sum.inl (16 * ha + hb) :: ·)
    | _, _ => none
  | '%' :: _ => none
  | c :: rest => (pctTokens rest).map (Sum.inr c :: ·)

/-- Second pass of `decodeURIComponent`: decode consecutive escaped bytes
as UTF-8 (rejecting overlong encodings, surrogates and out-of-range code
points, which raise a `URIError`) and pass literal characters through.  A
multi-byte sequence must be completed by further escaped bytes. -/
def decodeTokens : List (Sum Nat Char) → Option (List Char)
  | [] => some []
  | .inr c :: rest => (decodeTokens rest).map (c :: ·)
  | .inl b0 :: rest =>
    if b0 < 0x80 then
      (decodeTokens rest).map (Char.ofNat b0 :: ·)
    else if 0xC2 ≤ b0 && b0 ≤ 0xDF then
      match rest with
      | .inl b1 :: rest1 =>
        if 0x80 ≤ b1 && b1 < 0xC0 then
          (decodeTokens rest1).map (Char.ofNat ((b0 - 0xC0) * 64 + (b1 - 0x80)) :: ·)
        else none
      | _ => none
    else if 0xE0 ≤ b0 && b0 ≤ 0xEF then
      match rest with
      | .inl b1 :: .inl b2 :: rest2 =>
        if (0x80 ≤ b1 && b1 < 0xC0) && (0x80 ≤ b2 && b2 < 0xC0) then
          let cp := (b0 - 0xE0) * 4096 + (b1 - 0x80) * 64 + (b2 - 0x80)
          if cp < 0x800 || (0xD800 ≤ cp && cp ≤ 0xDFFF) then none
          else (decodeTokens rest2).map (Char.ofNat cp :: ·)
        else none
      | _ => none
    else if 0xF0 ≤ b0 && b0 ≤ 0xF4 then
      match rest with
      | .inl b1 :: .inl b2 :: .inl b3 :: rest3 =>
        if (0x80 ≤ b1 && b1 < 0xC0) && (0x80 ≤ b2 && b2 < 0xC0) &&
            (0x80 ≤ b3 && b3 < 0xC0) then
          let cp := (b0 - 0xF0) * 262144 + (b1 - 0x80) * 4096 +
            (b2 - 0x80) * 64 + (b3 - 0x80)
          if cp < 0x10000 || 0x10FFFF < cp then none
          else (decodeTokens rest3).map (Char.ofNat cp :: ·)
        else none
      | _ => none
    else none

/-- `decodeURIComponent` on a character list. -/
def decodeURIComponentList (cs : List Char) : Option (List Char) :=
  (pctTokens cs).bind decodeTokens

/-- `decodeURIComponent` on strings. -/
def decodeURIComponentStr (s : String) : Option String :=
  (decodeURIComponentList s.data).map String.mk

/-- The character class `[a-zA-Z0-9._-]` kept by the filename clean-up. -/
def fsSafe (c : Char) : Bool :=
  ('a' ≤ c && c ≤ 'z') || ('A' ≤ c && c ≤ 'Z') || ('0' ≤ c && c ≤ '9') ||
  c = '.' || c = '_' || c = '-'

/-- JS `String.prototype.split` with a single-character separator: split at
every occurrence, keeping empty parts. -/
def splitOnChar (sep : Char) : List Char → List (List Char)
  | [] => [[]]
  | c :: rest =>
    match splitOnChar sep rest with
    | [] => [[]]
    | g :: gs => if c = sep then [] :: g :: gs else (c :: g) :: gs

/-- The filename-from-URL step of `downloadImage`: last `/`-separated part
of the URL, cut at the first `?`. -/
def rawUrlFilename (url : String) : String :=
  String.mk ((splitOnChar '?' ((splitOnChar '/' url.data).getLastD [])).headD [])

/-- The cleaned filename of `downloadImage`:
`decodeURIComponent(filename).replace(/[^a-zA-Z0-9._-]/g, "_")`; `none`
models the `URIError` a malformed escape raises. -/
def dlCleanedBase (url : String) : Option String :=
  (decodeURIComponentList (rawUrlFilename url).data).map
    (fun cs => String.mk (cs.map (fun c => if fsSafe c then c else '_')))

/-- `response.headers["content-type"] || "image/jpeg"`: an absent or empty
header falls back to the JPEG content type. -/
def contentTypeOrDefault (header : Option String) : String :=
  match header with
  | some s => if s = "" then "image/jpeg" else s
  | none => "image/jpeg"

/-- The extension inference of `downloadImage`:
`contentType.split("/")[1]?.split(";")[0] || "jpg"`. -/
def extFromContentType (ct : String) : String :=
  match (splitOnChar '/' ct.data).get? 1 with
  | none => "jpg"
  | some sub =>
    let e := (splitOnChar ';' sub).headD []
    if e = [] then "jpg" else String.mk e

/-- The complete filename computation of `downloadImage` for a response
with the given content-type header. -/
def downloadFilename (url : String) (header : Option String) : Option String :=
  (dlCleanedBase url).map (fun base =>
    if base.data.contains '.' then base
    else base ++ "." ++ extFromContentType (contentTypeOrDefault header))

/-- Failure of an HTTP request as seen by the catch blocks: an error
carrying a response status, a failure with no response object (network
error, timeout), or the `URIError` thrown by `decodeURIComponent`. -/
inductive HttpFailure where
  | status (code : Nat)
  | network
  | badUri
  deriving DecidableEq

/-- A successful `axios.get` response: the content-type header (if any) and
the body bytes. -/
structure HttpSuccess where
  contentType : Option String
  body : List Nat
  deriving DecidableEq

/-- The value `downloadImage` resolves with on success. -/
structure DownloadedImage where
  buffer : List Nat
  filename : String
  contentType : String
  deriving DecidableEq

/-- Embedding of `downloadImage` (media.ts lines 10-46) applied to the
outcome of its single `axios.get`: on success the filename is derived (a
`URIError` from `decodeURIComponent` propagates out of the catch, whose
`error.response?.status === 404` test it fails); a failure resolves with
`null` when its status is 404 and is re-thrown otherwise. -/
def downloadImage (url : String) :
    Except HttpFailure HttpSuccess → Except HttpFailure (Option DownloadedImage)
  | .error f => if f = .status 404 then .ok none else .error f
  | .ok resp =>
    match downloadFilename url resp.contentType with
    | none => .error .badUri
    | some fname =>
      .ok (some ⟨resp.body, fname, contentTypeOrDefault resp.contentType⟩)

/-- Environment of one attempt inside `processImage`: the outcome of the
`axios.get` download and, if an upload happens, the media id it returns or
the error it throws. -/
structure AttemptEnv where
  download : Except HttpFailure HttpSuccess
  upload : Except HttpFailure Int

/-- One attempt of the function `processImage` passes to `retry`: download,
return `null` on an absent image, otherwise upload. -/
def processAttempt (url : String) (env : AttemptEnv) :
    Except HttpFailure (Option Int) :=
  match downloadImage url env.download with
  | .error e => .error e
  | .ok none => .ok none
  | .ok (some _) => env.upload.map some

/-- Embedding of `processImage` (media.ts lines 87-106): an empty URL short
circuits to `null`; otherwise the attempt is retried with `maxRetries = 3`,
`delay = 1000`, and any error left after the retries is caught, turning the
result into `null`.  The returned pair is the resolved media id (or `none`)
and the list of sleeps performed. -/
def processImage (url : String) (envs : Nat → AttemptEnv) :
    Option Int × List Nat :=
  if url = "" then (none, [])
  else
    let t := retry HttpFailure (Option Int) (fun k => processAttempt url (envs k)) 3 1000
    match t.result with
    | .ok v => (v, t.delays)
    | _ => (none, t.delays)

/-! ## C3: slug deduplication

`pickPreferredBySlug` and `dedupeBySlug` (src/unnamed/part_010 lines
371-404).  A record carries a slug, the parse of its `date` field
(`Date.parse` returns a finite millisecond count or `NaN`; a falsy `date`
also yields `NaN`; both are modelled by `none`), and `Number(id)` (`none`
models `NaN`). -/

/-- A destination record as `dedupeBySlug` sees it. -/
structure WPRecord where
  slug : String
  dateMs : Option Int
  idNum : Option Int
  deriving DecidableEq

/-- The id tiebreak at the end of `pickPreferredBySlug`: the larger finite
id wins, otherwise the first record is kept. -/
def pickById (a b : WPRecord) : WPRecord :=
  match a.idNum, b.idNum with
  | some ai, some bi => if ai ≠ bi then (if bi < ai then a else b) else a
  | _, _ => a

/-- Embedding of `pickPreferredBySlug`: a non-duplicate slug beats a
duplicate one; then a later finite date wins; then the id tiebreak. -/
def pickPreferredBySlug (a b : WPRecord) : WPRecord :=
  let aIsDup := isWpDuplicateSlug a.slug
  let bIsDup := isWpDuplicateSlug b.slug
  if aIsDup ≠ bIsDup then (if aIsDup then b else a)
  else
    match a.dateMs, b.dateMs with
    | some ad, some bd =>
      if ad ≠ bd then (if bd < ad then a else b) else pickById a b
    | _, _ => pickById a b

/-- Lookup in the association-list model of the JS `Map` keyed by base
slug. -/
def findBySlug : List (String × WPRecord) → String → Option WPRecord
  | [], _ => none
  | (k, v) :: rest, key => if k = key then some v else findBySlug rest key

/-- `Map.prototype.set`: overwrite the value of an existing key in place
(keeping its insertion position), or append a new entry. -/
def setBySlug : List (String × WPRecord) → String → WPRecord → List (String × WPRecord)
  | [], key, v => [(key, v)]
  | (k, w) :: rest, key, v =>
    if k = key then (k, v) :: rest else (k, w) :: setBySlug rest key v

/-- The loop body of `dedupeBySlug`. -/
def dedupeInsert (m : List (String × WPRecord)) (item : WPRecord) :
    List (String × WPRecord) :=
  let key := stripWpDuplicateSuffix item.slug
  match findBySlug m key with
  | none => setBySlug m key item
  | some existing => setBySlug m key (pickPreferredBySlug existing item)

/-- Embedding of `dedupeBySlug`: fold the items into the map and return its
values in key-insertion order (`Array.from(map.values())`). -/
def dedupeBySlug (items : List WPRecord) : List WPRecord :=
  (items.foldl dedupeInsert []).map Prod.snd

/-- The priority order of claim C3, read off the spec: a record `x` beats a
record `r` of the same base-slug group when `x` has a non-duplicate slug and
`r` has not, or (at equal duplicate status) `x` carries a strictly later
finite publish timestamp, or (at equal duplicate status and equal
timestamp field) a strictly higher finite numeric id. -/
def claimBeats (x r : WPRecord) : Prop :=
  (isWpDuplicateSlug r.slug = true ∧ isWpDuplicateSlug x.slug = false) ∨
  (isWpDuplicateSlug x.slug = isWpDuplicateSlug r.slug ∧
    ∃ dx dr : Int, x.dateMs = some dx ∧ r.dateMs = some dr ∧ dr < dx) ∨
  (isWpDuplicateSlug x.slug = isWpDuplicateSlug r.slug ∧ x.dateMs = r.dateMs ∧
    ∃ ix ir : Int, x.idNum = some ix ∧ r.idNum = some ir ∧ ir < ix)

/-- Rank triple of a record with finite date and id: non-duplicate slugs
rank above duplicate ones, then the date, then the id. -/
def rankTriple (r : WPRecord) : Nat × Int × Int :=
  (if isWpDuplicateSlug r.slug then 0 else 1, r.dateMs.getD 0, r.idNum.getD 0)

/-- Strict lexicographic order on rank triples. -/
def tripleLt (s t : Nat × Int × Int) : Prop :=
  s.1 < t.1 ∨ (s.1 = t.1 ∧ (s.2.1 < t.2.1 ∨ (s.2.1 = t.2.1 ∧ s.2.2 < t.2.2)))

instance tripleLtDec (s t : Nat × Int × Int) : Decidable (tripleLt s t) := by
  unfold tripleLt
  infer_instance

/-- Value of a one- or two-digit suffix. -/
def dupDigitsVal : List Char → Nat
  | [c] => digitVal c
  | [c1, c2] => 10 * digitVal c1 + digitVal c2
  | _ => 0

/-! ## Regex scanner machinery

The sanitizer `normalizeWpRichText` and the table recovery
`recoverFlatTgTable` are built from JS global-regex replaces.  A global
replace scans left to right: at each index it attempts the pattern; on a
match it emits the replacement and resumes after the match, otherwise it
emits the character and advances by one.  `scanRepl` implements that
discipline for a pattern-attempt function returning the replacement and
the rest of the input after the match; every pattern below consumes at
least one character, so running with fuel equal to the input length is
exact.  `scanReplB` additionally tracks the previously consumed source
character, which word boundaries and `(^|[^\n])` style prefixes need. -/

def scanRepl (tryFn : List Char → Option (List Char × List Char)) :
    Nat → List Char → List Char
  | 0, cs => cs
  | _ + 1, [] => []
  | fuel + 1, c :: cs =>
    match tryFn (c :: cs) with
    | some (rep, rest) => rep ++ scanRepl tryFn fuel rest
    | none => c :: scanRepl tryFn fuel cs

/-- Run a global replace on a string. -/
def runRepl (tryFn : List Char → Option (List Char × List Char))
    (s : String) : String :=
  String.mk (scanRepl tryFn s.data.length s.data)

/-- Count the matches of a pattern, as `String.prototype.match` with a
global regex does. -/
def countMatches (tryFn : List Char → Option (List Char × List Char)) :
    Nat → List Char → Nat
  | 0, _ => 0
  | _ + 1, [] => 0
  | fuel + 1, c :: cs =>
    match tryFn (c :: cs) with
    | some (_, rest) => countMatches tryFn fuel rest + 1
    | none => countMatches tryFn fuel cs

/-- Global replace with the previous source character available to the
pattern (boundaries consult the source string, not the output). -/
def scanReplB
    (tryFn : Option Char → List Char → Option (List Char × List Char)) :
    Nat → Option Char → List Char → List Char
  | 0, _, cs => cs
  | _ + 1, _, [] => []
  | fuel + 1, prev, c :: cs =>
    match tryFn prev (c :: cs) with
    | some (rep, rest) =>
      rep ++ scanReplB tryFn fuel (((c :: cs).take ((c :: cs).length - rest.length)).getLast? ) rest
    | none => c :: scanReplB tryFn fuel (some c) cs

/-- Run a boundary-aware global replace on a string. -/
def runReplB
    (tryFn : Option Char → List Char → Option (List Char × List Char))
    (s : String) : String :=
  String.mk (scanReplB tryFn s.data.length none s.data)

/-- The JS regex class `\w`: ASCII letters, digits and underscore. -/
def wordChar (c : Char) : Bool :=
  ('a' ≤ c && c ≤ 'z') || ('A' ≤ c && c ≤ 'Z') || ('0' ≤ c && c ≤ '9') ||
  c = '_'

/-- ASCII letters. -/
def isAsciiLetter (c : Char) : Bool :=
  ('a' ≤ c && c ≤ 'z') || ('A' ≤ c && c ≤ 'Z')

/-- Hex digit test. -/
def isHexDigit (c : Char) : Bool :=
  ('0' ≤ c && c ≤ '9') || ('a' ≤ c && c ≤ 'f') || ('A' ≤ c && c ≤ 'F')

/-- Match a literal pattern case-insensitively (the pattern is given in
lower case); returns the rest of the input. -/
def matchCI : List Char → List Char → Option (List Char)
  | [], cs => some cs
  | _ :: _, [] => none
  | p :: ps, c :: cs => if c.toLower = p then matchCI ps cs else none

/-- Match a literal pattern case-sensitively; returns the rest. -/
def matchCS : List Char → List Char → Option (List Char)
  | [], cs => some cs
  | _ :: _, [] => none
  | p :: ps, c :: cs => if c = p then matchCS ps cs else none

/-- Replace every occurrence of a character by a string (a JS global
single-character replace). -/
def replaceChar (target : Char) (rep : List Char) (cs : List Char) :
    List Char :=
  cs.flatMap (fun c => if c = target then rep else [c])

/-- Remove every character satisfying the class (a JS global replace of a
one-character class by the empty string). -/
def removeClass (cls : Char → Bool) (cs : List Char) : List Char :=
  cs.filter (fun c => !(cls c))

/-- Replace every maximal run of `[\s ]+` by a single space (the
collapse step of `normalizeHeaderText` and `splitRowTokens`). -/
def collapseWsAux : Bool → List Char → List Char
  | _, [] => []
  | inRun, c :: cs =>
    if jsWhitespace c then
      if inRun then collapseWsAux true cs else ' ' :: collapseWsAux true cs
    else c :: collapseWsAux false cs

/-- Value of a list of hex digits. -/
def hexListVal (ds : List Char) : Nat :=
  ds.foldl (fun acc c => acc * 16 + ((hexVal c).getD 0)) 0

/-- Value of a list of decimal digits. -/
def decListVal (ds : List Char) : Nat :=
  ds.foldl (fun acc c => acc * 10 + digitVal c) 0

/-- The named entities of `decodeHtmlEntities`. -/
def namedEntity (name : List Char) : Option Char :=
  if name = ['a', 'm', 'p'] then some '&'
  else if name = ['l', 't'] then some '<'
  else if name = ['g', 't'] then some '>'
  else if name = ['q', 'u', 'o', 't'] then some '"'
  else if name = ['a', 'p', 'o', 's'] then some '\''
  else if name = ['n', 'b', 's', 'p'] then some ' '
  else none

/-- The pattern attempt of `decodeHtmlEntities`
(src/unnamed/part_010 lines 246-272), regex `&(#x?[0-9a-fA-F]+|[a-zA-Z]+);`
with the replacement callback of the source.  A numeric entity uses
`parseInt`, which parses the longest digit prefix in base 10 (so `&#1a;`
yields code point 1) and yields NaN when there is none, in which case the
match is kept.  `String.fromCodePoint` throws beyond U+10FFFF and the
catch keeps the match; a surrogate code point would produce a lone
surrogate, which `Char` cannot carry, so the model keeps the match text
for surrogates as well (none of the repository content contains one). -/
def entityTry (cs : List Char) : Option (List Char × List Char) :=
  match cs with
  | [] => none
  | c :: rest =>
    if c = '&' then
      match rest with
      | '#' :: r2 =>
        match r2 with
        | 'x' :: r3 =>
          let hs := r3.takeWhile isHexDigit
          if hs ≠ [] ∧ (r3.drop hs.length).headD ' ' = ';' then
            let matched := '&' :: '#' :: 'x' :: hs ++ [';']
            let rest2 := (r3.drop hs.length).drop 1
            let num := hexListVal hs
            if num ≤ 0x10FFFF ∧ ¬ (0xD800 ≤ num ∧ num ≤ 0xDFFF) then
              some ([Char.ofNat num], rest2)
            else some (matched, rest2)
          else none
        | _ =>
          let ds := r2.takeWhile isHexDigit
          if ds ≠ [] ∧ (r2.drop ds.length).headD ' ' = ';' then
            let matched := '&' :: '#' :: ds ++ [';']
            let rest2 := (r2.drop ds.length).drop 1
            let digits := ds.takeWhile jsDigit
            if digits = [] then some (matched, rest2)
            else
              let num := decListVal digits
              if num ≤ 0x10FFFF ∧ ¬ (0xD800 ≤ num ∧ num ≤ 0xDFFF) then
                some ([Char.ofNat num], rest2)
              else some (matched, rest2)
          else none
      | _ =>
        let ls := rest.takeWhile isAsciiLetter
        if ls ≠ [] ∧ (rest.drop ls.length).headD ' ' = ';' then
          let matched := '&' :: ls ++ [';']
          let rest2 := (rest.drop ls.length).drop 1
          match namedEntity (ls.map Char.toLower) with
          | some ch => some ([ch], rest2)
          | none => some (matched, rest2)
        else none
    else none

/-- Embedding of `decodeHtmlEntities` on character lists. -/
def decodeEntitiesList (cs : List Char) : List Char :=
  scanRepl entityTry cs.length cs

/-- Embedding of `decodeHtmlEntities`. -/
def decodeHtmlEntities (s : String) : String :=
  String.mk (decodeEntitiesList s.data)

/-- Earliest occurrence of a literal pattern (case-sensitive): the text
before it and the rest after it. -/
def findSub (pat : List Char) : List Char → Option (List Char × List Char)
  | [] => none
  | c :: rest =>
    match matchCS pat (c :: rest) with
    | some after => some ([], after)
    | none =>
      match findSub pat rest with
      | some (pre, after) => some (c :: pre, after)
      | none => none

/-- Earliest occurrence of a literal pattern, case-insensitive. -/
def findSubCI (pat : List Char) : List Char → Option (List Char × List Char)
  | [] => none
  | c :: rest =>
    match matchCI pat (c :: rest) with
    | some after => some ([], after)
    | none =>
      match findSubCI pat rest with
      | some (pre, after) => some (c :: pre, after)
      | none => none

/-- Substring test (`String.prototype.includes`), case-sensitive. -/
def containsSub (pat : List Char) (cs : List Char) : Bool :=
  (findSub pat cs).isSome

/-- `<\s*br\s*\/?\s*>` (case-insensitive), replaced by `rep`. -/
def brTry (rep : List Char) (cs : List Char) : Option (List Char × List Char) :=
  match cs with
  | [] => none
  | c :: rest =>
    if c = '<' then
      let r2 := rest.dropWhile jsWhitespace
      match matchCI ['b', 'r'] r2 with
      | none => none
      | some r3 =>
        let r4 := r3.dropWhile jsWhitespace
        let r5 := if r4.headD ' ' = '/' then r4.drop 1 else r4
        let r6 := r5.dropWhile jsWhitespace
        if r6.headD ' ' = '>' then some (rep, r6.drop 1) else none
    else none

/-- `<!--[\s\S]*?-->`, replaced by the empty string. -/
def commentTry (cs : List Char) : Option (List Char × List Char) :=
  match cs with
  | [] => none
  | c :: rest =>
    if c = '<' then
      match matchCS ['!', '-', '-'] rest with
      | none => none
      | some r2 =>
        match findSub ['-', '-', '>'] r2 with
        | some (_, after) => some ([], after)
        | none => none
    else none

/-- `<\/?span\b[^>]*>` (case-insensitive), replaced by the empty
string. -/
def spanTagTry (cs : List Char) : Option (List Char × List Char) :=
  match cs with
  | [] => none
  | c :: rest =>
    if c = '<' then
      let r2 := if rest.headD ' ' = '/' then rest.drop 1 else rest
      match matchCI ['s', 'p', 'a', 'n'] r2 with
      | none => none
      | some r3 =>
        if wordChar (r3.headD ' ') then none
        else
          let attrs := r3.takeWhile (· ≠ '>')
          if (r3.drop attrs.length).headD ' ' = '>' then
            some ([], (r3.drop attrs.length).drop 1)
          else none
    else none

/-- `<[^>]+>`, replaced by the empty string. -/
def anyTagTry (cs : List Char) : Option (List Char × List Char) :=
  match cs with
  | [] => none
  | c :: rest =>
    if c = '<' then
      let body := rest.takeWhile (· ≠ '>')
      if body ≠ [] ∧ (rest.drop body.length).headD ' ' = '>' then
        some ([], (rest.drop body.length).drop 1)
      else none
    else none

/-- Try an alternation of case-insensitive literal patterns. -/
def tryPats (pats : List (List Char)) (cs : List Char) : Option (List Char) :=
  match pats with
  | [] => none
  | p :: ps =>
    match matchCI p cs with
    | some rest => some rest
    | none => tryPats ps cs

/-- An alternation of entity literals starting with an ampersand,
replaced by `rep`. -/
def ampAltTry (pats : List (List Char)) (rep : List Char)
    (cs : List Char) : Option (List Char × List Char) :=
  match cs with
  | [] => none
  | c :: _ =>
    if c = '&' then (tryPats pats cs).map (fun rest => (rep, rest))
    else none

/-- The zero-width class `[​‌‍﻿]`. -/
def zwClass (c : Char) : Bool :=
  c.val = 0x200B || c.val = 0x200C || c.val = 0x200D || c.val = 0xFEFF

/-- The class `[\s ​‌‍﻿]` of
`isIgnorableBetween`. -/
def ignorableWsClass (c : Char) : Bool :=
  jsWhitespace c || zwClass c

/-- Embedding of `isIgnorableBetween` (part_010 lines 1042-1051): strip
comments, br tags, span tags, all remaining tags, the listed entities and
all whitespace or zero-width characters, and test for emptiness. -/
def isIgnorableBetween (between : List Char) : Bool :=
  let s1 := scanRepl commentTry between.length between
  let s2 := scanRepl (brTry []) s1.length s1
  let s3 := scanRepl spanTagTry s2.length s2
  let s4 := scanRepl anyTagTry s3.length s3
  let s5 := scanRepl
    (ampAltTry [("&nbsp;").data, ("&#160;").data, ("&#xa0;").data,
      ("&zerowidthspace;").data] []) s4.length s4
  let s6 := removeClass ignorableWsClass s5
  s6.length = 0

/-- Embedding of `escapeHtml` (part_010 lines 1017-1025): the five
global replaces applied in order. -/
def escapeHtmlList (cs : List Char) : List Char :=
  replaceChar '\'' ("&#39;").data
    (replaceChar '"' ("&quot;").data
      (replaceChar '>' ("&gt;").data
        (replaceChar '<' ("&lt;").data
          (replaceChar '&' ("&amp;").data cs))))

/-- A maximal run of at least `minLen` newlines, replaced by `rep`. -/
def nlRunTry (minLen : Nat) (rep : List Char) (cs : List Char) :
    Option (List Char × List Char) :=
  match cs with
  | [] => none
  | c :: _ =>
    if c = '\n' then
      let run := cs.takeWhile (· = '\n')
      if minLen ≤ run.length then some (rep, cs.drop run.length) else none
    else none

/-- Embedding of `formatCellHtml` (part_010 lines 1053-1056). -/
def formatCellHtml (text : String) : List Char :=
  replaceChar '\n' ("<br/>").data
    (scanRepl (nlRunTry 2 ['\n']) (escapeHtmlList text.data).length
      (escapeHtmlList text.data))

/-- Embedding of `normalizeHeaderText` (part_010 lines 1035-1040). -/
def normalizeHeaderText (s : String) : String :=
  String.mk ((jsTrimList (collapseWsAux false s.data)).map Char.toLower)

/-- The zero-width joiner string the source compares cell text with. -/
def zwjStr : String :=
  String.mk [Char.ofNat 0x200D]

/-- Embedding of `splitRowTokens` (part_010 lines 1058-1071).  The
source splits on `|` when pipes are present and on `/\n+/` otherwise;
splitting on every single newline differs from `/\n+/` only by empty
parts, which the subsequent trim-and-filter drops either way. -/
def splitRowTokens (s : String) : Option (List String) :=
  let raw := s.data
  let hasNewline := raw.contains '\n'
  let hasPipes := raw.contains '|'
  if ¬ hasNewline ∧ ¬ hasPipes then none
  else
    let rawParts := if hasPipes then splitOnChar '|' raw else splitOnChar '\n' raw
    let parts := (rawParts.map (fun p => jsTrimList (collapseWsAux false p))).filter
      (fun p => p ≠ [])
    if parts.length < 2 then none
    else if 6 < parts.length then none
    else some (parts.map String.mk)

/-- The per-paragraph text extraction of `recoverOnce` (part_010 lines
1082-1087): decode entities, turn br tags into newlines, strip tags,
replace nbsp entities by spaces, drop zero-width characters and trim. -/
def pMatchText (inner : List Char) : String :=
  let s1 := decodeEntitiesList inner
  let s2 := scanRepl (brTry ['\n']) s1.length s1
  let s3 := scanRepl anyTagTry s2.length s2
  let s4 := scanRepl
    (ampAltTry [("&nbsp;").data, ("&#160;").data, ("&#xa0;").data] [' '])
    s3.length s3
  let s5 := removeClass zwClass s4
  String.mk (jsTrimList s5)

/-- One match of the paragraph regex `<p\b[^>]*>[\s\S]*?<\/p>`: the gap
before it, the open tag, the inner text and the close tag, all as they
appear in the source. -/
structure PSeg where
  gap : List Char
  openTag : List Char
  inner : List Char
  close : List Char

/-- Render a paragraph segment back to text. -/
def renderPSeg (s : PSeg) : List Char :=
  s.gap ++ s.openTag ++ s.inner ++ s.close

/-- Attempt `<p\b[^>]*>` at the head: the matched open tag and the
rest. -/
def pTryOpen (cs : List Char) : Option (List Char × List Char) :=
  match cs with
  | [] => none
  | c0 :: rest0 =>
    if c0 = '<' then
      match rest0 with
      | [] => none
      | c :: rest =>
        if c = 'p' ∨ c = 'P' then
          match rest with
          | [] => none
          | _ =>
            if wordChar (rest.headD ' ') then none
            else
              let attrs := rest.takeWhile (· ≠ '>')
              if (rest.drop attrs.length).headD ' ' = '>' then
                some ('<' :: c :: attrs ++ ['>'], (rest.drop attrs.length).drop 1)
              else none
        else none
    else none

/-- Earliest `<\/p>` (case-insensitive on the letter): the inner text
before it, the close tag as written, and the rest. -/
def findCloseP : List Char → Option (List Char × List Char × List Char)
  | [] => none
  | c0 :: rest =>
    (match c0, rest with
     | '<', '/' :: c :: '>' :: rest2 =>
       if c = 'p' ∨ c = 'P' then some ([], ['<', '/', c, '>'], rest2)
       else
         match findCloseP rest with
         | some (inner, close, r) => some (c0 :: inner, close, r)
         | none => none
     | _, _ =>
       match findCloseP rest with
       | some (inner, close, r) => some (c0 :: inner, close, r)
       | none => none)

/-- Prepend a character to the gap of the first segment, or to the
trailing text when there is no segment. -/
def consGap (c : Char) : List PSeg × List Char → List PSeg × List Char
  | ([], trail) => ([], c :: trail)
  | (seg :: segs, trail) => (⟨c :: seg.gap, seg.openTag, seg.inner, seg.close⟩ :: segs, trail)

/-- The global scan of the paragraph regex: the list of matches (with
their gaps) and the trailing text.  Concatenating the rendered segments
and the trail reproduces the input. -/
def scanPSegs : Nat → List Char → List PSeg × List Char
  | 0, cs => ([], cs)
  | _ + 1, [] => ([], [])
  | fuel + 1, c :: cs =>
    match pTryOpen (c :: cs) with
    | some (openTag, rest) =>
      match findCloseP rest with
      | some (inner, close, rest2) =>
        let r := scanPSegs fuel rest2
        (⟨[], openTag, inner, close⟩ :: r.1, r.2)
      | none => consGap c (scanPSegs fuel cs)
    | none => consGap c (scanPSegs fuel cs)

/-- A header configuration of `recoverFlatTgTable`. -/
structure HeaderCfg where
  columns : Nat
  expectedHeader : List String

/-- The two header configurations (part_010 lines 1030-1033). -/
def headerConfigs : List HeaderCfg :=
  [⟨4, ["variable", "category", "subcategory", "details"]⟩,
   ⟨3, ["key metrics", "category", "details"]⟩]

/-- A row of tokens matches a configuration header cell by cell. -/
def rowMatchesCfg (row : List String) (cfg : HeaderCfg) : Bool :=
  row.length = cfg.columns &&
  (row.zip cfg.expectedHeader).all (fun p => normalizeHeaderText p.1 = p.2)

/-- The inner while loop of the header search (part_010 lines 1120-1134):
walk the following paragraph texts, skipping blank or zero-width-joiner
ones, and require the remaining expected header cells in order. -/
def headerScan : List String → List String → Bool
  | [], _ => true
  | _ :: _, [] => false
  | e :: es, t :: ts =>
    let n := normalizeHeaderText t
    if n = "" ∨ n = zwjStr then headerScan (e :: es) ts
    else if n = e then headerScan es ts
    else false

/-- The header search of `recoverOnce` (part_010 lines 1093-1146) over
the paragraph matches paired with their texts: the matches before the
header, the configuration, the row tokens when the header sat in a single
pipe- or newline-separated paragraph, the header match and the matches
after it. -/
def findHeaderSplit :
    List (PSeg × String) →
    Option (List (PSeg × String) × HeaderCfg × Option (List String) ×
      (PSeg × String) × List (PSeg × String))
  | [] => none
  | st :: rest =>
    let t0 := normalizeHeaderText st.2
    if t0 = "" ∨ t0 = zwjStr then
      (findHeaderSplit rest).map
        (fun r => (st :: r.1, r.2.1, r.2.2.1, r.2.2.2.1, r.2.2.2.2))
    else
      let rowHit :=
        match splitRowTokens st.2 with
        | some row => headerConfigs.find? (fun cfg => rowMatchesCfg row cfg)
        | none => none
      match rowHit with
      | some cfg => some ([], cfg, (splitRowTokens st.2), st, rest)
      | none =>
        match headerConfigs.find? (fun cfg =>
            decide (t0 = cfg.expectedHeader.headD "") &&
            headerScan cfg.expectedHeader.tail (rest.map Prod.snd)) with
        | some cfg => some ([], cfg, none, st, rest)
        | none =>
          (findHeaderSplit rest).map
            (fun r => (st :: r.1, r.2.1, r.2.2.1, r.2.2.2.1, r.2.2.2.2))

/-- `/^#{1,6}\s+/`. -/
def isHeadingText (t : String) : Bool :=
  let hs := t.data.takeWhile (· = '#')
  1 ≤ hs.length && hs.length ≤ 6 &&
  jsWhitespace ((t.data.drop hs.length).headD 'x')

/-- `/<\s*h[1-6]\b/i.test`. -/
def containsHTag : List Char → Bool
  | [] => false
  | c :: rest =>
    (if c = '<' then
      match rest.dropWhile jsWhitespace with
      | h :: d :: r3 =>
        h.toLower = 'h' && ('1' ≤ d && d ≤ '6') && !(wordChar (r3.headD ' '))
      | _ => false
    else false) || containsHTag rest

/-- Result of the cell collection loop: the collected cells and the not
yet consumed matches (each with the gap before it). -/
structure CollectRes where
  cells : List String
  remaining : List (List Char × PSeg × String)

/-- The cell collection loop of `recoverOnce` (part_010 lines
1151-1192): walk the matches while the gap before each is ignorable,
counting blank paragraphs (two in a row stop the scan once at least two
rows of cells are present), stopping at heading-like text or at a heading
tag in the gap, and pushing either the split row tokens (at a row start,
when they fill a row) or the whole text. -/
def collectCells (columns : Nat) :
    List (List Char × PSeg × String) → List String → Nat → CollectRes
  | [], cells, _ => ⟨cells, []⟩
  | (between, seg, text) :: rest, cells, blankStreak =>
    if ¬ isIgnorableBetween between then ⟨cells, (between, seg, text) :: rest⟩
    else if text = "" ∨ text = zwjStr then
      if 2 ≤ blankStreak + 1 ∧ columns * 2 ≤ cells.length then
        ⟨cells, (between, seg, text) :: rest⟩
      else collectCells columns rest cells (blankStreak + 1)
    else if isHeadingText text then ⟨cells, (between, seg, text) :: rest⟩
    else if containsHTag between then ⟨cells, (between, seg, text) :: rest⟩
    else
      let cells2 :=
        if cells.length % columns = 0 then
          match splitRowTokens text with
          | some row =>
            if row.length = columns then cells ++ row else cells ++ [text]
          | none => cells ++ [text]
        else cells ++ [text]
      collectCells columns rest cells2 0

/-- Render the not yet consumed matches back to text. -/
def renderRemaining (l : List (List Char × PSeg × String)) : List Char :=
  l.flatMap (fun t => t.1 ++ t.2.1.openTag ++ t.2.1.inner ++ t.2.1.close)

/-- Build the replacement table (part_010 lines 1205-1210). -/
def buildTable (header : List String) (rowsNormalized : List String)
    (columns rowCount : Nat) : List Char :=
  let thead := ("<thead><tr>").data ++
    header.flatMap (fun h => ("<th>").data ++ formatCellHtml h ++ ("</th>").data) ++
    ("</tr></thead>").data
  let tbodyRows := (List.range rowCount).flatMap (fun i =>
    ("<tr>").data ++
    ((rowsNormalized.drop (i * columns)).take columns).flatMap
      (fun c => ("<td>").data ++ formatCellHtml c ++ ("</td>").data) ++
    ("</tr>").data)
  ("<table>").data ++ thead ++ ("<tbody>").data ++ tbodyRows ++
    ("</tbody></table>").data

/-- Embedding of `recoverOnce` (part_010 lines 1073-1215). -/
def recoverOnce (html : List Char) : Bool × List Char :=
  let scanned := scanPSegs html.length html
  let segs := scanned.1
  let trail := scanned.2
  if segs.length < 6 then (false, html)
  else
    let pairs := segs.map (fun s => (s, pMatchText s.inner))
    match findHeaderSplit pairs with
    | none => (false, html)
    | some (before, cfg, single, headerPair, afterPairs) =>
      let columns := cfg.columns
      let afterTriples := afterPairs.map (fun p => (p.1.gap, p.1, p.2))
      let res :=
        match single with
        | some row => collectCells columns afterTriples row 0
        | none =>
          collectCells columns ((([], headerPair.1, headerPair.2)) :: afterTriples)
            [] 0
      let cells := res.cells
      if cells.length < columns * 2 then (false, html)
      else
        let header := cells.take columns
        if ¬ ((header.zip cfg.expectedHeader).all
            (fun p => normalizeHeaderText p.1 = p.2)) then (false, html)
        else
          let rows := cells.drop columns
          let rowCount := rows.length / columns
          if rowCount < 1 then (false, html)
          else
            let rowsNormalized := rows.take (rowCount * columns)
            let table := buildTable header rowsNormalized columns rowCount
            let pre := before.flatMap (fun p => renderPSeg p.1) ++ headerPair.1.gap
            let suf := renderRemaining res.remaining ++ trail
            (true, pre ++ table ++ suf)

/-- The bounded fixpoint loop of `recoverFlatTgTable` (part_010 lines
1217-1223): up to five recovery passes, stopping at the first unchanged
one. -/
def recoverLoop : Nat → List Char → List Char
  | 0, cs => cs
  | n + 1, cs =>
    let r := recoverOnce cs
    if r.1 then recoverLoop n r.2 else cs

/-- Embedding of `recoverFlatTgTable`. -/
def recoverFlatTgTable (s : String) : String :=
  String.mk (recoverLoop 5 s.data)

/-! ## The sanitizer `normalizeWpRichText` (part_010 lines 1226-1369) -/

/-- The WP base URL, the default of `PUBLIC_WP_URL`. -/
def WP_URL : String := "https://admin.ahmadkarmi.com"

/-- The site base URL, the default of `PUBLIC_SITE_URL`. -/
def SITE_URL : String := "https://www.ahmadkarmi.com"

/-- Hostname extraction of `new URL(value).hostname`, modelled for the
http/https URLs this code feeds it (no IPv6 or IDN forms appear): the
authority up to the first `/`, `?` or `#`, without userinfo and port,
lower-cased; `none` models the `TypeError` thrown on other inputs. -/
def parseUrlHost (s : String) : Option String :=
  let cs := s.data
  let afterScheme :=
    match matchCI ("https://").data cs with
    | some r => some r
    | none => matchCI ("http://").data cs
  match afterScheme with
  | none => none
  | some r =>
    let authority := r.takeWhile (fun c => c ≠ '/' ∧ c ≠ '?' ∧ c ≠ '#')
    let hostPort := (authority.reverse.takeWhile (· ≠ '@')).reverse
    let host := hostPort.takeWhile (· ≠ ':')
    if host = [] then none
    else some (String.mk (host.map Char.toLower))

/-- `normalizeHost` (part_010 lines 24-27): lower-case and strip one
leading `www.`. -/
def normalizeHostStr (h : String) : String :=
  let l := h.data.map Char.toLower
  match matchCS ("www.").data l with
  | some rest => String.mk rest
  | none => String.mk l

/-- `WP_HOST_NORMALIZED` (part_010 lines 8-14, 29). -/
def WP_HOST_NORMALIZED : Option String :=
  (parseUrlHost WP_URL).map normalizeHostStr

/-- `SITE_HOST_NORMALIZED` (part_010 lines 16-22, 30). -/
def SITE_HOST_NORMALIZED : Option String :=
  (parseUrlHost SITE_URL).map normalizeHostStr

/-- Embedding of `isAllowedContentHost` (part_010 lines 32-38). -/
def isAllowedContentHost (host : Option String) : Bool :=
  match host with
  | none => false
  | some h =>
    let normalized := normalizeHostStr h
    if normalized = "" then false
    else
      (match WP_HOST_NORMALIZED with
       | some w => normalized = w
       | none => false) ||
      (match SITE_HOST_NORMALIZED with
       | some w => normalized = w
       | none => false)

/-- Embedding of `isAllowedContentUrl` (part_010 lines 40-49). -/
def isAllowedContentUrl (url : String) : Bool :=
  if url.data.headD ' ' = '/' then true
  else
    match parseUrlHost url with
    | some h => isAllowedContentHost (some h)
    | none => false

/-- Case-insensitive substring test. -/
def containsSubCI (pat : List Char) (cs : List Char) : Bool :=
  (findSubCI pat cs).isSome

/-- The admin-href rewrite of the sanitizer (part_010 lines 1233-1243):
pattern `href=(["'])(https?:\/\/admin\.ahmadkarmi\.com)(\/[^"']*)?(\1)`
(case-insensitive); hrefs whose path contains `/wp-content/uploads/` are
kept, the rest are rewritten onto the site URL. -/
def hrefAdminTry (cs : List Char) : Option (List Char × List Char) :=
  match cs with
  | [] => none
  | c :: _ =>
    if c.toLower = 'h' then
      match matchCI ("href=").data cs with
      | none => none
      | some r1 =>
        match r1 with
        | q :: r2 =>
          if q = '"' ∨ q = '\'' then
            let domAfter :=
              match matchCI ("https://admin.ahmadkarmi.com").data r2 with
              | some r => some r
              | none => matchCI ("http://admin.ahmadkarmi.com").data r2
            match domAfter with
            | none => none
            | some r3 =>
              if r3.headD ' ' = '/' then
                let path := r3.takeWhile (fun x => x ≠ '"' ∧ x ≠ '\'')
                let r4 := r3.drop path.length
                if r4.headD ' ' = q then
                  let rest := r4.drop 1
                  let matched := cs.take (cs.length - rest.length)
                  if containsSubCI ("/wp-content/uploads/").data path then
                    some (matched, rest)
                  else
                    some (("href=").data ++ q :: SITE_URL.data ++ path ++ [q],
                      rest)
                else none
              else if r3.headD ' ' = q then
                let rest := r3.drop 1
                some (("href=").data ++ q :: SITE_URL.data ++ [q], rest)
              else none
          else none
        | [] => none
    else none

/-- `/<\s*[a-z][\s\S]*>/i.test`, the `containsHtml` probe. -/
def containsHtmlTest : List Char → Bool
  | [] => false
  | c :: rest =>
    (if c = '<' then
      match rest.dropWhile jsWhitespace with
      | c2 :: r3 => isAsciiLetter c2 && r3.contains '>'
      | [] => false
    else false) || containsHtmlTest rest

/-- A keyword followed by a word boundary, case-insensitively. -/
def kwWithBoundary (kw : List Char) (cs : List Char) : Bool :=
  match matchCI kw cs with
  | some r => !(wordChar (r.headD ' '))
  | none => false

/-- `h[1-6]\b` at the head. -/
def hTagAt : List Char → Bool
  | h :: d :: r => h.toLower = 'h' && ('1' ≤ d && d ≤ '6') && !(wordChar (r.headD ' '))
  | _ => false

/-- The `hasComplexHtml` probe (part_010 line 1246). -/
def hasComplexHtml : List Char → Bool
  | [] => false
  | c :: rest =>
    (if c = '<' then
      let r2 := rest.dropWhile jsWhitespace
      kwWithBoundary ("img").data r2 || kwWithBoundary ("iframe").data r2 ||
      kwWithBoundary ("figure").data r2 || kwWithBoundary ("video").data r2 ||
      kwWithBoundary ("audio").data r2 || kwWithBoundary ("table").data r2 ||
      kwWithBoundary ("pre").data r2 || kwWithBoundary ("code").data r2 ||
      kwWithBoundary ("ul").data r2 || kwWithBoundary ("ol").data r2 ||
      kwWithBoundary ("blockquote").data r2 || hTagAt r2
    else false) || hasComplexHtml rest

/-- `<\s*\/\s*p\s*>` (case-insensitive), replaced by two newlines. -/
def closePTry (cs : List Char) : Option (List Char × List Char) :=
  match cs with
  | [] => none
  | c :: rest =>
    if c = '<' then
      let r2 := rest.dropWhile jsWhitespace
      match r2 with
      | s :: r3 =>
        if s = '/' then
          let r4 := r3.dropWhile jsWhitespace
          match r4 with
          | p :: r5 =>
            if p.toLower = 'p' then
              let r6 := r5.dropWhile jsWhitespace
              if r6.headD ' ' = '>' then some (('\n' :: ['\n']), r6.drop 1)
              else none
            else none
          | [] => none
        else none
      | [] => none
    else none

/-- `<\s*p\b[^>]*>` (case-insensitive), replaced by the empty string. -/
def openPStripTry (cs : List Char) : Option (List Char × List Char) :=
  match cs with
  | [] => none
  | c :: rest =>
    if c = '<' then
      let r2 := rest.dropWhile jsWhitespace
      match r2 with
      | p :: r3 =>
        if p.toLower = 'p' then
          if wordChar (r3.headD ' ') then none
          else
            let attrs := r3.takeWhile (· ≠ '>')
            if (r3.drop attrs.length).headD ' ' = '>' then
              some ([], (r3.drop attrs.length).drop 1)
            else none
        else none
      | [] => none
    else none

/-- `[ \t]+\n`, replaced by one newline. -/
def spaceTabNlTry (cs : List Char) : Option (List Char × List Char) :=
  match cs with
  | [] => none
  | c :: _ =>
    if c = ' ' ∨ c = '\t' then
      let run := cs.takeWhile (fun x => x = ' ' ∨ x = '\t')
      if (cs.drop run.length).headD 'x' = '\n' then
        some (['\n'], (cs.drop run.length).drop 1)
      else none
    else none

/-- The `asTextForMarkdown` pipeline (part_010 lines 1248-1254). -/
def asTextForMarkdown (value : List Char) : List Char :=
  let s1 := scanRepl (brTry ['\n']) value.length value
  let s2 := scanRepl closePTry s1.length s1
  let s3 := scanRepl openPStripTry s2.length s2
  let s4 := scanRepl anyTagTry s3.length s3
  let s5 := scanRepl (nlRunTry 3 ('\n' :: ['\n'])) s4.length s4
  jsTrimList s5

/-- `\bVisit Button\b\s*(?=\.modern-btn\b)` (case-insensitive), replaced
by the empty string; the leading boundary consults the previous source
character. -/
def visitButtonTry (prev : Option Char) (cs : List Char) :
    Option (List Char × List Char) :=
  match cs with
  | [] => none
  | c :: _ =>
    if c.toLower = 'v' then
      if (match prev with
          | some pc => wordChar pc
          | none => false) then none
      else
        match matchCI ("visit button").data cs with
        | none => none
        | some r1 =>
          if wordChar (r1.headD ' ') then none
          else
            let r2 := r1.dropWhile jsWhitespace
            match matchCI (".modern-btn").data r2 with
            | some r3 =>
              if wordChar (r3.headD ' ') then none else some ([], r2)
            | none => none
    else none

/-- `LEAD[^{]*{[\s\S]*?}\s*` (case-insensitive), replaced by the empty
string; used with the leads `.modern-btn` and `.tg`. -/
def cssBlockTry (lead : List Char) (cs : List Char) :
    Option (List Char × List Char) :=
  match cs with
  | [] => none
  | c :: _ =>
    if c = '.' then
      match matchCI lead cs with
      | none => none
      | some r1 =>
        let preBrace := r1.takeWhile (· ≠ '\x7b')
        match r1.drop preBrace.length with
        | b :: r3 =>
          if b = '\x7b' then
            match findSub ['\x7d'] r3 with
            | some (_, after) =>
              some ([], after.drop ((after.takeWhile jsWhitespace).length))
            | none => none
          else none
        | [] => none
    else none

/-- `#{1,6}\s+\S` at the head (the part of the heading probe after its
anchor). -/
def headingAt (cs : List Char) : Bool :=
  let hs := cs.takeWhile (· = '#')
  let after := cs.drop hs.length
  let ws := after.takeWhile jsWhitespace
  1 ≤ hs.length && hs.length ≤ 6 && 1 ≤ ws.length &&
    after.drop ws.length ≠ []

/-- `/(^|\n|\s)#{1,6}\s+\S/.test`. -/
def mdTestHeading (cs : List Char) : Bool :=
  headingAt cs || mdTestHeadingAux cs
where
  mdTestHeadingAux : List Char → Bool
    | [] => false
    | c :: rest =>
      (if c = '\n' ∨ jsWhitespace c then headingAt rest else false) ||
      mdTestHeadingAux rest

/-- `\s*[-*+]\s+\S` at the head. -/
def bulletAt (cs : List Char) : Bool :=
  let ws := cs.takeWhile jsWhitespace
  match cs.drop ws.length with
  | m :: r =>
    (m = '-' ∨ m = '*' ∨ m = '+') &&
    (let ws2 := r.takeWhile jsWhitespace
     1 ≤ ws2.length && r.drop ws2.length ≠ [])
  | [] => false

/-- `/(^|\n)\s*[-*+]\s+\S/.test`. -/
def mdTestBullet (cs : List Char) : Bool :=
  bulletAt cs || mdTestBulletAux cs
where
  mdTestBulletAux : List Char → Bool
    | [] => false
    | c :: rest =>
      (if c = '\n' then bulletAt rest else false) || mdTestBulletAux rest

/-- `\s*\d{1,2}\.\s+\S` at the head. -/
def numberedAt (cs : List Char) : Bool :=
  let ws := cs.takeWhile jsWhitespace
  let r := cs.drop ws.length
  let ds := r.takeWhile jsDigit
  1 ≤ ds.length && ds.length ≤ 2 &&
  (r.drop ds.length).headD 'x' = '.' &&
  (let r2 := (r.drop ds.length).drop 1
   let ws2 := r2.takeWhile jsWhitespace
   1 ≤ ws2.length && r2.drop ws2.length ≠ [])

/-- `/(^|\n)\s*\d{1,2}\.\s+\S/.test`. -/
def mdTestNumbered (cs : List Char) : Bool :=
  numberedAt cs || mdTestNumberedAux cs
where
  mdTestNumberedAux : List Char → Bool
    | [] => false
    | c :: rest =>
      (if c = '\n' then numberedAt rest else false) || mdTestNumberedAux rest

/-- `PAT[^X\n]{2,}PAT` delimited-run probe for the bold tests, with
`PAT` a two-character delimiter of the excluded character. -/
def boldRunAt (d : Char) (cs : List Char) : Bool :=
  match cs with
  | c1 :: c2 :: r =>
    c1 = d && c2 = d &&
    (let body := r.takeWhile (fun x => x ≠ d ∧ x ≠ '\n')
     2 ≤ body.length &&
     (r.drop body.length).headD 'x' = d &&
     ((r.drop body.length).drop 1).headD 'x' = d)
  | _ => false

/-- `/\*\*[^*\n]{2,}\*\*/.test` and `/__[^_\n]{2,}__/.test`. -/
def mdTestBold (d : Char) : List Char → Bool
  | [] => false
  | c :: rest => boldRunAt d (c :: rest) || mdTestBold d rest

/-- `!\[[^\]]*\]\([^)]+\)` at the head. -/
def imageAt (cs : List Char) : Bool :=
  match cs with
  | '!' :: '[' :: r =>
    let alt := r.takeWhile (· ≠ ']')
    match r.drop alt.length with
    | ']' :: '(' :: r2 =>
      let inner := r2.takeWhile (· ≠ ')')
      1 ≤ inner.length && (r2.drop inner.length).headD 'x' = ')'
    | _ => false
  | _ => false

/-- `/!\[[^\]]*\]\([^)]+\)/.test`. -/
def mdTestImage : List Char → Bool
  | [] => false
  | c :: rest => imageAt (c :: rest) || mdTestImage rest

/-- `\[[^\]]+\]\([^)]+\)` at the head. -/
def linkAt (cs : List Char) : Bool :=
  match cs with
  | '[' :: r =>
    let alt := r.takeWhile (· ≠ ']')
    1 ≤ alt.length &&
    (match r.drop alt.length with
     | ']' :: '(' :: r2 =>
       let inner := r2.takeWhile (· ≠ ')')
       1 ≤ inner.length && (r2.drop inner.length).headD 'x' = ')'
     | _ => false)
  | _ => false

/-- `/\[[^\]]+\]\([^)]+\)/.test`. -/
def mdTestLink : List Char → Bool
  | [] => false
  | c :: rest => linkAt (c :: rest) || mdTestLink rest

/-- The `looksLikeMarkdown` probe (part_010 lines 1278-1285). -/
def looksLikeMarkdown (cs : List Char) : Bool :=
  mdTestHeading cs || mdTestBullet cs || mdTestNumbered cs ||
  mdTestBold '*' cs || mdTestBold '_' cs || mdTestImage cs || mdTestLink cs

/-- A literal link-prefix fix `](DIR` to `](WP_URL DIR`
(case-sensitive). -/
def linkDirFixTry (dir : List Char) (cs : List Char) :
    Option (List Char × List Char) :=
  match cs with
  | [] => none
  | c :: _ =>
    if c = ']' then
      match matchCS (']' :: '(' :: dir) cs with
      | some rest => some (']' :: '(' :: WP_URL.data ++ dir, rest)
      | none => none
    else none

/-- The class `[0-9A-Za-z*]` of the heading-fix lookahead. -/
def headingTarget (c : Char) : Bool :=
  ('0' ≤ c && c ≤ '9') || ('A' ≤ c && c ≤ 'Z') || ('a' ≤ c && c ≤ 'z') ||
  c = '*'

/-- `(^|[^\n])\s(#{1,6})\s+(?=[0-9A-Za-z*])`, replaced by
`$1\n\n$2 `. -/
def headingFixTry (prev : Option Char) (cs : List Char) :
    Option (List Char × List Char) :=
  let attempt : List Char → Option (List Char × List Char) := fun r =>
    match r with
    | w :: r1 =>
      if jsWhitespace w then
        let hs := r1.takeWhile (· = '#')
        let after := r1.drop hs.length
        let ws2 := after.takeWhile jsWhitespace
        if 1 ≤ hs.length ∧ hs.length ≤ 6 ∧ 1 ≤ ws2.length ∧
            headingTarget ((after.drop ws2.length).headD ' ') then
          some ('\n' :: '\n' :: hs ++ [' '], after.drop ws2.length)
        else none
      else none
    | [] => none
  match prev, cs with
  | none, _ =>
    match attempt cs with
    | some (rep, rest) => some (rep, rest)
    | none =>
      match cs with
      | c :: r1 =>
        if c ≠ '\n' then
          (attempt r1).map (fun p => (c :: p.1, p.2))
        else none
      | [] => none
  | some _, c :: r1 =>
    if c ≠ '\n' then (attempt r1).map (fun p => (c :: p.1, p.2)) else none
  | some _, [] => none

/-- The lookahead `(?=\*\*|__|[A-Za-z0-9])` of the numbered-list fix. -/
def numberedTarget (cs : List Char) : Bool :=
  (matchCS ['*', '*'] cs).isSome || (matchCS ['_', '_'] cs).isSome ||
  (('A' ≤ cs.headD ' ' && cs.headD ' ' ≤ 'Z') ||
   ('a' ≤ cs.headD ' ' && cs.headD ' ' ≤ 'z') ||
   ('0' ≤ cs.headD ' ' && cs.headD ' ' ≤ '9'))

/-- `(^|[^\n#])\s(\d{1,2}\.)\s+(?=\*\*|__|[A-Za-z0-9])`, replaced by
`$1\n\n$2 `. -/
def numberedFixTry (prev : Option Char) (cs : List Char) :
    Option (List Char × List Char) :=
  let attempt : List Char → Option (List Char × List Char) := fun r =>
    match r with
    | w :: r1 =>
      if jsWhitespace w then
        let ds := r1.takeWhile jsDigit
        if 1 ≤ ds.length ∧ ds.length ≤ 2 ∧
            (r1.drop ds.length).headD 'x' = '.' then
          let r2 := (r1.drop ds.length).drop 1
          let ws2 := r2.takeWhile jsWhitespace
          if 1 ≤ ws2.length ∧ numberedTarget (r2.drop ws2.length) then
            some ('\n' :: '\n' :: ds ++ ['.', ' '], r2.drop ws2.length)
          else none
        else none
      else none
    | [] => none
  match prev, cs with
  | none, _ =>
    match attempt cs with
    | some (rep, rest) => some (rep, rest)
    | none =>
      match cs with
      | c :: r1 =>
        if c ≠ '\n' ∧ c ≠ '#' then
          (attempt r1).map (fun p => (c :: p.1, p.2))
        else none
      | [] => none
  | some _, c :: r1 =>
    if c ≠ '\n' ∧ c ≠ '#' then (attempt r1).map (fun p => (c :: p.1, p.2))
    else none
  | some _, [] => none

/-- `^\s{4,}(#{1,6}\s+)` with the `m` flag (the anchor holds at the
start or after a newline), replaced by `$1`. -/
def indentHeadingTry (prev : Option Char) (cs : List Char) :
    Option (List Char × List Char) :=
  if (match prev with
      | none => true
      | some pc => pc = '\n') then
    let wsrun := cs.takeWhile jsWhitespace
    if 4 ≤ wsrun.length then
      let r1 := cs.drop wsrun.length
      let hs := r1.takeWhile (· = '#')
      if 1 ≤ hs.length ∧ hs.length ≤ 6 then
        let r2 := r1.drop hs.length
        let ws2 := r2.takeWhile jsWhitespace
        if 1 ≤ ws2.length then some (hs ++ ws2, r2.drop ws2.length)
        else none
      else none
    else none
  else none

/-- `\s-\s+(?=(\*\*|__|\[))`, replaced by a newline, dash and space. -/
def bulletSepTry (cs : List Char) : Option (List Char × List Char) :=
  match cs with
  | [] => none
  | w :: r1 =>
    if jsWhitespace w then
      match r1 with
      | m :: r2 =>
        if m = '-' then
          let ws2 := r2.takeWhile jsWhitespace
          if 1 ≤ ws2.length ∧
              ((matchCS ['*', '*'] (r2.drop ws2.length)).isSome ∨
               (matchCS ['_', '_'] (r2.drop ws2.length)).isSome ∨
               (r2.drop ws2.length).headD ' ' = '[') then
            some ('\n' :: '-' :: [' '], r2.drop ws2.length)
          else none
        else none
      | [] => none
    else none

/-- `!\[[^\]]*\]\((https?:\/\/[^)]+)\)` (case-insensitive) with the
external-image callback: allowed URLs keep the match, others drop it. -/
def extImgTry (cs : List Char) : Option (List Char × List Char) :=
  match cs with
  | [] => none
  | c :: _ =>
    if c = '!' then
      match cs with
      | _ :: '[' :: r =>
        let alt := r.takeWhile (· ≠ ']')
        match r.drop alt.length with
        | ']' :: '(' :: r2 =>
          let inner := r2.takeWhile (· ≠ ')')
          let schemeRest :=
            match matchCI ("https://").data inner with
            | some x => some x
            | none => matchCI ("http://").data inner
          match schemeRest with
          | some tailOfUrl =>
            if tailOfUrl ≠ [] ∧ (r2.drop inner.length).headD 'x' = ')' then
              let rest := (r2.drop inner.length).drop 1
              let matched := cs.take (cs.length - rest.length)
              if isAllowedContentUrl (String.mk inner) then some (matched, rest)
              else some ([], rest)
            else none
          | none => none
        | _ => none
      | _ => none
    else none

/-- `<style\b[^>]*>[\s\S]*?<\/style>` (case-insensitive), replaced by
the empty string. -/
def styleTagTry (cs : List Char) : Option (List Char × List Char) :=
  match cs with
  | [] => none
  | c :: rest =>
    if c = '<' then
      match matchCI ("style").data rest with
      | none => none
      | some r2 =>
        if wordChar (r2.headD ' ') then none
        else
          let attrs := r2.takeWhile (· ≠ '>')
          if (r2.drop attrs.length).headD ' ' = '>' then
            match findSubCI ("</style>").data ((r2.drop attrs.length).drop 1) with
            | some (_, after) => some ([], after)
            | none => none
          else none
    else none

/-- `(src|href)=QUOTE DIR` (case-insensitive), replaced by the captured
attribute followed by `=QUOTE WP_URL DIR`. -/
def srcHrefFixTry (quote : Char) (dir : List Char) (cs : List Char) :
    Option (List Char × List Char) :=
  match cs with
  | [] => none
  | c :: _ =>
    if c.toLower = 's' ∨ c.toLower = 'h' then
      let attrLen : Option Nat :=
        if (matchCI ("src").data cs).isSome then some 3
        else if (matchCI ("href").data cs).isSome then some 4
        else none
      match attrLen with
      | none => none
      | some n =>
        let attr := cs.take n
        match cs.drop n with
        | e :: q :: r2 =>
          if e = '=' ∧ q = quote then
            match matchCI dir r2 with
            | some rest => some (attr ++ '=' :: q :: WP_URL.data ++ dir, rest)
            | none => none
          else none
        | _ => none
    else none

/-- The lazy search for ` style=QUOTE...QUOTE` inside a tag, used by the
figure and img style strips: the characters before it (all distinct from
`>`) and the rest after the closing quote. -/
def findStylePart : List Char → Option (List Char × List Char)
  | [] => none
  | c :: rest =>
    if c = '>' then none
    else
      (if jsWhitespace c then
        match matchCI ("style=").data rest with
        | some r3 =>
          match r3 with
          | q :: r4 =>
            if q = '"' ∨ q = '\'' then
              let val := r4.takeWhile (fun x => x ≠ '"' ∧ x ≠ '\'' ∧ x ≠ '>')
              if (r4.drop val.length).headD ' ' = q then
                some ([], (r4.drop val.length).drop 1)
              else none
            else none
          | [] => none
        | none => none
      else none) |>.orElse (fun _ =>
        (findStylePart rest).map (fun p => (c :: p.1, p.2)))

/-- `(<KW\b[^>]*?)\sstyle=(['"])[^'">]*\2([^>]*>)` (case-insensitive),
replaced by `$1$3`; used with `figure` and `img`. -/
def tagStyleTry (kw : List Char) (cs : List Char) :
    Option (List Char × List Char) :=
  match cs with
  | [] => none
  | c :: rest =>
    if c = '<' then
      match matchCI kw rest with
      | none => none
      | some r2 =>
        if wordChar (r2.headD ' ') then none
        else
          match findStylePart r2 with
          | none => none
          | some (pre, afterQuote) =>
            let attrs2 := afterQuote.takeWhile (· ≠ '>')
            if (afterQuote.drop attrs2.length).headD ' ' = '>' then
              some ('<' :: (rest.take kw.length) ++ pre ++ attrs2 ++ ['>'],
                (afterQuote.drop attrs2.length).drop 1)
            else none
    else none

/-- `^https?:\/\//i.test`. -/
def startsWithHttp (u : List Char) : Bool :=
  (matchCI ("https://").data u).isSome || (matchCI ("http://").data u).isSome

/-- `\ssrcset=(['"])([^'"<>]+)\1` (case-insensitive) with the srcset
callback (part_010 lines 1348-1357): values without `http` are kept;
otherwise the first token of each comma part is inspected and the
attribute is dropped when any is an absolute URL on a non-allowed
host. -/
def srcsetTry (cs : List Char) : Option (List Char × List Char) :=
  match cs with
  | [] => none
  | w :: r1 =>
    if jsWhitespace w then
      match matchCI ("srcset=").data r1 with
      | none => none
      | some r2 =>
        match r2 with
        | q :: r3 =>
          if q = '"' ∨ q = '\'' then
            let val := r3.takeWhile
              (fun x => x ≠ '"' ∧ x ≠ '\'' ∧ x ≠ '<' ∧ x ≠ '>')
            if val ≠ [] ∧ (r3.drop val.length).headD ' ' = q then
              let rest := (r3.drop val.length).drop 1
              let matched := cs.take (cs.length - rest.length)
              if ¬ containsSub ("http").data val then some (matched, rest)
              else
                let urls := ((splitOnChar ',' val).map
                  (fun part => (jsTrimList part).takeWhile
                    (fun x => ¬ jsWhitespace x))).filter (fun u => u ≠ [])
                let hasExternal := urls.any (fun u =>
                  startsWithHttp u ∧ ¬ isAllowedContentUrl (String.mk u))
                if hasExternal then some ([], rest) else some (matched, rest)
            else none
          else none
        | [] => none
    else none

/-- One alternative of the empty-paragraph body
`(?:\s|&nbsp;|&#160;|&#xA0;|&ZeroWidthSpace;| |​|‌|‍|﻿|<br\s*\/?\s*>|<\/?span\b[^>]*>)`. -/
def emptyPAlt (cs : List Char) : Option (List Char) :=
  match cs with
  | [] => none
  | c :: rest =>
    if jsWhitespace c ∨ zwClass c then some rest
    else if c = '&' then
      tryPats [("&nbsp;").data, ("&#160;").data, ("&#xa0;").data,
        ("&zerowidthspace;").data] cs
    else if c = '<' then
      match brTry [] cs with
      | some (_, r) => some r
      | none =>
        match spanTagTry cs with
        | some (_, r) => some r
        | none => none
    else none

/-- `<\/p>` (case-insensitive) at the head. -/
def closePAt (cs : List Char) : Option (List Char) :=
  match cs with
  | '<' :: '/' :: c :: '>' :: rest =>
    if c = 'p' ∨ c = 'P' then some rest else none
  | _ => none

/-- The starred body of the empty-paragraph pattern followed by the
closing tag. -/
def emptyPLoop : Nat → List Char → Option (List Char)
  | 0, _ => none
  | fuel + 1, cs =>
    match closePAt cs with
    | some rest => some rest
    | none =>
      match emptyPAlt cs with
      | some r2 => emptyPLoop fuel r2
      | none => none

/-- The empty-paragraph strip (part_010 lines 1358-1361), replaced by the
empty string. -/
def emptyPTry (cs : List Char) : Option (List Char × List Char) :=
  match cs with
  | [] => none
  | c :: _ =>
    if c = '<' then
      match pTryOpen cs with
      | some (_, r1) =>
        match emptyPLoop (r1.length + 1) r1 with
        | some rest => some ([], rest)
        | none => none
      | none => none
    else none

/-- One candidate split of `<img\b[^>]*\bsrc=...` at offset `k` of the
attribute region: the source URL capture and the rest after the final
`>`. -/
def imgSrcTryAt (r2 : List Char) (k : Nat) : Option (String × List Char) :=
  let prevc := if k = 0 then 'g' else (r2.drop (k - 1)).headD ' '
  if wordChar prevc then none
  else
    match matchCI ("src=").data (r2.drop k) with
    | none => none
    | some r3 =>
      match r3 with
      | q :: r4 =>
        if q = '"' ∨ q = '\'' then
          let schemeLen : Nat :=
            if (matchCI ("https://").data r4).isSome then 8
            else if (matchCI ("http://").data r4).isSome then 7
            else 0
          if schemeLen = 0 then none
          else
            let afterScheme := r4.drop schemeLen
            let urlRest := afterScheme.takeWhile
              (fun x => x ≠ '"' ∧ x ≠ '\'')
            if urlRest = [] then none
            else if (afterScheme.drop urlRest.length).headD ' ' = q then
              let r5 := (afterScheme.drop urlRest.length).drop 1
              let trailing := r5.takeWhile (· ≠ '>')
              if (r5.drop trailing.length).headD ' ' = '>' then
                some (String.mk (r4.take (schemeLen + urlRest.length)),
                  (r5.drop trailing.length).drop 1)
              else none
            else none
        else none
      | [] => none

/-- Greedy search (largest offset first) for the src attribute inside the
img tag. -/
def imgSrcSearch (r2 : List Char) : Nat → Option (String × List Char)
  | 0 => imgSrcTryAt r2 0
  | k + 1 =>
    match imgSrcTryAt r2 (k + 1) with
    | some res => some res
    | none => imgSrcSearch r2 k

/-- `<img\b[^>]*\bsrc=(['"])(https?:\/\/[^'"]+)\1[^>]*>`
(case-insensitive) with the external-image callback (part_010 lines
1362-1364). -/
def imgExternalTry (cs : List Char) : Option (List Char × List Char) :=
  match cs with
  | [] => none
  | c :: rest =>
    if c = '<' then
      match matchCI ("img").data rest with
      | none => none
      | some r2 =>
        if wordChar (r2.headD ' ') then none
        else
          let region := r2.takeWhile (· ≠ '>')
          match imgSrcSearch r2 region.length with
          | none => none
          | some (url, rest2) =>
            let matched := cs.take (cs.length - rest2.length)
            if isAllowedContentUrl url then some (matched, rest2)
            else some ([], rest2)
    else none

/-- Does the attribute region carry `\bATTR=` (case-insensitive)?  The
character before the region is always the final letter of the tag
name. -/
def hasAttrWordAux (attr : List Char) : Char → List Char → Bool
  | _, [] => false
  | prev, c :: rest =>
    ((!(wordChar prev)) && (matchCI attr (c :: rest)).isSome) ||
    hasAttrWordAux attr c rest

/-- `<img\b(?![^>]*\bATTR=)([^>]*?)>` (case-insensitive), replaced by
`REP$1>`; used to insert the loading and decoding attributes (part_010
lines 1365-1366). -/
def imgInsertTry (attr : List Char) (rep : List Char) (cs : List Char) :
    Option (List Char × List Char) :=
  match cs with
  | [] => none
  | c :: rest =>
    if c = '<' then
      match matchCI ("img").data rest with
      | none => none
      | some r2 =>
        if wordChar (r2.headD ' ') then none
        else
          let attrs := r2.takeWhile (· ≠ '>')
          if (r2.drop attrs.length).headD ' ' = '>' then
            if hasAttrWordAux (attr ++ ['=']) 'g' attrs then none
            else some (rep ++ attrs ++ ['>'], (r2.drop attrs.length).drop 1)
          else none
    else none

/-- The shared transform of the two markdown branches of the sanitizer
(part_010 lines 1290-1310, textually repeated at 1314-1334). -/
def markdownTransform (m : List Char) : List Char :=
  let f1 := scanRepl (linkDirFixTry ("/wp-content/").data) m.length m
  let f2 := scanRepl (linkDirFixTry ("/wp-includes/").data) f1.length f1
  let n1 := scanReplB headingFixTry f2.length none f2
  let n2 := scanReplB numberedFixTry n1.length none n1
  let n3 := scanReplB indentHeadingTry n2.length none n2
  let n4 := scanRepl (nlRunTry 3 ('\n' :: ['\n'])) n3.length n3
  let n5 := jsTrimList n4
  let bulletCount := countMatches bulletSepTry n5.length n5
  let n6 := if 2 ≤ bulletCount then scanRepl bulletSepTry n5.length n5 else n5
  scanRepl extImgTry n6.length n6

/-- The markdown-candidate pipeline of the sanitizer (part_010 lines
1256-1276). -/
def markdownCandidateOf (value : List Char) : List Char :=
  let t := asTextForMarkdown value
  let m0 := decodeEntitiesList t
  let m1 := replaceChar (Char.ofNat 0xA0) [' '] m0
  let m2 := removeClass zwClass m1
  let m3 := scanRepl spaceTabNlTry m2.length m2
  let m4 := scanRepl (nlRunTry 3 ('\n' :: ['\n'])) m3.length m3
  let m5 := jsTrimList m4
  let m6 :=
    if containsSub (".modern-btn").data m5 then
      let v1 := scanReplB visitButtonTry m5.length none m5
      let v2 := scanRepl (cssBlockTry (".modern-btn").data) v1.length v1
      jsTrimList (scanRepl (nlRunTry 3 ('\n' :: ['\n'])) v2.length v2)
    else m5
  if containsSub (".tg").data m6 then
    let w1 := scanRepl (cssBlockTry (".tg").data) m6.length m6
    jsTrimList (scanRepl (nlRunTry 3 ('\n' :: ['\n'])) w1.length w1)
  else m6

/-- The fixed-HTML pipeline of the sanitizer (part_010 lines
1337-1366). -/
def fixedHtmlOf (value : List Char) : List Char :=
  let h1 := scanRepl styleTagTry value.length value
  let h2 := scanReplB visitButtonTry h1.length none h1
  let h3 := scanRepl (cssBlockTry (".modern-btn").data) h2.length h2
  let h4 := scanRepl (cssBlockTry (".tg").data) h3.length h3
  let h5 := scanRepl (srcHrefFixTry '"' ("/wp-content/").data) h4.length h4
  let h6 := scanRepl (srcHrefFixTry '\'' ("/wp-content/").data) h5.length h5
  let h7 := scanRepl (srcHrefFixTry '"' ("/wp-includes/").data) h6.length h6
  let h8 := scanRepl (srcHrefFixTry '\'' ("/wp-includes/").data) h7.length h7
  let h9 := scanRepl (tagStyleTry ("figure").data) h8.length h8
  let h10 := scanRepl (tagStyleTry ("img").data) h9.length h9
  let h11 := scanRepl srcsetTry h10.length h10
  let h12 := scanRepl emptyPTry h11.length h11
  let h13 := scanRepl imgExternalTry h12.length h12
  let h14 := scanRepl (imgInsertTry ("loading").data
    ("<img loading=\"lazy\"").data) h13.length h13
  scanRepl (imgInsertTry ("decoding").data
    ("<img decoding=\"async\"").data) h14.length h14

/-- Embedding of `normalizeWpRichText` (part_010 lines 1226-1369);
`none` models `undefined` (a non-string input also yields
`undefined`). -/
def normalizeWpRichText (content : Option String) : Option String :=
  match content with
  | none => none
  | some c0 =>
    let value0 := jsTrim c0
    if value0 = "" then none
    else
      let value := scanRepl hrefAdminTry value0.data.length value0.data
      let hasHtml := containsHtmlTest value
      let hasComplex := hasComplexHtml value
      let candidate := markdownCandidateOf value
      let looksLike := looksLikeMarkdown candidate
      if hasHtml ∧ ¬ hasComplex ∧ looksLike then
        some (String.mk (markdownTransform candidate))
      else if ¬ hasHtml ∧ looksLike then
        some (String.mk (markdownTransform candidate))
      else
        some (recoverFlatTgTable (String.mk (fixedHtmlOf value)))

/-! ## Plain text and paragraph fixtures

`plainChar` carves out a class of inert characters — lower-case ASCII
letters, decimal digits and the space — on which every pattern of the
sanitizer and of the table recovery fails; the idempotence and
table-recovery theorems below quantify over texts drawn from it. -/

/-- Lower-case ASCII letters, decimal digits and the space. -/
def plainChar (c : Char) : Bool :=
  (97 ≤ c.toNat && c.toNat ≤ 122) || (48 ≤ c.toNat && c.toNat ≤ 57) ||
  c.toNat = 32

/-- A plain paragraph text: nonempty, made of plain characters, with no
space at either end. -/
def plainCell (t : String) : Bool :=
  t.data.all plainChar && t.data ≠ [] &&
  t.data.headD 'x' ≠ ' ' && t.data.getLastD 'x' ≠ ' '

/-- A paragraph element wrapping a text. -/
def mkPL (t : String) : List Char :=
  ("<p>").data ++ t.data ++ ("</p>").data

/-- The paragraph segment the scanner produces for `mkPL t`. -/
def pSegOf (t : String) : PSeg :=
  ⟨[], ("<p>").data, t.data, ("</p>").data⟩

/-- No `<p` or `<P` occurs in the text, so the paragraph regex has no
match in it. -/
def noPOpen : List Char → Bool
  | [] => true
  | c :: rest =>
    (!(c = '<' && (rest.headD 'x' = 'p' || rest.headD 'x' = 'P'))) &&
    noPOpen rest

/-- `noPOpen` together with not ending in `<`, which survives
concatenation. -/
def tagSafe (cs : List Char) : Bool :=
  noPOpen cs && !(cs.getLastD 'x' = '<')

/-- The four header paragraphs of the flat-table fixture. -/
def tgHeaderPs : List Char :=
  mkPL "Variable" ++ mkPL "Category" ++ mkPL "Subcategory" ++ mkPL "Details"

/-- The table the specification describes for the recovered flat table:
one `table` element whose `thead` row holds the four header cells and
whose `tbody` holds `N` rows of four cells drawn from `texts` in order.
This definition follows the words of the specification; the theorem for
the table-recovery claim compares `recoverFlatTgTable` against it. -/
def specTgTable (texts : List String) (N : Nat) : List Char :=
  ("<table><thead><tr><th>Variable</th><th>Category</th>" ++
   "<th>Subcategory</th><th>Details</th></tr></thead><tbody>").data ++
  (List.range N).flatMap (fun i =>
    ("<tr>").data ++
    ((texts.drop (i * 4)).take 4).flatMap
      (fun t => ("<td>").data ++ t.data ++ ("</td>").data) ++
    ("</tr>").data) ++
  ("</tbody></table>").data

-- ======================================================================
-- Theorems
-- ======================================================================

/-! ### Plain-character lemmas -/

theorem uint32_eq_of_toNat {a b : UInt32} (h : a.toNat = b.toNat) : a = b := by
  have hb : a.toBitVec = b.toBitVec := BitVec.eq_of_toNat_eq h
  cases a
  cases b
  simp_all

theorem char_eq_of_toNat {c d : Char} (h : c.toNat = d.toNat) : c = d :=
  Char.ext (uint32_eq_of_toNat h)

theorem plain_ne {c : Char} (h : plainChar c = true) {d : Char}
    (hd : plainChar d = false) : c ≠ d := by
  intro he
  rw [he, hd] at h
  exact Bool.false_ne_true h

theorem plain_toNat {c : Char} (h : plainChar c = true) :
    (97 ≤ c.toNat ∧ c.toNat ≤ 122) ∨ (48 ≤ c.toNat ∧ c.toNat ≤ 57) ∨
    c.toNat = 32 := by
  simpa [plainChar, Bool.or_eq_true, Bool.and_eq_true, decide_eq_true_eq,
    or_assoc] using h

theorem plain_toLower {c : Char} (h : plainChar c = true) :
    c.toLower = c := by
  have hr := plain_toNat h
  unfold Char.toLower
  dsimp only
  rw [if_neg]
  omega

theorem plain_not_ws {c : Char} (h : plainChar c = true) (hs : c ≠ ' ') :
    jsWhitespace c = false := by
  have hr := plain_toNat h
  have h32 : c.toNat ≠ 32 := fun he => hs (char_eq_of_toNat he)
  by_contra hb
  rw [Bool.not_eq_false] at hb
  simp only [jsWhitespace, Bool.or_eq_true, Bool.and_eq_true,
    decide_eq_true_eq, or_assoc] at hb
  rcases hb with h1 | h1 | h1 | h1 | h1 | h1 | h1 | h1 | h1 | h1 | h1 | h1
    | h1 | h1 | h1
  · exact hs h1
  · have := congrArg Char.toNat h1
    simp only [show ('\t').toNat = 9 from rfl] at this
    omega
  · have := congrArg Char.toNat h1
    simp only [show ('\n').toNat = 10 from rfl] at this
    omega
  · have := congrArg Char.toNat h1
    simp only [show ('\r').toNat = 13 from rfl] at this
    omega
  · have := congrArg UInt32.toNat h1
    simp only [show ((0x0B : UInt32)).toNat = 11 from rfl] at this
    have hc : c.toNat = 11 := this
    omega
  · have := congrArg UInt32.toNat h1
    simp only [show ((0x0C : UInt32)).toNat = 12 from rfl] at this
    have hc : c.toNat = 12 := this
    omega
  · have := congrArg UInt32.toNat h1
    simp only [show ((0xA0 : UInt32)).toNat = 160 from rfl] at this
    have hc : c.toNat = 160 := this
    omega
  · have := congrArg UInt32.toNat h1
    simp only [show ((0xFEFF : UInt32)).toNat = 65279 from rfl] at this
    have hc : c.toNat = 65279 := this
    omega
  · have := congrArg UInt32.toNat h1
    simp only [show ((0x1680 : UInt32)).toNat = 5760 from rfl] at this
    have hc : c.toNat = 5760 := this
    omega
  · have hlo : ((0x2000 : UInt32)).toNat ≤ c.val.toNat := UInt32.le_def.mp h1.1
    simp only [show ((0x2000 : UInt32)).toNat = 8192 from rfl] at hlo
    have hc : 8192 ≤ c.toNat := hlo
    omega
  · have := congrArg UInt32.toNat h1
    simp only [show ((0x2028 : UInt32)).toNat = 8232 from rfl] at this
    have hc : c.toNat = 8232 := this
    omega
  · have := congrArg UInt32.toNat h1
    simp only [show ((0x2029 : UInt32)).toNat = 8233 from rfl] at this
    have hc : c.toNat = 8233 := this
    omega
  · have := congrArg UInt32.toNat h1
    simp only [show ((0x202F : UInt32)).toNat = 8239 from rfl] at this
    have hc : c.toNat = 8239 := this
    omega
  · have := congrArg UInt32.toNat h1
    simp only [show ((0x205F : UInt32)).toNat = 8287 from rfl] at this
    have hc : c.toNat = 8287 := this
    omega
  · have := congrArg UInt32.toNat h1
    simp only [show ((0x3000 : UInt32)).toNat = 12288 from rfl] at this
    have hc : c.toNat = 12288 := this
    omega

theorem plain_not_zw {c : Char} (h : plainChar c = true) :
    zwClass c = false := by
  have hr := plain_toNat h
  by_contra hb
  rw [Bool.not_eq_false] at hb
  simp only [zwClass, Bool.or_eq_true, decide_eq_true_eq, or_assoc] at hb
  rcases hb with h1 | h1 | h1 | h1
  · have := congrArg UInt32.toNat h1
    simp only [show ((0x200B : UInt32)).toNat = 8203 from rfl] at this
    have hc : c.toNat = 8203 := this
    omega
  · have := congrArg UInt32.toNat h1
    simp only [show ((0x200C : UInt32)).toNat = 8204 from rfl] at this
    have hc : c.toNat = 8204 := this
    omega
  · have := congrArg UInt32.toNat h1
    simp only [show ((0x200D : UInt32)).toNat = 8205 from rfl] at this
    have hc : c.toNat = 8205 := this
    omega
  · have := congrArg UInt32.toNat h1
    simp only [show ((0xFEFF : UInt32)).toNat = 65279 from rfl] at this
    have hc : c.toNat = 65279 := this
    omega

theorem all_sub {p : Char → Bool} {l l2 : List Char}
    (hsub : ∀ c ∈ l2, c ∈ l) (h : l.all p = true) : l2.all p = true := by
  rw [List.all_eq_true] at h ⊢
  exact fun c hc => h c (hsub c hc)

theorem headD_cases (cs : List Char) (d : Char) :
    cs.headD d = d ∨ cs.headD d ∈ cs := by
  cases cs with
  | nil => exact Or.inl rfl
  | cons c rest => exact Or.inr (by simp)

theorem plain_headD_ne {cs : List Char} (h : cs.all plainChar = true)
    {d e : Char} (hd : d ≠ e) (he : plainChar e = false) : cs.headD d ≠ e := by
  rcases headD_cases cs d with hc | hc
  · rw [hc]; exact hd
  · exact plain_ne (List.all_eq_true.mp h _ hc) he

theorem plain_contains_false {cs : List Char} (h : cs.all plainChar = true)
    {d : Char} (hd : plainChar d = false) : cs.contains d = false := by
  by_contra hb
  rw [Bool.not_eq_false, List.contains_eq_any_beq, List.any_eq_true] at hb
  obtain ⟨c, hc, hcd⟩ := hb
  have hdc : d = c := by simpa using hcd
  exact plain_ne (List.all_eq_true.mp h _ hc) hd hdc.symm

/-! ### Scanner no-op lemmas

On all-plain character lists every replacement pattern of the sanitizer
fails, so the global-replace scanners are the identity. -/

theorem scanRepl_noop {tryFn : List Char → Option (List Char × List Char)}
    (H : ∀ cs : List Char, cs.all plainChar = true → tryFn cs = none) :
    ∀ (fuel : Nat) {cs : List Char}, cs.all plainChar = true →
      scanRepl tryFn fuel cs = cs := by
  intro fuel
  induction fuel with
  | zero => intro cs _; rfl
  | succ n ih =>
    intro cs hcs
    cases cs with
    | nil => rfl
    | cons c rest =>
      have hrest : rest.all plainChar = true := by
        simp only [List.all_cons, Bool.and_eq_true] at hcs
        exact hcs.2
      simp only [scanRepl, H _ hcs]
      rw [ih hrest]

theorem scanReplB_noop
    {tryFn : Option Char → List Char → Option (List Char × List Char)}
    (H : ∀ (prev : Option Char) (cs : List Char), cs.all plainChar = true →
      tryFn prev cs = none) :
    ∀ (fuel : Nat) (prev : Option Char) {cs : List Char},
      cs.all plainChar = true → scanReplB tryFn fuel prev cs = cs := by
  intro fuel
  induction fuel with
  | zero => intro prev cs _; rfl
  | succ n ih =>
    intro prev cs hcs
    cases cs with
    | nil => rfl
    | cons c rest =>
      have hrest : rest.all plainChar = true := by
        simp only [List.all_cons, Bool.and_eq_true] at hcs
        exact hcs.2
      simp only [scanReplB, H prev _ hcs]
      rw [ih (some c) hrest]

theorem matchCI_sub :
    ∀ (pat cs r : List Char), matchCI pat cs = some r → ∀ c ∈ r, c ∈ cs := by
  intro pat
  induction pat with
  | nil =>
    intro cs r h c hc
    simp only [matchCI, Option.some.injEq] at h
    rw [h]
    exact hc
  | cons p ps ih =>
    intro cs r h c hc
    cases cs with
    | nil => cases h
    | cons a as =>
      rw [matchCI] at h
      by_cases ha : a.toLower = p
      · rw [if_pos ha] at h
        exact List.mem_cons_of_mem a (ih as r h c hc)
      · rw [if_neg ha] at h
        cases h

theorem matchCI_plain_pat :
    ∀ (pat cs r : List Char), matchCI pat cs = some r →
      cs.all plainChar = true → pat.all plainChar = true := by
  intro pat
  induction pat with
  | nil => intro cs r _ _; rfl
  | cons p ps ih =>
    intro cs r h hcs
    cases cs with
    | nil => cases h
    | cons a as =>
      have hsplit : plainChar a = true ∧ as.all plainChar = true := by
        simpa using hcs
      rw [matchCI] at h
      by_cases ha : a.toLower = p
      · rw [if_pos ha] at h
        have hp : plainChar p = true := by
          rw [← ha, plain_toLower hsplit.1]
          exact hsplit.1
        simp only [List.all_cons, hp, Bool.true_and]
        exact ih as r h hsplit.2
      · rw [if_neg ha] at h
        cases h

theorem matchCI_plain_none (pat : List Char) {cs : List Char}
    (hcs : cs.all plainChar = true) (hbad : pat.all plainChar = false) :
    matchCI pat cs = none := by
  cases hm : matchCI pat cs with
  | none => rfl
  | some r =>
    rw [matchCI_plain_pat pat cs r hm hcs] at hbad
    cases hbad

theorem findSub_plain_none (p : Char) (ps : List Char)
    (hp : plainChar p = false) :
    ∀ {cs : List Char}, cs.all plainChar = true →
      findSub (p :: ps) cs = none := by
  intro cs
  induction cs with
  | nil => intro _; rfl
  | cons c rest ih =>
    intro h
    have hc : plainChar c = true ∧ rest.all plainChar = true := by simpa using h
    have hm : matchCS (p :: ps) (c :: rest) = none := by
      rw [matchCS, if_neg (plain_ne hc.1 hp)]
    simp only [findSub, hm, ih hc.2]

theorem containsSub_plain (p : Char) (ps : List Char)
    (hp : plainChar p = false) {cs : List Char}
    (h : cs.all plainChar = true) : containsSub (p :: ps) cs = false := by
  unfold containsSub
  rw [findSub_plain_none p ps hp h]
  rfl

theorem entityTry_plain {cs : List Char} (h : cs.all plainChar = true) :
    entityTry cs = none := by
  cases cs with
  | nil => rfl
  | cons c rest =>
    have hc : plainChar c = true := by
      simp only [List.all_cons, Bool.and_eq_true] at h
      exact h.1
    rw [ entityTry.eq_def]
    split
    · rfl
    · rename_i c2 rest2 heq
      cases heq
      rw [if_neg (plain_ne hc (by decide))]

theorem brTry_plain (rep : List Char) {cs : List Char}
    (h : cs.all plainChar = true) : brTry rep cs = none := by
  cases cs with
  | nil => rfl
  | cons c rest =>
    have hc : plainChar c = true := by
      simp only [List.all_cons, Bool.and_eq_true] at h
      exact h.1
    rw [brTry, if_neg (plain_ne hc (by decide))]

theorem closePTry_plain {cs : List Char} (h : cs.all plainChar = true) :
    closePTry cs = none := by
  cases cs with
  | nil => rfl
  | cons c rest =>
    have hc : plainChar c = true := by
      simp only [List.all_cons, Bool.and_eq_true] at h
      exact h.1
    rw [closePTry, if_neg (plain_ne hc (by decide))]

theorem openPStripTry_plain {cs : List Char} (h : cs.all plainChar = true) :
    openPStripTry cs = none := by
  cases cs with
  | nil => rfl
  | cons c rest =>
    have hc : plainChar c = true := by
      simp only [List.all_cons, Bool.and_eq_true] at h
      exact h.1
    rw [openPStripTry, if_neg (plain_ne hc (by decide))]

theorem anyTagTry_plain {cs : List Char} (h : cs.all plainChar = true) :
    anyTagTry cs = none := by
  cases cs with
  | nil => rfl
  | cons c rest =>
    have hc : plainChar c = true := by
      simp only [List.all_cons, Bool.and_eq_true] at h
      exact h.1
    rw [anyTagTry, if_neg (plain_ne hc (by decide))]

theorem ampAltTry_plain (pats : List (List Char)) (rep : List Char)
    {cs : List Char} (h : cs.all plainChar = true) :
    ampAltTry pats rep cs = none := by
  cases cs with
  | nil => rfl
  | cons c rest =>
    have hc : plainChar c = true := by
      simp only [List.all_cons, Bool.and_eq_true] at h
      exact h.1
    rw [ampAltTry, if_neg (plain_ne hc (by decide))]

theorem nlRunTry_plain (minLen : Nat) (rep : List Char) {cs : List Char}
    (h : cs.all plainChar = true) : nlRunTry minLen rep cs = none := by
  cases cs with
  | nil => rfl
  | cons c rest =>
    have hc : plainChar c = true := by
      simp only [List.all_cons, Bool.and_eq_true] at h
      exact h.1
    rw [nlRunTry, if_neg (plain_ne hc (by decide))]

theorem cssBlockTry_plain (lead : List Char) {cs : List Char}
    (h : cs.all plainChar = true) : cssBlockTry lead cs = none := by
  cases cs with
  | nil => rfl
  | cons c rest =>
    have hc : plainChar c = true := by
      simp only [List.all_cons, Bool.and_eq_true] at h
      exact h.1
    rw [cssBlockTry, if_neg (plain_ne hc (by decide))]

theorem styleTagTry_plain {cs : List Char} (h : cs.all plainChar = true) :
    styleTagTry cs = none := by
  cases cs with
  | nil => rfl
  | cons c rest =>
    have hc : plainChar c = true := by
      simp only [List.all_cons, Bool.and_eq_true] at h
      exact h.1
    rw [styleTagTry, if_neg (plain_ne hc (by decide))]

theorem tagStyleTry_plain (kw : List Char) {cs : List Char}
    (h : cs.all plainChar = true) : tagStyleTry kw cs = none := by
  cases cs with
  | nil => rfl
  | cons c rest =>
    have hc : plainChar c = true := by
      simp only [List.all_cons, Bool.and_eq_true] at h
      exact h.1
    rw [tagStyleTry, if_neg (plain_ne hc (by decide))]

theorem emptyPTry_plain {cs : List Char} (h : cs.all plainChar = true) :
    emptyPTry cs = none := by
  cases cs with
  | nil => rfl
  | cons c rest =>
    have hc : plainChar c = true := by
      simp only [List.all_cons, Bool.and_eq_true] at h
      exact h.1
    rw [emptyPTry, if_neg (plain_ne hc (by decide))]

theorem imgExternalTry_plain {cs : List Char} (h : cs.all plainChar = true) :
    imgExternalTry cs = none := by
  cases cs with
  | nil => rfl
  | cons c rest =>
    have hc : plainChar c = true := by
      simp only [List.all_cons, Bool.and_eq_true] at h
      exact h.1
    rw [imgExternalTry, if_neg (plain_ne hc (by decide))]

theorem imgInsertTry_plain (attr rep : List Char) {cs : List Char}
    (h : cs.all plainChar = true) : imgInsertTry attr rep cs = none := by
  cases cs with
  | nil => rfl
  | cons c rest =>
    have hc : plainChar c = true := by
      simp only [List.all_cons, Bool.and_eq_true] at h
      exact h.1
    rw [imgInsertTry, if_neg (plain_ne hc (by decide))]

theorem pTryOpen_plain {cs : List Char} (h : cs.all plainChar = true) :
    pTryOpen cs = none := by
  cases cs with
  | nil => rfl
  | cons c rest =>
    have hc : plainChar c = true := by
      simp only [List.all_cons, Bool.and_eq_true] at h
      exact h.1
    rw [ pTryOpen.eq_def]
    split
    · rfl
    · rename_i c2 rest2 heq
      cases heq
      rw [if_neg (plain_ne hc (by decide))]

theorem plain_beq_false {c : Char} (h : plainChar c = true) {d : Char}
    (hd : plainChar d = false) : decide (c = d) = false :=
  decide_eq_false (plain_ne h hd)

theorem spaceTabNlTry_plain {cs : List Char} (h : cs.all plainChar = true) :
    spaceTabNlTry cs = none := by
  cases cs with
  | nil => rfl
  | cons c rest =>
    rw [spaceTabNlTry]
    by_cases hsp : c = ' ' ∨ c = '\t'
    · rw [if_pos hsp]
      dsimp only
      rw [if_neg]
      exact plain_headD_ne (all_sub (List.drop_subset _ _) h) (by decide)
        (by decide)
    · rw [if_neg hsp]

theorem hrefAdminTry_plain {cs : List Char} (h : cs.all plainChar = true) :
    hrefAdminTry cs = none := by
  cases cs with
  | nil => rfl
  | cons c rest =>
    rw [hrefAdminTry]
    by_cases hc : c.toLower = 'h'
    · rw [if_pos hc, matchCI_plain_none _ h (by decide)]
    · rw [if_neg hc]

theorem srcHrefFixTry_plain (quote : Char) (dir : List Char) {cs : List Char}
    (h : cs.all plainChar = true) : srcHrefFixTry quote dir cs = none := by
  cases cs with
  | nil => rfl
  | cons c rest =>
    rw [srcHrefFixTry]
    by_cases hc : c.toLower = 's' ∨ c.toLower = 'h'
    · rw [if_pos hc]
      dsimp only
      split
      · rfl
      · split
        · rename_i e q r2 heq
          rw [if_neg]
          rintro ⟨he, -⟩
          have hmem : e ∈ c :: rest := List.drop_subset _ _ (by rw [heq]; simp)
          exact plain_ne (List.all_eq_true.mp h _ hmem) (by decide) he
        · rfl
    · rw [if_neg hc]

theorem srcsetTry_plain {cs : List Char} (h : cs.all plainChar = true) :
    srcsetTry cs = none := by
  cases cs with
  | nil => rfl
  | cons w r1 =>
    have hr1 : r1.all plainChar = true := by
      simp only [List.all_cons, Bool.and_eq_true] at h
      exact h.2
    rw [srcsetTry]
    by_cases hw : jsWhitespace w = true
    · rw [if_pos hw, matchCI_plain_none _ hr1 (by decide)]
    · rw [if_neg hw]

theorem visitButtonTry_plain (prev : Option Char) {cs : List Char}
    (h : cs.all plainChar = true) : visitButtonTry prev cs = none := by
  cases cs with
  | nil => rfl
  | cons c rest =>
    simp only [ visitButtonTry.eq_def]
    by_cases hv : c.toLower = 'v'
    · rw [if_pos hv]
      split
      · rfl
      · cases hm : matchCI ("visit button").data (c :: rest) with
        | none => rfl
        | some r1 =>
          dsimp only
          by_cases hwc : wordChar (r1.headD ' ') = true
          · rw [if_pos hwc]
          · rw [if_neg hwc]
            have hr2 : (r1.dropWhile jsWhitespace).all plainChar = true :=
              all_sub (List.dropWhile_subset _)
                (all_sub (matchCI_sub _ _ _ hm) h)
            rw [matchCI_plain_none _ hr2 (by decide)]
    · rw [if_neg hv]

/-! ### Markdown-probe lemmas -/

theorem containsHtmlTest_plain {cs : List Char}
    (h : cs.all plainChar = true) : containsHtmlTest cs = false := by
  induction cs with
  | nil => rfl
  | cons c rest ih =>
    have hsplit : plainChar c = true ∧ rest.all plainChar = true := by
      simpa using h
    rw [containsHtmlTest, if_neg (plain_ne hsplit.1 (by decide)),
      ih hsplit.2]
    rfl

theorem headingAt_plain {cs : List Char} (h : cs.all plainChar = true) :
    headingAt cs = false := by
  have hhs : cs.takeWhile (· = '#') = [] := by
    cases cs with
    | nil => rfl
    | cons c rest =>
      have hc : plainChar c = true := by
        simp only [List.all_cons, Bool.and_eq_true] at h
        exact h.1
      rw [List.takeWhile_cons, plain_beq_false hc (by decide)]
      rfl
  simp only [headingAt, hhs]
  simp

theorem mdTestHeading_plain {cs : List Char} (h : cs.all plainChar = true) :
    mdTestHeading cs = false := by
  have haux : ∀ l : List Char, l.all plainChar = true →
      mdTestHeading.mdTestHeadingAux l = false := by
    intro l
    induction l with
    | nil => intro _; rfl
    | cons c rest ih =>
      intro hl
      have hsplit : plainChar c = true ∧ rest.all plainChar = true := by
        simpa using hl
      rw [mdTestHeading.mdTestHeadingAux, ih hsplit.2, Bool.or_false]
      split
      · exact headingAt_plain hsplit.2
      · rfl
  rw [mdTestHeading, headingAt_plain h, haux cs h]
  rfl

theorem bulletAt_plain {cs : List Char} (h : cs.all plainChar = true) :
    bulletAt cs = false := by
  unfold bulletAt
  dsimp only
  cases hd : cs.drop (cs.takeWhile jsWhitespace).length with
  | nil => rfl
  | cons m r =>
    have hm : m ∈ cs := List.drop_subset _ _ (by rw [hd]; simp)
    have hmp : plainChar m = true := List.all_eq_true.mp h _ hm
    have hcond : decide (m = '-' ∨ m = '*' ∨ m = '+') = false := by
      apply decide_eq_false
      rintro (h1 | h1 | h1) <;> exact plain_ne hmp (by decide) h1
    simp [hcond]

theorem mdTestBullet_plain {cs : List Char} (h : cs.all plainChar = true) :
    mdTestBullet cs = false := by
  have haux : ∀ l : List Char, l.all plainChar = true →
      mdTestBullet.mdTestBulletAux l = false := by
    intro l
    induction l with
    | nil => intro _; rfl
    | cons c rest ih =>
      intro hl
      have hsplit : plainChar c = true ∧ rest.all plainChar = true := by
        simpa using hl
      rw [mdTestBullet.mdTestBulletAux, ih hsplit.2, Bool.or_false]
      split
      · exact bulletAt_plain hsplit.2
      · rfl
  rw [mdTestBullet, bulletAt_plain h, haux cs h]
  rfl

theorem numberedAt_plain {cs : List Char} (h : cs.all plainChar = true) :
    numberedAt cs = false := by
  by_contra hb
  rw [Bool.not_eq_false] at hb
  simp only [numberedAt, Bool.and_eq_true, decide_eq_true_eq] at hb
  have hdot := hb.1.2
  have hall : ((cs.drop (cs.takeWhile jsWhitespace).length).drop
      (((cs.drop (cs.takeWhile jsWhitespace).length).takeWhile
        jsDigit).length)).all plainChar = true :=
    all_sub (List.drop_subset _ _) (all_sub (List.drop_subset _ _) h)
  exact plain_headD_ne hall (by decide) (by decide) hdot

theorem mdTestNumbered_plain {cs : List Char} (h : cs.all plainChar = true) :
    mdTestNumbered cs = false := by
  have haux : ∀ l : List Char, l.all plainChar = true →
      mdTestNumbered.mdTestNumberedAux l = false := by
    intro l
    induction l with
    | nil => intro _; rfl
    | cons c rest ih =>
      intro hl
      have hsplit : plainChar c = true ∧ rest.all plainChar = true := by
        simpa using hl
      rw [mdTestNumbered.mdTestNumberedAux, ih hsplit.2, Bool.or_false]
      split
      · exact numberedAt_plain hsplit.2
      · rfl
  rw [mdTestNumbered, numberedAt_plain h, haux cs h]
  rfl

theorem boldRunAt_plain {d : Char} (hd : plainChar d = false)
    {cs : List Char} (h : cs.all plainChar = true) :
    boldRunAt d cs = false := by
  rw [ boldRunAt.eq_def]
  split
  · rename_i c1 c2 r
    have h1 : plainChar c1 = true := by
      simp only [List.all_cons, Bool.and_eq_true] at h
      exact h.1
    rw [plain_beq_false h1 hd]
    rfl
  · rfl

theorem mdTestBold_plain {d : Char} (hd : plainChar d = false)
    {cs : List Char} (h : cs.all plainChar = true) :
    mdTestBold d cs = false := by
  induction cs with
  | nil => rfl
  | cons c rest ih =>
    have hsplit : plainChar c = true ∧ rest.all plainChar = true := by
      simpa using h
    rw [mdTestBold, boldRunAt_plain hd h, ih hsplit.2]
    rfl

theorem imageAt_plain {cs : List Char} (h : cs.all plainChar = true) :
    imageAt cs = false := by
  rw [ imageAt.eq_def]
  split
  · rename_i r
    exfalso
    simp only [List.all_cons, Bool.and_eq_true] at h
    exact absurd h.1 (by decide)
  · rfl

theorem mdTestImage_plain {cs : List Char} (h : cs.all plainChar = true) :
    mdTestImage cs = false := by
  induction cs with
  | nil => rfl
  | cons c rest ih =>
    have hsplit : plainChar c = true ∧ rest.all plainChar = true := by
      simpa using h
    rw [mdTestImage, imageAt_plain h, ih hsplit.2]
    rfl

theorem linkAt_plain {cs : List Char} (h : cs.all plainChar = true) :
    linkAt cs = false := by
  rw [ linkAt.eq_def]
  split
  · rename_i r
    exfalso
    simp only [List.all_cons, Bool.and_eq_true] at h
    exact absurd h.1 (by decide)
  · rfl

theorem mdTestLink_plain {cs : List Char} (h : cs.all plainChar = true) :
    mdTestLink cs = false := by
  induction cs with
  | nil => rfl
  | cons c rest ih =>
    have hsplit : plainChar c = true ∧ rest.all plainChar = true := by
      simpa using h
    rw [mdTestLink, linkAt_plain h, ih hsplit.2]
    rfl

theorem looksLikeMarkdown_plain {cs : List Char}
    (h : cs.all plainChar = true) : looksLikeMarkdown cs = false := by
  rw [looksLikeMarkdown, mdTestHeading_plain h, mdTestBullet_plain h,
    mdTestNumbered_plain h, mdTestBold_plain (by decide) h,
    mdTestBold_plain (by decide) h, mdTestImage_plain h, mdTestLink_plain h]
  rfl

/-! ### Trim lemmas -/

theorem dropWhile_head_false (p : Char → Bool) :
    ∀ (l : List Char) {c : Char} {cs : List Char},
      l.dropWhile p = c :: cs → p c = false := by
  intro l
  induction l with
  | nil => intro c cs h; exact absurd h (by simp)
  | cons a l ih =>
    intro c cs h
    rw [List.dropWhile_cons] at h
    by_cases hp : p a = true
    · rw [if_pos hp] at h
      exact ih h
    · rw [if_neg hp] at h
      cases h
      exact Bool.not_eq_true _ |>.mp hp

theorem dropWhile_of_head_false {p : Char → Bool} {c : Char}
    {cs : List Char} (h : p c = false) :
    (c :: cs).dropWhile p = c :: cs := by
  rw [List.dropWhile_cons, h]
  simp

theorem dropWhile_id_of_head {p : Char → Bool} :
    ∀ l : List Char, (∀ c cs, l = c :: cs → p c = false) →
      l.dropWhile p = l := by
  intro l h
  cases l with
  | nil => rfl
  | cons c cs => exact dropWhile_of_head_false (h c cs rfl)

theorem trim_stable {l : List Char}
    (h1 : ∀ c cs, l = c :: cs → jsWhitespace c = false)
    (h2 : ∀ c cs, l.reverse = c :: cs → jsWhitespace c = false) :
    jsTrimList l = l := by
  unfold jsTrimList
  rw [dropWhile_id_of_head l h1, dropWhile_id_of_head l.reverse h2,
    List.reverse_reverse]

theorem trimmed_head (cs : List Char) :
    ∀ c l, jsTrimList cs = c :: l → jsWhitespace c = false := by
  intro c l h
  unfold jsTrimList at h
  have hsuf : (cs.dropWhile jsWhitespace).reverse.dropWhile jsWhitespace <:+
      (cs.dropWhile jsWhitespace).reverse := List.dropWhile_suffix _
  have hpre : ((cs.dropWhile jsWhitespace).reverse.dropWhile
      jsWhitespace).reverse <+: cs.dropWhile jsWhitespace := by
    rw [← List.reverse_suffix]
    simpa using hsuf
  obtain ⟨t, ht⟩ := hpre
  rw [h] at ht
  have hhead : cs.dropWhile jsWhitespace = c :: (l ++ t) := by
    simpa using ht.symm
  exact dropWhile_head_false jsWhitespace cs hhead

theorem trimmed_rev_head (cs : List Char) :
    ∀ c l, (jsTrimList cs).reverse = c :: l → jsWhitespace c = false := by
  intro c l h
  unfold jsTrimList at h
  rw [List.reverse_reverse] at h
  exact dropWhile_head_false jsWhitespace _ h

theorem jsTrimList_idem (cs : List Char) :
    jsTrimList (jsTrimList cs) = jsTrimList cs :=
  trim_stable (trimmed_head cs) (trimmed_rev_head cs)

theorem jsTrimList_sub (cs : List Char) : ∀ c ∈ jsTrimList cs, c ∈ cs := by
  intro c hc
  unfold jsTrimList at hc
  rw [List.mem_reverse] at hc
  have h1 := List.dropWhile_subset (l := (cs.dropWhile jsWhitespace).reverse)
    jsWhitespace hc
  rw [List.mem_reverse] at h1
  exact List.dropWhile_subset jsWhitespace h1

theorem jsTrimList_all_plain {cs : List Char} (h : cs.all plainChar = true) :
    (jsTrimList cs).all plainChar = true :=
  all_sub (jsTrimList_sub cs) h

theorem plainCell_all {t : String} (h : plainCell t = true) :
    t.data.all plainChar = true := by
  simp only [plainCell, Bool.and_eq_true] at h
  exact h.1.1.1

theorem plainCell_trim {t : String} (h : plainCell t = true) :
    jsTrimList t.data = t.data := by
  simp only [plainCell, Bool.and_eq_true, decide_eq_true_eq] at h
  obtain ⟨⟨⟨hall, _⟩, hhead⟩, hlast⟩ := h
  apply trim_stable
  · intro c cs hc
    have hcp : plainChar c = true := by
      rw [List.all_eq_true] at hall
      exact hall c (by rw [hc]; simp)
    apply plain_not_ws hcp
    intro he
    apply hhead
    rw [hc, he]
    rfl
  · intro c cs hc
    have hmem : c ∈ t.data := by
      rw [← List.mem_reverse, hc]
      simp
    have hcp : plainChar c = true := List.all_eq_true.mp hall c hmem
    apply plain_not_ws hcp
    intro he
    apply hlast
    have hlast2 : t.data.getLast? = some c := by
      rw [← List.head?_reverse, hc]
      rfl
    rw [List.getLastD_eq_getLast?, hlast2, he]
    rfl

/-! ### Plain-text pipeline lemmas -/

theorem replaceChar_noop (t : Char) (rep : List Char) :
    ∀ {cs : List Char}, (∀ c ∈ cs, c ≠ t) → replaceChar t rep cs = cs := by
  intro cs
  induction cs with
  | nil => intro _; rfl
  | cons c rest ih =>
    intro h
    have hc : c ≠ t := h c (by simp)
    have hr : ∀ x ∈ rest, x ≠ t := fun x hx => h x (by simp [hx])
    simp only [replaceChar] at ih ⊢
    rw [List.flatMap_cons, if_neg hc, ih hr]
    rfl

theorem replaceChar_plain {t : Char} (ht : plainChar t = false)
    (rep : List Char) {cs : List Char} (h : cs.all plainChar = true) :
    replaceChar t rep cs = cs :=
  replaceChar_noop t rep
    (fun c hc => plain_ne (List.all_eq_true.mp h c hc) ht)

theorem removeClass_noop {cls : Char → Bool} {cs : List Char}
    (h : ∀ c ∈ cs, cls c = false) : removeClass cls cs = cs := by
  unfold removeClass
  rw [List.filter_eq_self]
  intro a ha
  rw [h a ha]
  rfl

theorem removeClass_zw_plain {cs : List Char} (h : cs.all plainChar = true) :
    removeClass zwClass cs = cs :=
  removeClass_noop
    (fun c hc => plain_not_zw (List.all_eq_true.mp h c hc))

theorem decodeEntitiesList_plain {cs : List Char}
    (h : cs.all plainChar = true) : decodeEntitiesList cs = cs :=
  scanRepl_noop (fun _ hl => entityTry_plain hl) _ h

theorem asTextForMarkdown_plain {cs : List Char}
    (h : cs.all plainChar = true) : asTextForMarkdown cs = jsTrimList cs := by
  simp only [asTextForMarkdown]
  rw [scanRepl_noop (fun _ hl => brTry_plain _ hl) _ h]
  rw [scanRepl_noop (fun _ hl => closePTry_plain hl) _ h]
  rw [scanRepl_noop (fun _ hl => openPStripTry_plain hl) _ h]
  rw [scanRepl_noop (fun _ hl => anyTagTry_plain hl) _ h]
  rw [scanRepl_noop (fun _ hl => nlRunTry_plain 3 _ hl) _ h]

theorem containsSub_plain_pat (pat : List Char)
    (hp : plainChar (pat.headD 'a') = false) (hne : pat ≠ [])
    {cs : List Char} (h : cs.all plainChar = true) :
    containsSub pat cs = false := by
  cases pat with
  | nil => exact absurd rfl hne
  | cons p ps => exact containsSub_plain p ps (by simpa using hp) h

theorem markdownCandidateOf_plain {cs : List Char}
    (h : cs.all plainChar = true) (htrim : jsTrimList cs = cs) :
    markdownCandidateOf cs = cs := by
  simp only [markdownCandidateOf]
  rw [asTextForMarkdown_plain h, htrim, decodeEntitiesList_plain h,
    replaceChar_plain (by decide) _ h, removeClass_zw_plain h,
    scanRepl_noop (fun _ hl => spaceTabNlTry_plain hl) _ h,
    scanRepl_noop (fun _ hl => nlRunTry_plain 3 _ hl) _ h, htrim,
    containsSub_plain_pat _ (by decide) (by decide) h]
  rw [if_neg Bool.false_ne_true]
  rw [containsSub_plain_pat _ (by decide) (by decide) h]
  rw [if_neg Bool.false_ne_true]

theorem fixedHtmlOf_plain {cs : List Char} (h : cs.all plainChar = true) :
    fixedHtmlOf cs = cs := by
  simp only [fixedHtmlOf]
  rw [scanRepl_noop (fun _ hl => styleTagTry_plain hl) _ h]
  rw [scanReplB_noop (fun pv _ hl => visitButtonTry_plain pv hl) _ _ h]
  rw [scanRepl_noop (fun _ hl => cssBlockTry_plain _ hl) _ h]
  rw [scanRepl_noop (fun _ hl => cssBlockTry_plain _ hl) _ h]
  rw [scanRepl_noop (fun _ hl => srcHrefFixTry_plain _ _ hl) _ h]
  rw [scanRepl_noop (fun _ hl => srcHrefFixTry_plain _ _ hl) _ h]
  rw [scanRepl_noop (fun _ hl => srcHrefFixTry_plain _ _ hl) _ h]
  rw [scanRepl_noop (fun _ hl => srcHrefFixTry_plain _ _ hl) _ h]
  rw [scanRepl_noop (fun _ hl => tagStyleTry_plain _ hl) _ h]
  rw [scanRepl_noop (fun _ hl => tagStyleTry_plain _ hl) _ h]
  rw [scanRepl_noop (fun _ hl => srcsetTry_plain hl) _ h]
  rw [scanRepl_noop (fun _ hl => emptyPTry_plain hl) _ h]
  rw [scanRepl_noop (fun _ hl => imgExternalTry_plain hl) _ h]
  rw [scanRepl_noop (fun _ hl => imgInsertTry_plain _ _ hl) _ h]
  rw [scanRepl_noop (fun _ hl => imgInsertTry_plain _ _ hl) _ h]

/-! ### The paragraph scanner away from paragraphs -/

theorem noPOpen_tail {c : Char} {cs : List Char}
    (h : noPOpen (c :: cs) = true) : noPOpen cs = true := by
  rw [noPOpen, Bool.and_eq_true] at h
  exact h.2

theorem pTryOpen_none_of_noPOpen {cs : List Char} (h : noPOpen cs = true) :
    pTryOpen cs = none := by
  cases cs with
  | nil => rfl
  | cons c0 rest0 =>
    rw [noPOpen, Bool.and_eq_true] at h
    have h1 := h.1
    rw [Bool.not_eq_eq_eq_not, Bool.not_true, Bool.and_eq_false_iff] at h1
    rw [ pTryOpen.eq_def]
    split
    · rfl
    · rename_i c2 rest2 heq
      cases heq
      by_cases hc : c0 = '<'
      · rw [if_pos hc]
        cases rest0 with
        | nil => rfl
        | cons c1 r1 =>
          have hne : ¬ (c1 = 'p' ∨ c1 = 'P') := by
            rcases h1 with h1 | h1
            · exfalso
              rw [hc] at h1
              simp at h1
            · rw [Bool.or_eq_false_iff] at h1
              rintro (he | he)
              · have := h1.1
                simp only [List.headD_cons] at this
                simp [he] at this
              · have := h1.2
                simp only [List.headD_cons] at this
                simp [he] at this
          dsimp only
          rw [if_neg hne]
      · rw [if_neg hc]

theorem scanPSegs_noPOpen :
    ∀ (fuel : Nat) {cs : List Char}, noPOpen cs = true →
      scanPSegs fuel cs = ([], cs) := by
  intro fuel
  induction fuel with
  | zero => intro cs _; rfl
  | succ n ih =>
    intro cs h
    cases cs with
    | nil => rfl
    | cons c rest =>
      simp only [scanPSegs, pTryOpen_none_of_noPOpen h]
      rw [ih (noPOpen_tail h)]
      rfl

theorem recoverOnce_noPOpen {cs : List Char} (h : noPOpen cs = true) :
    recoverOnce cs = (false, cs) := by
  unfold recoverOnce
  rw [scanPSegs_noPOpen _ h]
  rfl

theorem recoverLoop_noPOpen (n : Nat) {cs : List Char}
    (h : noPOpen cs = true) : recoverLoop n cs = cs := by
  cases n with
  | zero => rfl
  | succ m =>
    rw [recoverLoop, recoverOnce_noPOpen h]
    rfl

theorem plain_noPOpen {cs : List Char} (h : cs.all plainChar = true) :
    noPOpen cs = true := by
  induction cs with
  | nil => rfl
  | cons c rest ih =>
    have hsplit : plainChar c = true ∧ rest.all plainChar = true := by
      simpa using h
    rw [noPOpen, Bool.and_eq_true]
    constructor
    · simp [plain_ne hsplit.1 (show plainChar '<' = false by decide)]
    · exact ih hsplit.2

/-- On plain text the sanitizer acts as `trim`: helper characterization
used by the idempotence theorem. -/
theorem normalizeWpRichText_plain {s : String}
    (h : s.data.all plainChar = true) :
    normalizeWpRichText (some s) =
      if jsTrimList s.data = [] then none
      else some (String.mk (jsTrimList s.data)) := by
  have htrimall : (jsTrimList s.data).all plainChar = true :=
    jsTrimList_all_plain h
  have hd : (jsTrim s).data = jsTrimList s.data := rfl
  simp only [normalizeWpRichText]
  by_cases hempty : jsTrim s = ""
  · rw [if_pos hempty]
    have hnil : jsTrimList s.data = [] := by
      have := congrArg String.data hempty
      rw [hd] at this
      exact this
    rw [if_pos hnil]
  · rw [if_neg hempty, hd]
    rw [scanRepl_noop (fun _ hl => hrefAdminTry_plain hl) _ htrimall]
    rw [containsHtmlTest_plain htrimall]
    rw [markdownCandidateOf_plain htrimall (jsTrimList_idem s.data)]
    rw [looksLikeMarkdown_plain htrimall]
    rw [fixedHtmlOf_plain htrimall]
    have hrec : recoverFlatTgTable (String.mk (jsTrimList s.data)) =
        String.mk (jsTrimList s.data) := by
      unfold recoverFlatTgTable
      have hd2 : (String.mk (jsTrimList s.data)).data = jsTrimList s.data :=
        rfl
      rw [hd2, recoverLoop_noPOpen _ (plain_noPOpen htrimall)]
    rw [hrec]
    have hnil : ¬ jsTrimList s.data = [] := by
      intro hx
      apply hempty
      show String.mk (jsTrimList s.data) = ""
      rw [hx]
    rw [if_neg hnil]
    split
    · rename_i hcond
      exact absurd hcond (by simp)
    · split
      · rename_i hcond
        exact absurd hcond (by simp)
      · rfl

theorem mk_data_eq : ∀ s : String, String.mk s.data = s
  | ⟨_⟩ => rfl

theorem data_append_eq (a b : String) : (a ++ b).data = a.data ++ b.data :=
  String.data_append a b

theorem jsDigit_le_nine {c : Char} (h : jsDigit c = true) :
    48 ≤ c.toNat ∧ c.toNat ≤ 57 := by
  simp only [jsDigit, Bool.and_eq_true, decide_eq_true_eq] at h
  obtain ⟨h1, h2⟩ := h
  rw [Char.le_def] at h1 h2
  constructor
  · exact h1
  · exact h2

theorem jsDigit_ne_dash {c : Char} (h : jsDigit c = true) : c ≠ '-' := by
  intro hc
  subst hc
  simp [jsDigit] at h

/-- **C1 (counterexample).**  The claim requires the stripper to leave a
slug unchanged when removing the suffix would leave an empty base, but the
code has no such guard: the regex base capture may be empty, so the slug
"-2" is stripped to the empty string instead of being returned
unchanged. -/
theorem stripWpDuplicateSuffix_empty_base :
    stripWpDuplicateSuffix "-2" = "" ∧ stripWpDuplicateSuffix "-2" ≠ "-2" := by
  constructor
  · rfl
  · decide

theorem strip_suffix_data (base : String) (ds : List Char) :
    (base ++ String.mk ('-' :: ds)).data.reverse =
      ds.reverse ++ '-' :: base.data.reverse := by
  rw [data_append_eq]
  simp

theorem strip_one_digit (base : String) (c : Char) (hc : jsDigit c = true)
    (hdot : base.data.all jsDot = true) :
    stripWpDuplicateSuffix (base ++ String.mk ['-', c]) =
      if 2 ≤ digitVal c then base else base ++ String.mk ['-', c] := by
  have hdata := strip_suffix_data base [c]
  unfold stripWpDuplicateSuffix
  rw [hdata]
  simp only [List.reverse_cons, List.reverse_nil, List.nil_append,
    List.cons_append, dupSuffixMatchRev]
  rw [if_pos]
  · have h9 := jsDigit_le_nine hc
    by_cases h2 : 2 ≤ digitVal c
    · rw [if_pos h2]
      have : (digitVal c < 2 || 99 < digitVal c) = false := by
        simp [digitVal] at h2 ⊢
        omega
      simp only [this, Bool.false_eq_true, if_false, List.reverse_reverse,
        mk_data_eq]
    · rw [if_neg h2]
      have : (digitVal c < 2 || 99 < digitVal c) = true := by
        simp [digitVal] at h2 ⊢
        omega
      simp only [this, if_true]
  · simp [hc, List.all_reverse, hdot]

theorem strip_two_digit (base : String) (c1 c2 : Char)
    (hc1 : jsDigit c1 = true) (hc2 : jsDigit c2 = true)
    (hdot : base.data.all jsDot = true) :
    stripWpDuplicateSuffix (base ++ String.mk ['-', c1, c2]) =
      if 2 ≤ 10 * digitVal c1 + digitVal c2 then base
      else base ++ String.mk ['-', c1, c2] := by
  have hdata := strip_suffix_data base [c1, c2]
  unfold stripWpDuplicateSuffix
  rw [hdata]
  simp only [List.reverse_cons, List.reverse_nil, List.nil_append,
    List.cons_append, List.append_assoc, dupSuffixMatchRev]
  rw [if_neg, if_pos]
  · have h91 := jsDigit_le_nine hc1
    have h92 := jsDigit_le_nine hc2
    by_cases h2 : 2 ≤ 10 * digitVal c1 + digitVal c2
    · rw [if_pos h2]
      have : (10 * digitVal c1 + digitVal c2 < 2 ||
          99 < 10 * digitVal c1 + digitVal c2) = false := by
        simp [digitVal] at h2 ⊢
        omega
      simp only [this, Bool.false_eq_true, if_false, List.reverse_reverse,
        mk_data_eq]
    · rw [if_neg h2]
      have : (10 * digitVal c1 + digitVal c2 < 2 ||
          99 < 10 * digitVal c1 + digitVal c2) = true := by
        simp [digitVal] at h2 ⊢
        omega
      simp only [this, if_true]
  · simp [hc1, hc2, List.all_reverse, hdot]
  · have := jsDigit_ne_dash hc1
    simp [this]

theorem string_eq_of_data {a b : String} (h : a.data = b.data) : a = b := by
  rw [← mk_data_eq a, ← mk_data_eq b, h]

theorem strip_complete (s : String) (h : stripWpDuplicateSuffix s ≠ s) :
    ∃ (base : String) (ds : List Char),
      s = base ++ String.mk ('-' :: ds) ∧ ds.all jsDigit = true ∧
      (ds.length = 1 ∨ ds.length = 2) ∧ base.data.all jsDot = true ∧
      2 ≤ dupDigitsVal ds ∧ dupDigitsVal ds ≤ 99 ∧
      stripWpDuplicateSuffix s = base := by
  unfold stripWpDuplicateSuffix at h ⊢
  rcases hrev : s.data.reverse with _ | ⟨c1, tl⟩
  · rw [hrev] at h
    simp [dupSuffixMatchRev] at h
  rcases tl with _ | ⟨c2, rest⟩
  · rw [hrev] at h
    simp [dupSuffixMatchRev] at h
  rw [hrev] at h
  have hsd : s.data = (c1 :: c2 :: rest).reverse := by
    have h2 := congrArg List.reverse hrev
    simpa using h2
  by_cases hone : (c2 = '-' && jsDigit c1 && rest.all jsDot) = true
  · simp only [dupSuffixMatchRev, hone, if_true] at h ⊢
    simp only [Bool.and_eq_true, decide_eq_true_eq] at hone
    obtain ⟨⟨hdash, hdig⟩, hjd⟩ := hone
    by_cases hr : (digitVal c1 < 2 || 99 < digitVal c1) = true
    · rw [if_pos hr] at h
      exact absurd rfl h
    · rw [if_neg hr] at h ⊢
      refine ⟨String.mk rest.reverse, [c1], ?_, ?_, ?_, ?_, ?_, ?_, rfl⟩
      · apply string_eq_of_data
        rw [data_append_eq, hsd, hdash]
        simp
      · simp [hdig]
      · simp
      · simp [List.all_reverse, hjd]
      · simp only [Bool.or_eq_true, decide_eq_true_eq, not_or, not_lt] at hr
        simpa [dupDigitsVal] using hr.1
      · have := jsDigit_le_nine hdig
        simp only [dupDigitsVal, digitVal]
        omega
  · rcases rest with _ | ⟨c3, rest2⟩
    · simp only [dupSuffixMatchRev, hone, Bool.false_eq_true, if_false] at h
      exact absurd rfl h
    by_cases htwo : (c3 = '-' && jsDigit c2 && jsDigit c1 && rest2.all jsDot) = true
    · simp only [dupSuffixMatchRev, hone, Bool.false_eq_true, if_false, htwo,
        if_true] at h ⊢
      simp only [Bool.and_eq_true, decide_eq_true_eq] at htwo
      obtain ⟨⟨⟨hdash, hd2⟩, hd1⟩, hjd⟩ := htwo
      by_cases hr : (10 * digitVal c2 + digitVal c1 < 2 ||
          99 < 10 * digitVal c2 + digitVal c1) = true
      · rw [if_pos hr] at h
        exact absurd rfl h
      · rw [if_neg hr] at h ⊢
        refine ⟨String.mk rest2.reverse, [c2, c1], ?_, ?_, ?_, ?_, ?_, ?_, rfl⟩
        · apply string_eq_of_data
          rw [data_append_eq, hsd, hdash]
          simp
        · simp [hd1, hd2]
        · simp
        · simp [List.all_reverse, hjd]
        · simp only [Bool.or_eq_true, decide_eq_true_eq, not_or, not_lt] at hr
          simpa [dupDigitsVal] using hr.1
        · have h1 := jsDigit_le_nine hd1
          have h2 := jsDigit_le_nine hd2
          simp only [dupDigitsVal, digitVal]
          omega
    · simp only [dupSuffixMatchRev, hone, Bool.false_eq_true, if_false, htwo] at h
      exact absurd rfl h

/-- **C1 (amended).**  The suffix stripper removes a trailing dash followed
by one or two ASCII digits whose value n satisfies 2 <= n <= 99, whenever
the characters before the dash contain no line terminator; the remaining
base may be empty.  Slugs of any other shape are returned unchanged, and
the five example evaluations of the claim all hold. -/
theorem stripWpDuplicateSuffix_amended :
    (stripWpDuplicateSuffix "project-2" = "project" ∧
     stripWpDuplicateSuffix "project-99" = "project" ∧
     stripWpDuplicateSuffix "project-1" = "project-1" ∧
     stripWpDuplicateSuffix "project-100" = "project-100" ∧
     stripWpDuplicateSuffix "project" = "project") ∧
    (∀ (base : String) (c : Char), jsDigit c = true →
      base.data.all jsDot = true →
      stripWpDuplicateSuffix (base ++ String.mk ['-', c]) =
        if 2 ≤ digitVal c then base else base ++ String.mk ['-', c]) ∧
    (∀ (base : String) (c1 c2 : Char), jsDigit c1 = true → jsDigit c2 = true →
      base.data.all jsDot = true →
      stripWpDuplicateSuffix (base ++ String.mk ['-', c1, c2]) =
        if 2 ≤ 10 * digitVal c1 + digitVal c2 then base
        else base ++ String.mk ['-', c1, c2]) ∧
    (∀ s : String, stripWpDuplicateSuffix s ≠ s →
      ∃ (base : String) (ds : List Char),
        s = base ++ String.mk ('-' :: ds) ∧ ds.all jsDigit = true ∧
        (ds.length = 1 ∨ ds.length = 2) ∧ base.data.all jsDot = true ∧
        2 ≤ dupDigitsVal ds ∧ dupDigitsVal ds ≤ 99 ∧
        stripWpDuplicateSuffix s = base) :=
  ⟨⟨by rfl, by rfl, by rfl, by rfl, by rfl⟩,
   strip_one_digit, strip_two_digit, strip_complete⟩

/-- Witness for the amended C1 theorem at concrete inputs. -/
theorem stripWpDuplicateSuffix_amended_witness :
    stripWpDuplicateSuffix ("ab" ++ String.mk ['-', '7']) =
      (if 2 ≤ digitVal '7' then "ab" else "ab" ++ String.mk ['-', '7']) ∧
    stripWpDuplicateSuffix ("ab" ++ String.mk ['-', '4', '2']) =
      (if 2 ≤ 10 * digitVal '4' + digitVal '2' then "ab"
       else "ab" ++ String.mk ['-', '4', '2']) :=
  ⟨stripWpDuplicateSuffix_amended.2.1 "ab" '7' (by decide) (by decide),
   stripWpDuplicateSuffix_amended.2.2.1 "ab" '4' '2' (by decide) (by decide)
     (by decide)⟩

theorem retryLoop_all_error {ε α : Type} (fn : Nat → Except ε α) (es : Nat → ε)
    (mr d : Nat) :
    ∀ k attempt, mr + 1 - attempt = k → 1 ≤ attempt → attempt ≤ mr →
    (∀ j, attempt ≤ j → j ≤ mr → fn j = .error (es j)) →
    (retryLoop ε α fn mr d attempt).result = .err (es mr) := by
  intro k
  induction k with
  | zero =>
    intro attempt hk h1 hle _
    omega
  | succ n ih =>
    intro attempt hk h1 hle hf
    rw [retryLoop]
    rw [dif_pos hle, hf attempt le_rfl hle]
    dsimp only
    by_cases heq : attempt = mr
    · rw [dif_pos heq, heq]
    · rw [dif_neg heq]
      exact ih (attempt + 1) (by omega) (by omega) (by omega)
        (fun j hj1 hj2 => hf j (by omega) hj2)

theorem retryLoop_bounds {ε α : Type} (fn : Nat → Except ε α) (mr d : Nat) :
    ∀ k attempt, mr + 1 - attempt = k → 1 ≤ attempt → attempt ≤ mr →
    (1 ≤ (retryLoop ε α fn mr d attempt).calls ∧
     (retryLoop ε α fn mr d attempt).calls ≤ mr + 1 - attempt ∧
     (retryLoop ε α fn mr d attempt).result ≠ .unreachable) := by
  intro k
  induction k with
  | zero =>
    intro attempt hk h1 hle
    omega
  | succ n ih =>
    intro attempt hk h1 hle
    rw [retryLoop, dif_pos hle]
    rcases hfa : fn attempt with e | v
    all_goals dsimp only
    · by_cases heq : attempt = mr
      · rw [dif_pos heq]
        refine ⟨le_rfl, by dsimp only; omega, by simp⟩
      · rw [dif_neg heq]
        obtain ⟨hc1, hc2, hres⟩ := ih (attempt + 1) (by omega) (by omega) (by omega)
        refine ⟨by simp, by simp; omega, by simpa using hres⟩
    · refine ⟨le_rfl, by omega, by simp⟩

/-- **C4.**  With three attempts allowed, a function failing on the first
two attempts and succeeding on the third resolves with the success value
after exactly two sleeps of one and two times the base delay; a function
failing on every allowed attempt makes `retry` re-throw the error of the
final attempt. -/
theorem retry_policy {ε α : Type} :
    (∀ (fn : Nat → Except ε α) (d : Nat) (e1 e2 : ε) (v : α),
      fn 1 = .error e1 → fn 2 = .error e2 → fn 3 = .ok v →
      retry ε α fn 3 d = ⟨.ok v, [d * 1, d * 2], 3⟩) ∧
    (∀ (fn : Nat → Except ε α) (es : Nat → ε) (mr d : Nat), 1 ≤ mr →
      (∀ k, 1 ≤ k → k ≤ mr → fn k = .error (es k)) →
      (retry ε α fn mr d).result = .err (es mr)) := by
  constructor
  · intro fn d e1 e2 v h1 h2 h3
    unfold retry
    rw [retryLoop, dif_pos (by omega : (1:Nat) ≤ 3), h1]
    dsimp only
    rw [dif_neg (by omega : ¬(1:Nat) = 3)]
    rw [retryLoop, dif_pos (by omega : (2:Nat) ≤ 3), h2]
    dsimp only
    rw [dif_neg (by omega : ¬(2:Nat) = 3)]
    rw [retryLoop, dif_pos (by omega : (3:Nat) ≤ 3), h3]
  · intro fn es mr d hmr hf
    exact retryLoop_all_error fn es mr d (mr + 1 - 1) 1 rfl le_rfl hmr
      (fun j hj1 hj2 => hf j hj1 hj2)

/-- Witness for C4 at a concrete failing-then-succeeding function and a
concrete always-failing function. -/
theorem retry_policy_witness :
    retry Nat Nat (fun k => if k = 3 then .ok 7 else .error k) 3 5 =
      ⟨.ok 7, [5 * 1, 5 * 2], 3⟩ ∧
    (retry Nat Nat (fun k => .error (k + 10)) 2 5).result = .err (2 + 10) :=
  ⟨retry_policy.1 (fun k => if k = 3 then .ok 7 else .error k) 5 1 2 7
      rfl rfl rfl,
   retry_policy.2 (fun k => .error (k + 10)) (fun k => k + 10) 2 5
      (by decide) (fun k _ _ => rfl)⟩

/-- **C10.**  For `maxRetries >= 1` the wrapped function is invoked at
least once and at most `maxRetries` times and the trailing Unreachable
throw is never reached; with `maxRetries = 0` the function is never
invoked and `retry` always throws the Unreachable error. -/
theorem retry_bounds {ε α : Type} :
    (∀ (fn : Nat → Except ε α) (mr d : Nat), 1 ≤ mr →
      1 ≤ (retry ε α fn mr d).calls ∧ (retry ε α fn mr d).calls ≤ mr ∧
      (retry ε α fn mr d).result ≠ .unreachable) ∧
    (∀ (fn : Nat → Except ε α) (d : Nat),
      retry ε α fn 0 d = ⟨.unreachable, [], 0⟩) := by
  constructor
  · intro fn mr d hmr
    obtain ⟨h1, h2, h3⟩ := retryLoop_bounds fn mr d (mr + 1 - 1) 1 rfl le_rfl hmr
    unfold retry
    exact ⟨h1, by omega, h3⟩
  · intro fn d
    unfold retry
    rw [retryLoop, dif_neg (by omega)]

/-- Witness for C10 at a concrete function and bound. -/
theorem retry_bounds_witness :
    1 ≤ (retry Nat Nat (fun _ => .error 0) 2 7).calls ∧
    (retry Nat Nat (fun _ => .error 0) 2 7).calls ≤ 2 ∧
    (retry Nat Nat (fun _ => .error 0) 2 7).result ≠ .unreachable :=
  retry_bounds.1 (fun _ => .error 0) 2 7 (by decide)

/-- **C6.**  The four Strapi media wrapper shapes normalize coherently: a
bare media object (no `data` key) and the same object wrapped under a
`data` key both normalize to the flattened node; an array and the same
array wrapped under a `data` key both normalize to the same ordered
sequence of flattened nodes; and entries normalizing to `null` are dropped
from sequences. -/
theorem normalizeStrapiMedia_shapes :
    (∀ fields : List (String × J), hasOwn fields "data" = false →
      normalizeStrapiMedia (.jobj fields) =
        normalizeStrapiMediaNode (.jobj fields) ∧
      normalizeStrapiMedia (.jobj [("data", .jobj fields)]) =
        normalizeStrapiMediaNode (.jobj fields)) ∧
    (∀ elems : List J,
      normalizeStrapiMedia (.jarr elems) =
        .jarr ((elems.map normalizeStrapiMediaNode).filter truthy) ∧
      normalizeStrapiMedia (.jobj [("data", .jarr elems)]) =
        .jarr ((elems.map normalizeStrapiMediaNode).filter truthy)) ∧
    (∀ pre post : List J,
      normalizeStrapiMedia (.jarr (pre ++ J.jnull :: post)) =
        normalizeStrapiMedia (.jarr (pre ++ post))) := by
  refine ⟨?_, ?_, ?_⟩
  · intro fields hnd
    constructor
    · simp [normalizeStrapiMedia, truthy, hnd]
    · simp [normalizeStrapiMedia, truthy, hasOwn, getField, getFieldD]
  · intro elems
    constructor
    · simp [normalizeStrapiMedia, truthy]
    · simp [normalizeStrapiMedia, truthy, hasOwn, getField, getFieldD]
  · intro pre post
    have hnull : normalizeStrapiMediaNode J.jnull = J.jnull := by
      simp [normalizeStrapiMediaNode, truthy]
    simp [normalizeStrapiMedia, truthy, List.filter_append, hnull]

/-- Witness for C6 at a concrete media object. -/
theorem normalizeStrapiMedia_shapes_witness :
    normalizeStrapiMedia (.jobj [("id", J.jnum 5)]) =
      normalizeStrapiMediaNode (.jobj [("id", J.jnum 5)]) ∧
    normalizeStrapiMedia (.jobj [("data", .jobj [("id", J.jnum 5)])]) =
      normalizeStrapiMediaNode (.jobj [("id", J.jnum 5)]) :=
  normalizeStrapiMedia_shapes.1 [("id", J.jnum 5)] (by decide)

/-- **C7 (counterexample).**  The claim says every case variant of a
false-form parses to false, but the ACF boolean parser only recognizes the
lower-case forms and its final line coerces any other non-empty string
with `Boolean(value)`, which is true: "FALSE" and "False" parse to
true. -/
theorem parseAcfBoolean_case_counterexample :
    parseAcfBoolean (.jstr "FALSE") = true ∧
    parseAcfBoolean (.jstr "False") = true ∧
    parseAcfBoolean (.jstr "0") = false := by
  refine ⟨?_, ?_, ?_⟩ <;> rfl

/-- **C7 (amended).**  The ACF parser honours the exact forms
`true/false`, `1/0`, "1"/"0", "true"/"false", "" and absent values, and
coerces every other non-empty string (including all non-lower-case
variants such as "TRUE", "FALSE" or "Yes") to true; the CSV string parser
`parseBoolean` is fully case-insensitive, mapping the trimmed lower-cased
forms "true", "yes" and "1" to true and everything else (notably "0", ""
and every case variant of "false") to false. -/
theorem boolean_parsers_amended :
    (parseAcfBoolean (.jbool true) = true ∧ parseAcfBoolean (.jnum 1) = true ∧
     parseAcfBoolean (.jstr "1") = true ∧ parseAcfBoolean (.jstr "true") = true) ∧
    (parseAcfBoolean (.jbool false) = false ∧ parseAcfBoolean (.jnum 0) = false ∧
     parseAcfBoolean (.jstr "0") = false ∧ parseAcfBoolean (.jstr "false") = false ∧
     parseAcfBoolean (.jstr "") = false ∧ parseAcfBoolean .jnull = false ∧
     parseAcfBoolean .jundef = false) ∧
    (∀ s : String, s ≠ "" → s ≠ "1" → s ≠ "0" → s ≠ "true" → s ≠ "false" →
      parseAcfBoolean (.jstr s) = true) ∧
    (∀ s t : String, s.data.map Char.toLower = t.data.map Char.toLower →
      parseBoolean s = parseBoolean t) ∧
    (parseBoolean "Yes" = true ∧ parseBoolean "TRUE" = true ∧
     parseBoolean "FALSE" = false ∧ parseBoolean "0" = false ∧
     parseBoolean "" = false ∧ parseAcfBoolean (.jstr "TRUE") = true ∧
     parseAcfBoolean (.jstr "Yes") = true) := by
  refine ⟨⟨rfl, rfl, rfl, rfl⟩, ⟨rfl, rfl, rfl, rfl, rfl, rfl, rfl⟩, ?_, ?_,
    rfl, rfl, rfl, rfl, rfl, rfl, rfl⟩
  · intro s h0 h1 h2 h3 h4
    simp only [parseAcfBoolean]
    split <;> simp_all [truthy]
  · intro s t h
    have hempty : (s = "") ↔ (t = "") := by
      constructor
      · intro hs
        subst hs
        have hd : t.data = [] := by simpa using h.symm
        apply string_eq_of_data
        rw [hd]
      · intro ht
        subst ht
        have hd : s.data = [] := by simpa using h
        apply string_eq_of_data
        rw [hd]
    have hlower : asciiLower s = asciiLower t := by
      unfold asciiLower
      rw [h]
    unfold parseBoolean
    by_cases hs : s = ""
    · rw [if_pos hs, if_pos (hempty.mp hs)]
    · rw [if_neg hs, if_neg (fun ht => hs (hempty.mpr ht)), hlower]

/-- Witness for the amended C7 theorem at concrete strings. -/
theorem boolean_parsers_amended_witness :
    parseAcfBoolean (.jstr "random") = true ∧ parseBoolean "YES" = parseBoolean "yes" :=
  ⟨boolean_parsers_amended.2.2.1 "random" (by decide) (by decide) (by decide)
      (by decide) (by decide),
   boolean_parsers_amended.2.2.2.1 "YES" "yes" (by decide)⟩

/-- **C8 (counterexample).**  For a JPEG response the code appends the
content-type subtype "jpeg", not "jpg" as the claim states; for a content
type outside the four listed image types it appends that subtype, never
"bin". -/
theorem downloadFilename_counterexample :
    downloadFilename "https://example.com/photo" (some "image/jpeg") =
      some "photo.jpeg" ∧
    "photo.jpeg" ≠ "photo.jpg" ∧
    downloadFilename "https://example.com/file" (some "application/pdf") =
      some "file.pdf" ∧
    "file.pdf" ≠ "file.bin" := by
  refine ⟨rfl, by decide, rfl, by decide⟩

/-- **C8 (amended).**  When the cleaned filename derived from the URL path
(after percent-decoding) contains no dot, the downloader appends the
subtype of the declared content type (the text after `/` and before `;`),
e.g. "jpeg" for a JPEG response, "png", "webp", "gif", and the declared
subtype (such as "pdf" or "octet-stream") for any other type; the literal
fallback "jpg" is used only when the content type has no subtype, and an
absent or empty content-type header defaults to `image/jpeg`. -/
theorem downloadFilename_amended :
    (∀ (url ct b : String),
      dlCleanedBase url = some b → b.data.contains '.' = false → ct ≠ "" →
      downloadFilename url (some ct) = some (b ++ "." ++ extFromContentType ct)) ∧
    (∀ (url b : String) (header : Option String),
      dlCleanedBase url = some b → b.data.contains '.' = true →
      downloadFilename url header = some b) ∧
    (∀ (url b : String),
      dlCleanedBase url = some b → b.data.contains '.' = false →
      downloadFilename url none = some (b ++ "." ++ extFromContentType "image/jpeg")) ∧
    (extFromContentType "image/jpeg" = "jpeg" ∧
     extFromContentType "image/png" = "png" ∧
     extFromContentType "image/webp" = "webp" ∧
     extFromContentType "image/gif" = "gif" ∧
     extFromContentType "application/pdf" = "pdf" ∧
     extFromContentType "application/octet-stream" = "octet-stream" ∧
     extFromContentType "image" = "jpg") := by
  refine ⟨?_, ?_, ?_, rfl, rfl, rfl, rfl, rfl, rfl, rfl⟩
  · intro url ct b hb hdot hct
    unfold downloadFilename
    rw [hb]
    simp [hdot, contentTypeOrDefault, hct]
    intro hmem
    simp_all
  · intro url b header hb hdot
    unfold downloadFilename
    rw [hb]
    simp [hdot]
    intro hmem
    simp_all
  · intro url b hb hdot
    unfold downloadFilename
    rw [hb]
    simp [hdot, contentTypeOrDefault]
    intro hmem
    simp_all

/-- Witness for the amended C8 theorem at concrete URLs. -/
theorem downloadFilename_amended_witness :
    downloadFilename "https://example.com/abc%20d" (some "image/webp") =
      some ("abc_d" ++ "." ++ extFromContentType "image/webp") ∧
    downloadFilename "https://example.com/pic.png?width=3" (some "image/gif") =
      some "pic.png" :=
  ⟨downloadFilename_amended.1 "https://example.com/abc%20d" "image/webp" "abc_d"
      (by decide) (by decide) (by decide),
   downloadFilename_amended.2.1 "https://example.com/pic.png?width=3" "pic.png"
      (some "image/gif") (by decide) (by decide)⟩

/-- **C9.**  A 404 on the source image resolves with `null` (the media
field is simply left unset, no error is raised and no retry happens);
every other HTTP error status is re-thrown to the caller, where the retry
policy of `processImage` applies: an attempt failing with a non-404 status
is retried after a sleep, and a following successful attempt resolves the
whole call. -/
theorem downloadImage_404_policy :
    (∀ url : String, downloadImage url (.error (.status 404)) = .ok none) ∧
    (∀ (url : String) (s : Nat), s ≠ 404 →
      downloadImage url (.error (.status s)) = .error (.status s)) ∧
    (∀ (url : String) (envs : Nat → AttemptEnv), url ≠ "" →
      (envs 1).download = .error (.status 404) →
      processImage url envs = (none, [])) ∧
    (∀ (url : String) (envs : Nat → AttemptEnv) (v : Int), url ≠ "" →
      (envs 1).download = .error (.status 500) →
      processAttempt url (envs 2) = .ok (some v) →
      processImage url envs = (some v, [1000 * 1])) := by
  refine ⟨?_, ?_, ?_, ?_⟩
  · intro url
    simp [downloadImage]
  · intro url s hs
    simp [downloadImage, hs]
  · intro url envs hurl hd
    unfold processImage
    rw [if_neg hurl]
    unfold retry
    rw [retryLoop, dif_pos (by omega : (1:Nat) ≤ 3)]
    have hstep : processAttempt url (envs 1) = .ok none := by
      simp [processAttempt, downloadImage, hd]
    rw [hstep]
  · intro url envs v hurl hd1 h2
    unfold processImage
    rw [if_neg hurl]
    unfold retry
    rw [retryLoop, dif_pos (by omega : (1:Nat) ≤ 3)]
    have hstep : processAttempt url (envs 1) = .error (.status 500) := by
      simp [processAttempt, downloadImage, hd1]
    rw [hstep]
    dsimp only
    rw [dif_neg (by omega : ¬(1:Nat) = 3)]
    rw [retryLoop, dif_pos (by omega : (2:Nat) ≤ 3), h2]

/-- Witness for C9 at concrete attempt environments. -/
theorem downloadImage_404_policy_witness :
    processImage "https://example.com/a.png"
      (fun _ => ⟨.error (.status 404), .error .network⟩) = (none, []) ∧
    processImage "https://example.com/a.png"
      (fun k => if k = 1 then ⟨.error (.status 500), .ok 9⟩
        else ⟨.ok ⟨some "image/png", [7]⟩, .ok 9⟩) = (some 9, [1000 * 1]) :=
  ⟨downloadImage_404_policy.2.2.1 "https://example.com/a.png"
      (fun _ => ⟨.error (.status 404), .error .network⟩) (by decide) rfl,
   downloadImage_404_policy.2.2.2 "https://example.com/a.png"
      (fun k => if k = 1 then ⟨.error (.status 500), .ok 9⟩
        else ⟨.ok ⟨some "image/png", [7]⟩, .ok 9⟩) 9 (by decide) rfl rfl⟩

/-- **C3 (counterexample).**  With a missing (unparseable) date in the
group, the pairwise preference is not transitive, so the survivor need not
be the record the claim rule selects: in the group below all slugs are
non-duplicates, record a carries the strictly most recent timestamp
(5, versus 2 and a missing date), yet the survivor is b, whose date is
missing, because b wins both pairwise id tiebreaks. -/
theorem dedupeBySlug_counterexample :
    dedupeBySlug [⟨"s", some 5, some 1⟩, ⟨"s", none, some 9⟩,
        ⟨"s", some 2, some 3⟩] = [⟨"s", none, some 9⟩] ∧
    isWpDuplicateSlug "s" = false ∧
    (⟨"s", none, some 9⟩ : WPRecord).dateMs = none ∧
    (∀ r ∈ [(⟨"s", some 5, some 1⟩ : WPRecord), ⟨"s", none, some 9⟩,
        ⟨"s", some 2, some 3⟩], r = ⟨"s", some 5, some 1⟩ ∨
        r.dateMs = none ∨ ∃ d : Int, r.dateMs = some d ∧ d < 5) := by
  refine ⟨by decide, by decide, rfl, by decide⟩

theorem findBySlug_none_iff (m : List (String × WPRecord)) (k : String) :
    findBySlug m k = none ↔ ∀ p ∈ m, p.1 ≠ k := by
  induction m with
  | nil => simp [findBySlug]
  | cons q rest ih =>
    obtain ⟨qk, qv⟩ := q
    by_cases hq : qk = k
    · subst hq
      simp [findBySlug]
    · simp [findBySlug, hq, ih]

theorem findBySlug_setBySlug_self (m : List (String × WPRecord)) (k : String)
    (v : WPRecord) : findBySlug (setBySlug m k v) k = some v := by
  induction m with
  | nil => simp [setBySlug, findBySlug]
  | cons q rest ih =>
    obtain ⟨qk, qv⟩ := q
    by_cases hq : qk = k
    · subst hq
      simp [setBySlug, findBySlug]
    · simp [setBySlug, findBySlug, hq, ih]

theorem setBySlug_of_absent (m : List (String × WPRecord)) (k : String)
    (v : WPRecord) (h : findBySlug m k = none) :
    setBySlug m k v = m ++ [(k, v)] := by
  induction m with
  | nil => simp [setBySlug]
  | cons q rest ih =>
    obtain ⟨qk, qv⟩ := q
    by_cases hq : qk = k
    · subst hq
      simp [findBySlug] at h
    · simp [findBySlug, hq] at h
      simp [setBySlug, hq, ih h]

theorem setBySlug_keys (m : List (String × WPRecord)) (k : String)
    (v u : WPRecord) (h : findBySlug m k = some u) :
    (setBySlug m k v).map Prod.fst = m.map Prod.fst := by
  induction m with
  | nil => simp [findBySlug] at h
  | cons q rest ih =>
    obtain ⟨qk, qv⟩ := q
    by_cases hq : qk = k
    · subst hq
      simp [setBySlug]
    · simp [findBySlug, hq] at h
      simp [setBySlug, hq, ih h]

theorem setBySlug_mem (m : List (String × WPRecord)) (k : String)
    (v : WPRecord) (p : String × WPRecord) (h : p ∈ setBySlug m k v) :
    p = (k, v) ∨ p ∈ m := by
  induction m with
  | nil =>
    simp [setBySlug] at h
    exact Or.inl h
  | cons q rest ih =>
    obtain ⟨qk, qv⟩ := q
    by_cases hq : qk = k
    · subst hq
      simp [setBySlug] at h
      rcases h with h | h
      · exact Or.inl (by simp [h])
      · exact Or.inr (by simp [h])
    · simp [setBySlug, hq] at h
      rcases h with h | h
      · exact Or.inr (by simp [h])
      · rcases ih h with h2 | h2
        · exact Or.inl h2
        · exact Or.inr (by simp [h2])

theorem findBySlug_of_mem (m : List (String × WPRecord)) (k : String)
    (u : WPRecord) (hn : (m.map Prod.fst).Nodup) (h : (k, u) ∈ m) :
    findBySlug m k = some u := by
  induction m with
  | nil => simp at h
  | cons q rest ih =>
    obtain ⟨qk, qv⟩ := q
    rw [List.map_cons, List.nodup_cons] at hn
    rcases List.mem_cons.mp h with h | h
    · cases h
      simp [findBySlug]
    · have hk : k ∈ rest.map Prod.fst := by
        have := List.mem_map_of_mem Prod.fst h
        simpa using this
      have hne : qk ≠ k := fun hq => hn.1 (hq ▸ hk)
      simp only [findBySlug, hne, if_false]
      exact ih hn.2 h

theorem claimBeats_irrefl (x : WPRecord) : ¬ claimBeats x x := by
  unfold claimBeats
  intro h
  rcases h with ⟨h1, h2⟩ | ⟨_, dx, dr, h1, h2, h3⟩ | ⟨_, _, ix, ir, h1, h2, h3⟩
  · rw [h1] at h2
    simp at h2
  · rw [h1] at h2
    injection h2 with h2
    omega
  · rw [h1] at h2
    injection h2 with h2
    omega

theorem tripleLt_trans {s t u : Nat × Int × Int} (h1 : tripleLt s t)
    (h2 : tripleLt t u) : tripleLt s u := by
  unfold tripleLt at h1 h2 ⊢
  obtain ⟨s1, s2, s3⟩ := s
  obtain ⟨t1, t2, t3⟩ := t
  obtain ⟨u1, u2, u3⟩ := u
  simp at h1 h2 ⊢
  omega

theorem claimBeats_iff_tripleLt (x r : WPRecord) {dx dr ix ir : Int}
    (hdx : x.dateMs = some dx) (hdr : r.dateMs = some dr)
    (hix : x.idNum = some ix) (hir : r.idNum = some ir) :
    claimBeats x r ↔ tripleLt (rankTriple r) (rankTriple x) := by
  unfold claimBeats tripleLt rankTriple
  rw [hdx, hdr, hix, hir]
  by_cases hx : isWpDuplicateSlug x.slug <;>
    by_cases hr : isWpDuplicateSlug r.slug <;>
      simp [hx, hr] <;> omega

theorem pickById_mem (a b : WPRecord) :
    pickById a b = a ∨ pickById a b = b := by
  unfold pickById
  rcases a.idNum with _ | ai <;> rcases b.idNum with _ | bi <;> dsimp only
  · exact Or.inl rfl
  · exact Or.inl rfl
  · exact Or.inl rfl
  · split_ifs <;> simp

theorem pick_mem (a b : WPRecord) :
    pickPreferredBySlug a b = a ∨ pickPreferredBySlug a b = b := by
  unfold pickPreferredBySlug
  dsimp only
  by_cases h1 : isWpDuplicateSlug a.slug ≠ isWpDuplicateSlug b.slug
  · rw [if_pos h1]
    split_ifs <;> simp
  · rw [if_neg h1]
    rcases a.dateMs with _ | ad <;> rcases b.dateMs with _ | bd <;> dsimp only
    · exact pickById_mem a b
    · exact pickById_mem a b
    · exact pickById_mem a b
    · split_ifs
      · simp
      · simp
      · exact pickById_mem a b

theorem pick_eq (a b : WPRecord) {da db ia ib : Int}
    (hda : a.dateMs = some da) (hdb : b.dateMs = some db)
    (hia : a.idNum = some ia) (hib : b.idNum = some ib) :
    pickPreferredBySlug a b =
      if tripleLt (rankTriple a) (rankTriple b) then b else a := by
  unfold pickPreferredBySlug pickById tripleLt rankTriple
  rw [hda, hdb, hia, hib]
  simp only [Option.getD_some]
  by_cases hx : isWpDuplicateSlug a.slug <;>
    by_cases hr : isWpDuplicateSlug b.slug <;>
      simp only [hx, hr, if_true, if_false, ne_eq]
  all_goals try (split_ifs <;> first | rfl | omega | (exfalso; omega) | simp_all)
  all_goals first | rfl | omega | (exfalso; omega) | simp_all

theorem findBySlug_mem (m : List (String × WPRecord)) (k : String)
    (v : WPRecord) (h : findBySlug m k = some v) : (k, v) ∈ m := by
  induction m with
  | nil => simp [findBySlug] at h
  | cons q rest ih =>
    obtain ⟨qk, qv⟩ := q
    by_cases hq : qk = k
    · subst hq
      simp [findBySlug] at h
      simp [h]
    · simp only [findBySlug, hq, if_false] at h
      exact List.mem_cons_of_mem _ (ih h)

theorem dedupe_insert_inv (processed : List WPRecord) (item : WPRecord)
    (m : List (String × WPRecord))
    (hfinP : ∀ x ∈ processed, x.dateMs ≠ none ∧ x.idNum ≠ none)
    (hfinI : item.dateMs ≠ none ∧ item.idNum ≠ none)
    (hnd : (m.map Prod.fst).Nodup)
    (hpair : ∀ p ∈ m, p.1 = stripWpDuplicateSuffix p.2.slug ∧ p.2 ∈ processed)
    (hcov : ∀ x ∈ processed, stripWpDuplicateSuffix x.slug ∈ m.map Prod.fst)
    (hmax : ∀ p ∈ m, ∀ x ∈ processed,
      stripWpDuplicateSuffix x.slug = p.1 → ¬ claimBeats x p.2) :
    ((dedupeInsert m item).map Prod.fst).Nodup ∧
    (∀ p ∈ dedupeInsert m item, p.1 = stripWpDuplicateSuffix p.2.slug ∧
      p.2 ∈ processed ++ [item]) ∧
    (∀ x ∈ processed ++ [item],
      stripWpDuplicateSuffix x.slug ∈ (dedupeInsert m item).map Prod.fst) ∧
    (∀ p ∈ dedupeInsert m item, ∀ x ∈ processed ++ [item],
      stripWpDuplicateSuffix x.slug = p.1 → ¬ claimBeats x p.2) := by
  unfold dedupeInsert
  dsimp only
  cases hfind : findBySlug m (stripWpDuplicateSuffix item.slug) with
  | none =>
    rw [setBySlug_of_absent m _ item hfind]
    have hknotin : stripWpDuplicateSuffix item.slug ∉ m.map Prod.fst := by
      intro hk
      rcases List.mem_map.mp hk with ⟨p, hp, hpk⟩
      exact (findBySlug_none_iff m _).mp hfind p hp hpk
    refine ⟨?_, ?_, ?_, ?_⟩
    · rw [List.map_append]
      refine List.Nodup.append hnd (by simp) ?_
      intro a ha hb
      simp at hb
      subst hb
      exact hknotin ha
    · intro p hp
      rcases List.mem_append.mp hp with hp | hp
      · obtain ⟨h1, h2⟩ := hpair p hp
        exact ⟨h1, List.mem_append_left _ h2⟩
      · simp at hp
        subst hp
        simp
    · intro x hx
      rw [List.map_append]
      rcases List.mem_append.mp hx with hx | hx
      · exact List.mem_append_left _ (hcov x hx)
      · simp at hx
        subst hx
        simp
    · intro p hp x hx hxp
      rcases List.mem_append.mp hp with hp | hp
      · rcases List.mem_append.mp hx with hx | hx
        · exact hmax p hp x hx hxp
        · rw [List.mem_singleton] at hx
          rw [hx] at hxp
          exfalso
          apply hknotin
          rw [hxp]
          exact List.mem_map.mpr ⟨p, hp, rfl⟩
      · rw [List.mem_singleton] at hp
        subst hp
        have hxp2 : stripWpDuplicateSuffix x.slug =
            stripWpDuplicateSuffix item.slug := hxp
        rcases List.mem_append.mp hx with hx | hx
        · exfalso
          apply hknotin
          rw [← hxp2]
          exact hcov x hx
        · rw [List.mem_singleton] at hx
          rw [hx]
          exact claimBeats_irrefl item
  | some existing =>
    have hmem : (stripWpDuplicateSuffix item.slug, existing) ∈ m :=
      findBySlug_mem m _ existing hfind
    have hexP : existing ∈ processed := (hpair _ hmem).2
    have hexKey : stripWpDuplicateSuffix item.slug =
        stripWpDuplicateSuffix existing.slug := (hpair _ hmem).1
    obtain ⟨de, hde⟩ := Option.ne_none_iff_exists'.mp (hfinP existing hexP).1
    obtain ⟨ie, hie⟩ := Option.ne_none_iff_exists'.mp (hfinP existing hexP).2
    obtain ⟨di, hdi⟩ := Option.ne_none_iff_exists'.mp hfinI.1
    obtain ⟨ii, hii⟩ := Option.ne_none_iff_exists'.mp hfinI.2
    have hpick := pick_eq existing item hde hdi hie hii
    have hkeys : (setBySlug m (stripWpDuplicateSuffix item.slug)
        (pickPreferredBySlug existing item)).map Prod.fst = m.map Prod.fst :=
      setBySlug_keys m _ _ existing hfind
    have hnd2 : ((setBySlug m (stripWpDuplicateSuffix item.slug)
        (pickPreferredBySlug existing item)).map Prod.fst).Nodup := by
      rw [hkeys]
      exact hnd
    have hcases : ∀ p ∈ setBySlug m (stripWpDuplicateSuffix item.slug)
        (pickPreferredBySlug existing item),
        p = (stripWpDuplicateSuffix item.slug, pickPreferredBySlug existing item) ∨
        (p ∈ m ∧ p.1 ≠ stripWpDuplicateSuffix item.slug) := by
      intro p hp
      rcases setBySlug_mem m _ _ p hp with h | h
      · exact Or.inl h
      · by_cases hpk : p.1 = stripWpDuplicateSuffix item.slug
        · left
          obtain ⟨pk, pv⟩ := p
          simp at hpk
          subst hpk
          have h1 := findBySlug_of_mem _ _ _ hnd2 hp
          rw [findBySlug_setBySlug_self] at h1
          injection h1 with h1
          rw [h1]
        · exact Or.inr ⟨h, hpk⟩
    refine ⟨hnd2, ?_, ?_, ?_⟩
    · intro p hp
      rcases hcases p hp with h | ⟨h, _⟩
      · subst h
        constructor
        · rcases pick_mem existing item with hw | hw <;> rw [hw]
          · exact hexKey
        · rcases pick_mem existing item with hw | hw <;> rw [hw]
          · exact List.mem_append_left _ hexP
          · simp
      · obtain ⟨h1, h2⟩ := hpair p h
        exact ⟨h1, List.mem_append_left _ h2⟩
    · intro x hx
      rw [hkeys]
      rcases List.mem_append.mp hx with hx | hx
      · exact hcov x hx
      · simp at hx
        subst hx
        exact List.mem_map.mpr ⟨_, hmem, rfl⟩
    · intro p hp x hx hxp
      rcases hcases p hp with h | ⟨h, hpk⟩
      · subst h
        have hmaxE : ∀ y ∈ processed,
            stripWpDuplicateSuffix y.slug = stripWpDuplicateSuffix item.slug →
            ¬ claimBeats y existing := by
          intro y hy hyk
          exact hmax _ hmem y hy hyk
        rcases List.mem_append.mp hx with hx | hx
        · obtain ⟨dx, hdx⟩ := Option.ne_none_iff_exists'.mp (hfinP x hx).1
          obtain ⟨ix, hix⟩ := Option.ne_none_iff_exists'.mp (hfinP x hx).2
          have hold := hmaxE x hx hxp
          by_cases hlt : tripleLt (rankTriple existing) (rankTriple item)
          · rw [hpick, if_pos hlt]
            intro hcb
            rw [claimBeats_iff_tripleLt x item hdx hdi hix hii] at hcb
            exact hold ((claimBeats_iff_tripleLt x existing hdx hde hix hie).mpr
              (tripleLt_trans hlt hcb))
          · rw [hpick, if_neg hlt]
            exact hold
        · rw [List.mem_singleton] at hx
          rw [hx]
          by_cases hlt : tripleLt (rankTriple existing) (rankTriple item)
          · rw [hpick, if_pos hlt]
            exact claimBeats_irrefl item
          · rw [hpick, if_neg hlt]
            intro hcb
            exact hlt ((claimBeats_iff_tripleLt item existing hdi hde hii hie).mp hcb)
      · rcases List.mem_append.mp hx with hx | hx
        · exact hmax p h x hx hxp
        · simp at hx
          subst hx
          exact absurd hxp.symm hpk

theorem dedupe_fold_inv (rest : List WPRecord) :
    ∀ (processed : List WPRecord) (m : List (String × WPRecord)),
    (∀ x ∈ processed, x.dateMs ≠ none ∧ x.idNum ≠ none) →
    (∀ x ∈ rest, x.dateMs ≠ none ∧ x.idNum ≠ none) →
    (m.map Prod.fst).Nodup →
    (∀ p ∈ m, p.1 = stripWpDuplicateSuffix p.2.slug ∧ p.2 ∈ processed) →
    (∀ x ∈ processed, stripWpDuplicateSuffix x.slug ∈ m.map Prod.fst) →
    (∀ p ∈ m, ∀ x ∈ processed,
      stripWpDuplicateSuffix x.slug = p.1 → ¬ claimBeats x p.2) →
    (((rest.foldl dedupeInsert m).map Prod.fst).Nodup ∧
     (∀ p ∈ rest.foldl dedupeInsert m,
       p.1 = stripWpDuplicateSuffix p.2.slug ∧ p.2 ∈ processed ++ rest) ∧
     (∀ x ∈ processed ++ rest,
       stripWpDuplicateSuffix x.slug ∈ (rest.foldl dedupeInsert m).map Prod.fst) ∧
     (∀ p ∈ rest.foldl dedupeInsert m, ∀ x ∈ processed ++ rest,
       stripWpDuplicateSuffix x.slug = p.1 → ¬ claimBeats x p.2)) := by
  induction rest with
  | nil =>
    intro processed m _ _ h3 h4 h5 h6
    simp only [List.foldl_nil, List.append_nil]
    exact ⟨h3, h4, h5, h6⟩
  | cons item rest ih =>
    intro processed m hfinP hfinR hnd hpair hcov hmax
    have step := dedupe_insert_inv processed item m hfinP
      (hfinR item (by simp)) hnd hpair hcov hmax
    have main := ih (processed ++ [item]) (dedupeInsert m item)
      (by
        intro x hx
        rcases List.mem_append.mp hx with hx | hx
        · exact hfinP x hx
        · rw [List.mem_singleton] at hx
          rw [hx]
          exact hfinR item (by simp))
      (fun x hx => hfinR x (by simp [hx]))
      step.1 step.2.1 step.2.2.1 step.2.2.2
    simpa [List.append_assoc] using main

/-- **C3 (amended).**  Provided every record carries a parseable publish
timestamp and a finite numeric id, deduplication returns a list in which
each base slug appears at most once, every returned record is an element
of the input, and no input record of the same base-slug group beats the
survivor in the claim order: non-duplicate slug first, then most recent
timestamp, then highest id (ties keep the earlier record). -/
theorem dedupeBySlug_amended (items : List WPRecord)
    (hd : ∀ x ∈ items, x.dateMs ≠ none) (hi : ∀ x ∈ items, x.idNum ≠ none) :
    ((dedupeBySlug items).map (fun r => stripWpDuplicateSuffix r.slug)).Nodup ∧
    (∀ r ∈ dedupeBySlug items, r ∈ items) ∧
    (∀ r ∈ dedupeBySlug items, ∀ x ∈ items,
      stripWpDuplicateSuffix x.slug = stripWpDuplicateSuffix r.slug →
      ¬ claimBeats x r) := by
  obtain ⟨hnd, hpair, hcov, hmax⟩ := dedupe_fold_inv items [] []
    (by simp) (fun x hx => ⟨hd x hx, hi x hx⟩) (by simp) (by simp) (by simp)
    (by simp)
  unfold dedupeBySlug
  refine ⟨?_, ?_, ?_⟩
  · rw [List.map_map]
    have heq : (items.foldl dedupeInsert []).map
        ((fun r => stripWpDuplicateSuffix r.slug) ∘ Prod.snd) =
        (items.foldl dedupeInsert []).map Prod.fst := by
      apply List.map_congr_left
      intro p hp
      exact ((hpair p hp).1).symm
    rw [heq]
    exact hnd
  · intro r hr
    rcases List.mem_map.mp hr with ⟨p, hp, rfl⟩
    simpa using (hpair p hp).2
  · intro r hr x hx hxr
    rcases List.mem_map.mp hr with ⟨p, hp, rfl⟩
    refine hmax p hp x (by simpa using hx) ?_
    rw [hxr]
    exact ((hpair p hp).1).symm

/-- Witness for the amended C3 theorem at a concrete record list. -/
theorem dedupeBySlug_amended_witness :
    ((dedupeBySlug [⟨"post-2", some 1, some 4⟩, ⟨"post", some 0, some 2⟩]).map
      (fun r => stripWpDuplicateSuffix r.slug)).Nodup ∧
    (∀ r ∈ dedupeBySlug [⟨"post-2", some 1, some 4⟩, ⟨"post", some 0, some 2⟩],
      r ∈ [(⟨"post-2", some 1, some 4⟩ : WPRecord), ⟨"post", some 0, some 2⟩]) ∧
    (∀ r ∈ dedupeBySlug [⟨"post-2", some 1, some 4⟩, ⟨"post", some 0, some 2⟩],
      ∀ x ∈ [(⟨"post-2", some 1, some 4⟩ : WPRecord), ⟨"post", some 0, some 2⟩],
      stripWpDuplicateSuffix x.slug = stripWpDuplicateSuffix r.slug →
      ¬ claimBeats x r) :=
  dedupeBySlug_amended [⟨"post-2", some 1, some 4⟩, ⟨"post", some 0, some 2⟩]
    (by decide) (by decide)

/-! ### Table-recovery lemmas (C5)

The flat-table fixture is a concatenation of paragraph elements with
plain cell texts; the lemmas below compute the paragraph scan, the
header search and the cell collection on it. -/

theorem plainCell_ne_empty {t : String} (h : plainCell t = true) :
    t ≠ "" := by
  intro he
  rw [he] at h
  exact absurd h (by decide)

theorem plainCell_ne_zwj {t : String} (h : plainCell t = true) :
    t ≠ zwjStr := by
  intro he
  rw [he] at h
  exact absurd h (by decide)

theorem splitRowTokens_plain {t : String} (h : plainCell t = true) :
    splitRowTokens t = none := by
  have hall := plainCell_all h
  simp only [splitRowTokens]
  rw [plain_contains_false hall (show plainChar '\n' = false by decide),
    plain_contains_false hall (show plainChar '|' = false by decide)]
  rw [if_pos (And.intro Bool.false_ne_true Bool.false_ne_true)]

theorem isHeadingText_plain {t : String} (h : plainCell t = true) :
    isHeadingText t = false := by
  have hall := plainCell_all h
  have hhs : t.data.takeWhile (· = '#') = [] := by
    cases hdata : t.data with
    | nil => rfl
    | cons c rest =>
      have hc : plainChar c = true := by
        apply List.all_eq_true.mp hall
        rw [hdata]
        simp
      rw [List.takeWhile_cons, plain_beq_false hc (by decide)]
      rfl
  simp only [isHeadingText, hhs]
  simp

theorem pMatchText_plain {t : String} (h : plainCell t = true) :
    pMatchText t.data = t := by
  have hall := plainCell_all h
  simp only [pMatchText]
  rw [decodeEntitiesList_plain hall,
    scanRepl_noop (fun _ hl => brTry_plain _ hl) _ hall,
    scanRepl_noop (fun _ hl => anyTagTry_plain hl) _ hall,
    scanRepl_noop (fun _ hl => ampAltTry_plain _ _ hl) _ hall,
    removeClass_zw_plain hall, plainCell_trim h, mk_data_eq]

theorem escapeHtmlList_plain {cs : List Char} (h : cs.all plainChar = true) :
    escapeHtmlList cs = cs := by
  unfold escapeHtmlList
  rw [replaceChar_plain (by decide) _ h, replaceChar_plain (by decide) _ h,
    replaceChar_plain (by decide) _ h, replaceChar_plain (by decide) _ h,
    replaceChar_plain (by decide) _ h]

theorem formatCellHtml_plain {t : String} (h : plainCell t = true) :
    formatCellHtml t = t.data := by
  have hall := plainCell_all h
  simp only [formatCellHtml]
  rw [escapeHtmlList_plain hall,
    scanRepl_noop (fun _ hl => nlRunTry_plain 2 _ hl) _ hall,
    replaceChar_plain (by decide) _ hall]

theorem flatMap_congr {α β : Type} {l : List α} {f g : α → List β}
    (h : ∀ a ∈ l, f a = g a) : l.flatMap f = l.flatMap g := by
  induction l with
  | nil => rfl
  | cons a l ih =>
    rw [List.flatMap_cons, List.flatMap_cons, h a (by simp),
      ih (fun x hx => h x (by simp [hx]))]

theorem findCloseP_plain (rest : List Char) :
    ∀ (inner : List Char), (∀ c ∈ inner, c ≠ '<') →
      findCloseP (inner ++ '<' :: '/' :: 'p' :: '>' :: rest) =
        some (inner, ['<', '/', 'p', '>'], rest) := by
  intro inner
  induction inner with
  | nil =>
    intro _
    rw [List.nil_append, findCloseP]
    simp
  | cons c cs ih =>
    intro h
    have hc : c ≠ '<' := h c (by simp)
    have hcs : ∀ x ∈ cs, x ≠ '<' := fun x hx => h x (by simp [hx])
    rw [List.cons_append,  findCloseP.eq_def]
    split
    · rename_i heq
      exact absurd heq (by simp)
    · rename_i c2 rest2 hne
      injection hne with h1 h2
      subst h1
      subst h2
      split
      · rename_i rest3 heq2
        exact absurd rfl hc
      · rw [ih hcs]

theorem pTryOpen_cons (X : List Char) :
    pTryOpen ('<' :: 'p' :: '>' :: X) = some (("<p>").data, X) := rfl

theorem scanPSegs_mkPs :
    ∀ (ts : List String) (fuel : Nat), ts.length ≤ fuel →
      (∀ t ∈ ts, ∀ c ∈ t.data, c ≠ '<') →
      scanPSegs fuel (ts.flatMap mkPL) = (ts.map pSegOf, []) := by
  intro ts
  induction ts with
  | nil =>
    intro fuel _ _
    cases fuel <;> rfl
  | cons t ts ih =>
    intro fuel hfuel hplain
    cases fuel with
    | zero => exact absurd hfuel (by simp)
    | succ n =>
      have hts : ∀ x ∈ ts, ∀ c ∈ x.data, c ≠ '<' :=
        fun x hx => hplain x (by simp [hx])
      have hcons : (t :: ts).flatMap mkPL =
          '<' :: 'p' :: '>' ::
            ((t.data ++ ("</p>").data) ++ ts.flatMap mkPL) := rfl
      rw [hcons]
      simp only [scanPSegs, pTryOpen_cons]
      have hassoc : (t.data ++ ("</p>").data) ++ ts.flatMap mkPL =
          t.data ++ ('<' :: '/' :: 'p' :: '>' :: ts.flatMap mkPL) := by
        rw [List.append_assoc]
        rfl
      rw [hassoc, findCloseP_plain _ _ (hplain t (by simp))]
      dsimp only
      rw [ih n (by simpa using hfuel) hts]
      rfl

theorem flatMap_mkPL_length_ge (ts : List String) :
    ts.length ≤ (ts.flatMap mkPL).length := by
  induction ts with
  | nil => simp
  | cons t ts ih =>
    rw [List.flatMap_cons, List.length_append]
    have h1 : 1 ≤ (mkPL t).length := by
      simp [mkPL]
    simp only [List.length_cons]
    omega

theorem tagSafe_noPOpen {cs : List Char} (h : tagSafe cs = true) :
    noPOpen cs = true := by
  rw [tagSafe, Bool.and_eq_true] at h
  exact h.1

theorem getLastD_irrel {l : List Char} (hl : l ≠ []) (c d : Char) :
    l.getLastD c = l.getLastD d := by
  cases l with
  | nil => exact absurd rfl hl
  | cons e l2 => rw [List.getLastD_cons, List.getLastD_cons]

theorem getLastD_append_right :
    ∀ {a b : List Char}, b ≠ [] → ∀ d : Char,
      (a ++ b).getLastD d = b.getLastD d := by
  intro a
  induction a with
  | nil => intro b _ d; rfl
  | cons c a2 ih =>
    intro b hb d
    rw [List.cons_append, List.getLastD_cons,
      getLastD_irrel (by simp [hb]) c d]
    exact ih hb d

theorem tagSafe_append :
    ∀ {a b : List Char}, tagSafe a = true → tagSafe b = true →
      tagSafe (a ++ b) = true := by
  intro a
  induction a with
  | nil =>
    intro b _ hb
    simpa using hb
  | cons c a2 ih =>
    intro b ha hb
    rw [tagSafe, Bool.and_eq_true] at ha hb
    obtain ⟨ha1, ha2⟩ := ha
    have ha1t : noPOpen a2 = true := noPOpen_tail ha1
    rw [noPOpen, Bool.and_eq_true] at ha1
    cases a2 with
    | nil =>
      have hc : ¬ (c = '<') := by
        rw [List.getLastD_cons, List.getLastD_nil] at ha2
        simpa using ha2
      rw [List.cons_append, List.nil_append, tagSafe, Bool.and_eq_true]
      constructor
      · rw [noPOpen, Bool.and_eq_true]
        exact ⟨by simp [hc], hb.1⟩
      · cases b with
        | nil => simp [hc]
        | cons e b2 =>
          rw [show (c :: e :: b2) = [c] ++ (e :: b2) from rfl,
            getLastD_append_right (by simp) 'x']
          exact hb.2
    | cons d a3 =>
      have hsafe2 : tagSafe (d :: a3) = true := by
        rw [tagSafe, Bool.and_eq_true]
        refine ⟨ha1t, ?_⟩
        rw [List.getLastD_cons, List.getLastD_cons] at ha2
        rw [List.getLastD_cons]
        exact ha2
      have htail := ih hsafe2 (by rw [tagSafe, Bool.and_eq_true]; exact hb)
      rw [tagSafe, Bool.and_eq_true] at htail
      rw [List.cons_append, tagSafe, Bool.and_eq_true]
      constructor
      · rw [noPOpen, Bool.and_eq_true]
        refine ⟨?_, htail.1⟩
        simpa using ha1.1
      · rw [List.getLastD_cons, getLastD_irrel (by simp) c 'x']
        exact htail.2

theorem plain_tagSafe {cs : List Char} (h : cs.all plainChar = true) :
    tagSafe cs = true := by
  rw [tagSafe, Bool.and_eq_true]
  refine ⟨plain_noPOpen h, ?_⟩
  cases hcs : cs with
  | nil => simp
  | cons c rest =>
    rw [List.getLastD_cons, List.getLastD_eq_getLast?]
    cases hl : rest.getLast? with
    | none =>
      simp only [Option.getD_none]
      have hc : plainChar c = true := by
        apply List.all_eq_true.mp h
        rw [hcs]
        simp
      simpa using plain_ne hc (show plainChar '<' = false by decide)
    | some v =>
      simp only [Option.getD_some]
      have hv : v ∈ cs := by
        rw [hcs]
        exact List.mem_cons_of_mem c (List.mem_of_mem_getLast? (by rw [hl]; rfl))
      simpa using plain_ne (List.all_eq_true.mp h v hv)
        (show plainChar '<' = false by decide)

theorem tagSafe_flatMap {α : Type} {l : List α} {f : α → List Char}
    (h : ∀ x ∈ l, tagSafe (f x) = true) : tagSafe (l.flatMap f) = true := by
  induction l with
  | nil => rfl
  | cons a l ih =>
    rw [List.flatMap_cons]
    exact tagSafe_append (h a (by simp))
      (ih (fun x hx => h x (by simp [hx])))

theorem headerScan_step (e t : String) (es ts : List String)
    (h1 : ¬ (normalizeHeaderText t = "" ∨ normalizeHeaderText t = zwjStr))
    (h2 : normalizeHeaderText t = e) :
    headerScan (e :: es) (t :: ts) = headerScan es ts := by
  rw [headerScan]
  rw [if_neg h1, if_pos h2]

theorem headerScan_done (ts : List String) : headerScan [] ts = true := by
  rw [headerScan]

/-- The header search succeeds at the head of the list when its text is
`Variable` and the following texts walk the remaining expected header
cells. -/
theorem findHeaderSplit_hit (seg : PSeg) (rest : List (PSeg × String))
    (hscan : headerScan ["category", "subcategory", "details"]
      (rest.map Prod.snd) = true) :
    findHeaderSplit ((seg, "Variable") :: rest) =
      some ([], ⟨4, ["variable", "category", "subcategory", "details"]⟩,
        none, (seg, "Variable"), rest) := by
  rw [findHeaderSplit]
  dsimp only
  rw [show normalizeHeaderText "Variable" = "variable" from rfl]
  rw [if_neg (show ¬ ("variable" = "" ∨ "variable" = zwjStr) from
    by decide)]
  rw [show splitRowTokens "Variable" = none from rfl]
  dsimp only
  have hfind : headerConfigs.find? (fun cfg =>
      decide ("variable" = cfg.expectedHeader.headD "") &&
      headerScan cfg.expectedHeader.tail (rest.map Prod.snd)) =
      some ⟨4, ["variable", "category", "subcategory", "details"]⟩ := by
    rw [show headerConfigs =
      [⟨4, ["variable", "category", "subcategory", "details"]⟩,
       ⟨3, ["key metrics", "category", "details"]⟩] from rfl]
    rw [List.find?_cons]
    dsimp only
    simp only [List.tail_cons, List.headD_cons]
    rw [hscan]
    rfl
  rw [hfind]

theorem collectCells_noop (columns : Nat) :
    ∀ (l : List (List Char × PSeg × String)) (cells : List String)
      (k : Nat),
      (∀ x ∈ l, x.1 = [] ∧ x.2.2 ≠ "" ∧ x.2.2 ≠ zwjStr ∧
        isHeadingText x.2.2 = false ∧ splitRowTokens x.2.2 = none) →
      collectCells columns l cells k =
        ⟨cells ++ l.map (fun x => x.2.2), []⟩ := by
  intro l
  induction l with
  | nil =>
    intro cells k _
    rw [collectCells]
    simp
  | cons x rest ih =>
    intro cells k hx
    obtain ⟨hgap, hne, hzwj, hhead, hsplitr⟩ := hx x (by simp)
    have htail : ∀ y ∈ rest, y.1 = [] ∧ y.2.2 ≠ "" ∧ y.2.2 ≠ zwjStr ∧
        isHeadingText y.2.2 = false ∧ splitRowTokens y.2.2 = none :=
      fun y hy => hx y (by simp [hy])
    obtain ⟨between, seg, text⟩ := x
    simp only at hgap hne hzwj hhead hsplitr
    subst hgap
    simp only [collectCells]
    rw [if_neg (show ¬ ¬ (isIgnorableBetween [] = true) from
      fun hC => hC (by decide))]
    rw [if_neg (show ¬ (text = "" ∨ text = zwjStr) from by
      rintro (he | he)
      · exact hne he
      · exact hzwj he)]
    rw [hhead, if_neg Bool.false_ne_true]
    rw [if_neg (show ¬ (containsHTag [] = true) from by decide)]
    rw [hsplitr]
    dsimp only
    rw [ite_self]
    rw [ih (cells ++ [text]) 0 htail]
    simp

theorem buildTable_plain (texts : List String) (N : Nat)
    (h : ∀ t ∈ texts, plainCell t = true) :
    buildTable ["Variable", "Category", "Subcategory", "Details"] texts 4 N =
      specTgTable texts N := by
  have hrows : (List.range N).flatMap (fun i =>
        ("<tr>").data ++
        ((texts.drop (i * 4)).take 4).flatMap
          (fun c => ("<td>").data ++ formatCellHtml c ++ ("</td>").data) ++
        ("</tr>").data) =
      (List.range N).flatMap (fun i =>
        ("<tr>").data ++
        ((texts.drop (i * 4)).take 4).flatMap
          (fun t => ("<td>").data ++ t.data ++ ("</td>").data) ++
        ("</tr>").data) := by
    apply flatMap_congr
    intro i _
    congr 1
    congr 1
    apply flatMap_congr
    intro t ht
    have htm : t ∈ texts := List.drop_subset _ _ (List.take_subset _ _ ht)
    rw [formatCellHtml_plain (h t htm)]
  simp only [buildTable, specTgTable]
  rw [hrows]
  simp only [← List.append_assoc]
  congr 1

theorem tagSafe_specTgTable (texts : List String) (N : Nat)
    (h : ∀ t ∈ texts, plainCell t = true) :
    tagSafe (specTgTable texts N) = true := by
  unfold specTgTable
  refine tagSafe_append (tagSafe_append (by decide) ?_) (by decide)
  apply tagSafe_flatMap
  intro i _
  refine tagSafe_append (tagSafe_append (by decide) ?_) (by decide)
  apply tagSafe_flatMap
  intro t ht
  have htm : t ∈ texts := List.drop_subset _ _ (List.take_subset _ _ ht)
  refine tagSafe_append (tagSafe_append (by decide) ?_) (by decide)
  exact plain_tagSafe (plainCell_all (h t htm))

theorem map_snd_snd_of_triple (texts : List String) :
    (((texts.map (fun t => (pSegOf t, t))).map
      (fun p => (p.1.gap, p.1, p.2))).map
        (fun x => x.2.2)) = texts := by
  induction texts with
  | nil => rfl
  | cons t ts ih => simp only [List.map_cons, ih]

theorem recoverOnce_table (texts : List String) (N : Nat) (hN : 1 ≤ N)
    (hlen : texts.length = 4 * N)
    (hplain : ∀ t ∈ texts, plainCell t = true) :
    recoverOnce (("Variable" :: "Category" :: "Subcategory" :: "Details" ::
        texts).flatMap mkPL) =
      (true, specTgTable texts N) := by
  have hnolt : ∀ t ∈ ("Variable" :: "Category" :: "Subcategory" ::
      "Details" :: texts), ∀ c ∈ t.data, c ≠ '<' := by
    intro t htm
    simp only [List.mem_cons] at htm
    rcases htm with rfl | rfl | rfl | rfl | hmem
    · decide
    · decide
    · decide
    · decide
    · intro c hcm
      exact plain_ne (List.all_eq_true.mp (plainCell_all (hplain t hmem)) c hcm)
        (by decide)
  unfold recoverOnce
  rw [scanPSegs_mkPs _ _ (flatMap_mkPL_length_ge _) hnolt]
  dsimp only
  have hlen6 : ¬ ((List.map pSegOf ("Variable" :: "Category" ::
      "Subcategory" :: "Details" :: texts)).length < 6) := by
    simp only [List.length_map, List.length_cons]
    omega
  rw [if_neg hlen6]
  have hpairs : List.map (fun s => (s, pMatchText s.inner))
      (List.map pSegOf ("Variable" :: "Category" :: "Subcategory" ::
        "Details" :: texts)) =
      (pSegOf "Variable", "Variable") :: (pSegOf "Category", "Category") ::
      (pSegOf "Subcategory", "Subcategory") ::
      (pSegOf "Details", "Details") ::
      texts.map (fun t => (pSegOf t, t)) := by
    simp only [List.map_cons, List.map_map]
    have htails : texts.map ((fun s => (s, pMatchText s.inner)) ∘ pSegOf) =
        texts.map (fun t => (pSegOf t, t)) :=
      List.map_congr_left (fun t htm => by
        show (pSegOf t, pMatchText (pSegOf t).inner) = (pSegOf t, t)
        rw [show (pSegOf t).inner = t.data from rfl,
          pMatchText_plain (hplain t htm)])
    rw [htails]
    rfl
  rw [hpairs]
  have hscan : headerScan ["category", "subcategory", "details"]
      (((pSegOf "Category", "Category") ::
        (pSegOf "Subcategory", "Subcategory") ::
        (pSegOf "Details", "Details") ::
        texts.map (fun t => (pSegOf t, t))).map Prod.snd) = true := by
    simp only [List.map_cons]
    rw [headerScan_step "category" "Category" _ _ (by decide) (by decide)]
    rw [headerScan_step "subcategory" "Subcategory" _ _ (by decide) (by decide)]
    rw [headerScan_step "details" "Details" _ _ (by decide) (by decide)]
    exact headerScan_done _
  rw [findHeaderSplit_hit _ _ hscan]
  dsimp only
  have hcond : ∀ x ∈ (([], pSegOf "Variable", "Variable") ::
      List.map (fun p => (p.1.gap, p.1, p.2))
        ((pSegOf "Category", "Category") ::
         (pSegOf "Subcategory", "Subcategory") ::
         (pSegOf "Details", "Details") ::
         texts.map (fun t => (pSegOf t, t)))),
      x.1 = [] ∧ x.2.2 ≠ "" ∧ x.2.2 ≠ zwjStr ∧
      isHeadingText x.2.2 = false ∧ splitRowTokens x.2.2 = none := by
    intro x hx
    simp only [List.mem_cons, List.mem_map] at hx
    rcases hx with rfl | ⟨p, hp, rfl⟩
    · exact ⟨rfl, by decide, by decide, by decide, by decide⟩
    · rcases hp with rfl | rfl | rfl | hp2
      · exact ⟨rfl, by decide, by decide, by decide, by decide⟩
      · exact ⟨rfl, by decide, by decide, by decide, by decide⟩
      · exact ⟨rfl, by decide, by decide, by decide, by decide⟩
      · rcases hp2 with ⟨t, htm, rfl⟩
        have hpc := hplain t htm
        exact ⟨rfl, plainCell_ne_empty hpc, plainCell_ne_zwj hpc,
          isHeadingText_plain hpc, splitRowTokens_plain hpc⟩
  rw [collectCells_noop 4 _ [] 0 hcond]
  dsimp only
  simp only [List.nil_append, List.map_cons]
  rw [map_snd_snd_of_triple]
  rw [if_neg (show ¬ (("Variable" :: "Category" :: "Subcategory" ::
      "Details" :: texts).length < 4 * 2) from by
    simp only [List.length_cons]
    omega)]
  rw [show List.take 4 ("Variable" :: "Category" :: "Subcategory" ::
      "Details" :: texts) = ["Variable", "Category", "Subcategory", "Details"]
    from rfl]
  rw [show ((["Variable", "Category", "Subcategory", "Details"].zip
      ["variable", "category", "subcategory", "details"]).all
        fun p => decide (normalizeHeaderText p.1 = p.2)) = true from by decide]
  rw [if_neg (show ¬ ¬ (true = true) from fun hC => hC rfl)]
  rw [show List.drop 4 ("Variable" :: "Category" :: "Subcategory" ::
      "Details" :: texts) = texts from rfl]
  rw [hlen, Nat.mul_div_cancel_left N (by norm_num)]
  rw [if_neg (show ¬ (N < 1) from by omega)]
  have hNl : N * 4 = texts.length := by omega
  rw [hNl, List.take_length]
  rw [buildTable_plain texts N hplain]
  simp [renderRemaining]
  rfl

theorem recoverOnce_three (a b c : String) (ha : plainCell a = true)
    (hb : plainCell b = true) (hc : plainCell c = true) :
    (recoverOnce (("Variable" :: "Category" :: "Subcategory" :: "Details" ::
        a :: b :: c :: []).flatMap mkPL)).1 = false := by
  have hpl : ∀ s : String, plainCell s = true → ∀ ch ∈ s.data, ch ≠ '<' :=
    fun s hs ch hch =>
      plain_ne (List.all_eq_true.mp (plainCell_all hs) ch hch) (by decide)
  have hnolt : ∀ t ∈ ("Variable" :: "Category" :: "Subcategory" ::
      "Details" :: a :: b :: c :: []), ∀ ch ∈ t.data, ch ≠ '<' := by
    intro t htm
    simp only [List.mem_cons] at htm
    rcases htm with rfl | rfl | rfl | rfl | hq | hq | hq | hfalse
    · decide
    · decide
    · decide
    · decide
    · rw [hq]; exact hpl a ha
    · rw [hq]; exact hpl b hb
    · rw [hq]; exact hpl c hc
    · exact absurd hfalse (List.not_mem_nil t)
  unfold recoverOnce
  rw [scanPSegs_mkPs _ _ (flatMap_mkPL_length_ge _) hnolt]
  dsimp only
  rw [if_neg (show ¬ ((List.map pSegOf ("Variable" :: "Category" ::
      "Subcategory" :: "Details" :: a :: b :: c :: [])).length < 6) from by
    simp only [List.length_map, List.length_cons]
    omega)]
  have hpairs : List.map (fun s => (s, pMatchText s.inner))
      (List.map pSegOf ("Variable" :: "Category" :: "Subcategory" ::
        "Details" :: a :: b :: c :: [])) =
      List.map (fun t => (pSegOf t, t)) ("Variable" :: "Category" ::
        "Subcategory" :: "Details" :: a :: b :: c :: []) := by
    rw [List.map_map]
    apply List.map_congr_left
    intro t htm
    show (pSegOf t, pMatchText (pSegOf t).inner) = (pSegOf t, t)
    rw [show (pSegOf t).inner = t.data from rfl]
    simp only [List.mem_cons] at htm
    rcases htm with rfl | rfl | rfl | rfl | hq | hq | hq | hfalse
    · rw [show pMatchText ("Variable").data = "Variable" from by decide]
    · rw [show pMatchText ("Category").data = "Category" from by decide]
    · rw [show pMatchText ("Subcategory").data = "Subcategory" from by decide]
    · rw [show pMatchText ("Details").data = "Details" from by decide]
    · rw [hq, pMatchText_plain ha]
    · rw [hq, pMatchText_plain hb]
    · rw [hq, pMatchText_plain hc]
    · exact absurd hfalse (List.not_mem_nil t)
  rw [hpairs]
  simp only [List.map_cons, List.map_nil]
  have hscan : headerScan ["category", "subcategory", "details"]
      (((pSegOf "Category", "Category") ::
        (pSegOf "Subcategory", "Subcategory") ::
        (pSegOf "Details", "Details") ::
        (pSegOf a, a) :: (pSegOf b, b) :: (pSegOf c, c) :: []).map
          Prod.snd) = true := by
    simp only [List.map_cons, List.map_nil]
    rw [headerScan_step "category" "Category" _ _ (by decide) (by decide)]
    rw [headerScan_step "subcategory" "Subcategory" _ _ (by decide)
      (by decide)]
    rw [headerScan_step "details" "Details" _ _ (by decide) (by decide)]
    exact headerScan_done _
  rw [findHeaderSplit_hit _ _ hscan]
  dsimp only
  have hcond : ∀ x ∈ (([], pSegOf "Variable", "Variable") ::
      List.map (fun p => (p.1.gap, p.1, p.2))
        ((pSegOf "Category", "Category") ::
         (pSegOf "Subcategory", "Subcategory") ::
         (pSegOf "Details", "Details") ::
         (pSegOf a, a) :: (pSegOf b, b) :: (pSegOf c, c) :: [])),
      x.1 = [] ∧ x.2.2 ≠ "" ∧ x.2.2 ≠ zwjStr ∧
      isHeadingText x.2.2 = false ∧ splitRowTokens x.2.2 = none := by
    intro x hx
    have hcell : ∀ s : String, plainCell s = true →
        (([] : List Char), pSegOf s, s).1 = [] ∧
        (([] : List Char), pSegOf s, s).2.2 ≠ "" ∧
        (([] : List Char), pSegOf s, s).2.2 ≠ zwjStr ∧
        isHeadingText (([] : List Char), pSegOf s, s).2.2 = false ∧
        splitRowTokens (([] : List Char), pSegOf s, s).2.2 = none :=
      fun s hs => ⟨rfl, plainCell_ne_empty hs, plainCell_ne_zwj hs,
        isHeadingText_plain hs, splitRowTokens_plain hs⟩
    simp only [List.map_cons, List.map_nil, List.mem_cons,
      List.not_mem_nil] at hx
    rcases hx with rfl | rfl | rfl | rfl | hq | hq | hq | hfalse
    · exact ⟨rfl, by decide, by decide, by decide, by decide⟩
    · exact ⟨rfl, by decide, by decide, by decide, by decide⟩
    · exact ⟨rfl, by decide, by decide, by decide, by decide⟩
    · exact ⟨rfl, by decide, by decide, by decide, by decide⟩
    · rw [hq]; exact hcell a ha
    · rw [hq]; exact hcell b hb
    · rw [hq]; exact hcell c hc
    · exact absurd hfalse (fun h => h)
  rw [collectCells_noop 4 _ [] 0 hcond]
  dsimp only
  simp only [List.nil_append, List.map_cons, List.map_nil]
  rw [if_pos (show ("Variable" :: "Category" :: "Subcategory" ::
      "Details" :: a :: b :: c :: []).length < 4 * 2 from by
    simp only [List.length_cons, List.length_nil]
    omega)]

/-- C2: the rich-text sanitizer is not idempotent.  On the markdown input
`# Title &amp;amp;` the sanitizer decodes one layer of HTML entities per
pass, so a second pass changes its own output (`&amp;` decodes further to
`&`): `sanitize(sanitize(x)) != sanitize(x)`. -/
theorem normalizeWpRichText_not_idempotent :
    normalizeWpRichText (some "# Title &amp;amp;") = some "# Title &amp;" ∧
    normalizeWpRichText (normalizeWpRichText (some "# Title &amp;amp;")) =
      some "# Title &" ∧
    normalizeWpRichText (normalizeWpRichText (some "# Title &amp;amp;")) ≠
      normalizeWpRichText (some "# Title &amp;amp;") :=
  ⟨by decide, by decide, by decide⟩

/-- C2 amended: the sanitizer is idempotent on plain text — inputs made
of lower-case ASCII letters, digits and spaces, where no HTML or markdown
pattern can match; there it acts as `trim`.  On general input idempotence
fails because entity decoding runs once per pass (see the counterexample
theorem). -/
theorem normalizeWpRichText_amended (s : String)
    (h : s.data.all plainChar = true) :
    normalizeWpRichText (some s) =
      (if jsTrimList s.data = [] then none
       else some (String.mk (jsTrimList s.data))) ∧
    normalizeWpRichText (normalizeWpRichText (some s)) =
      normalizeWpRichText (some s) := by
  refine ⟨normalizeWpRichText_plain h, ?_⟩
  rw [normalizeWpRichText_plain h]
  by_cases he : jsTrimList s.data = []
  · rw [if_pos he]
    rfl
  · rw [if_neg he]
    have hall : (String.mk (jsTrimList s.data)).data.all plainChar = true :=
      jsTrimList_all_plain h
    rw [normalizeWpRichText_plain hall]
    have hd : (String.mk (jsTrimList s.data)).data = jsTrimList s.data := rfl
    rw [hd, jsTrimList_idem s.data, if_neg he]

/-- Witness for the amended C2 theorem at a concrete plain string. -/
theorem normalizeWpRichText_amended_witness :
    ("hello world").data.all plainChar = true ∧
    (normalizeWpRichText (some "hello world") =
      (if jsTrimList ("hello world").data = [] then none
       else some (String.mk (jsTrimList ("hello world").data))) ∧
     normalizeWpRichText (normalizeWpRichText (some "hello world")) =
       normalizeWpRichText (some "hello world")) :=
  ⟨by decide, normalizeWpRichText_amended "hello world" (by decide)⟩

/-- C5: on the flat-table fixture — four paragraphs holding the header
texts `Variable`, `Category`, `Subcategory`, `Details` followed by `4N`
further paragraphs of plain cell texts (`N >= 1`) — table recovery
returns exactly the single table whose `thead` row holds the four header
cells and whose `tbody` holds `N` rows of four cells in order
(`specTgTable`); with only three trailing paragraphs the input is
returned unchanged, so no partial table is emitted. -/
theorem recoverFlatTgTable_claim (texts : List String) (N : Nat)
    (hN : 1 ≤ N) (hlen : texts.length = 4 * N)
    (hplain : ∀ t ∈ texts, plainCell t = true)
    (a b c : String) (ha : plainCell a = true) (hb : plainCell b = true)
    (hc : plainCell c = true) :
    recoverFlatTgTable (String.mk (tgHeaderPs ++ texts.flatMap mkPL)) =
      String.mk (specTgTable texts N) ∧
    recoverFlatTgTable
        (String.mk (tgHeaderPs ++ mkPL a ++ mkPL b ++ mkPL c)) =
      String.mk (tgHeaderPs ++ mkPL a ++ mkPL b ++ mkPL c) := by
  constructor
  · unfold recoverFlatTgTable
    have hd : (String.mk (tgHeaderPs ++ texts.flatMap mkPL)).data =
        tgHeaderPs ++ texts.flatMap mkPL := rfl
    rw [hd]
    have hin : tgHeaderPs ++ texts.flatMap mkPL =
        ("Variable" :: "Category" :: "Subcategory" :: "Details" ::
          texts).flatMap mkPL := by
      simp [tgHeaderPs, List.flatMap_cons, List.append_assoc]
    rw [hin]
    rw [recoverLoop]
    rw [recoverOnce_table texts N hN hlen hplain]
    dsimp only
    rw [if_pos rfl]
    rw [recoverLoop_noPOpen 4
      (tagSafe_noPOpen (tagSafe_specTgTable texts N hplain))]
  · unfold recoverFlatTgTable
    have hd2 : (String.mk (tgHeaderPs ++ mkPL a ++ mkPL b ++ mkPL c)).data =
        tgHeaderPs ++ mkPL a ++ mkPL b ++ mkPL c := rfl
    rw [hd2]
    have hin2 : tgHeaderPs ++ mkPL a ++ mkPL b ++ mkPL c =
        ("Variable" :: "Category" :: "Subcategory" :: "Details" ::
          a :: b :: c :: []).flatMap mkPL := by
      simp [tgHeaderPs, List.flatMap_cons, List.append_assoc]
    rw [hin2]
    rw [recoverLoop]
    rw [recoverOnce_three a b c ha hb hc]
    rw [if_neg Bool.false_ne_true]

/-- Witness for the C5 theorem at a one-row fixture and a concrete
three-paragraph trailer. -/
theorem recoverFlatTgTable_claim_witness :
    (1 ≤ 1 ∧ (["a", "b", "c", "d"] : List String).length = 4 * 1 ∧
      (∀ t ∈ (["a", "b", "c", "d"] : List String), plainCell t = true) ∧
      plainCell "x" = true ∧ plainCell "y" = true ∧
      plainCell "z" = true) ∧
    (recoverFlatTgTable (String.mk (tgHeaderPs ++
        (["a", "b", "c", "d"] : List String).flatMap mkPL)) =
      String.mk (specTgTable ["a", "b", "c", "d"] 1) ∧
     recoverFlatTgTable
        (String.mk (tgHeaderPs ++ mkPL "x" ++ mkPL "y" ++ mkPL "z")) =
      String.mk (tgHeaderPs ++ mkPL "x" ++ mkPL "y" ++ mkPL "z")) :=
  ⟨⟨by decide, by decide, by decide, by decide, by decide, by decide⟩,
   recoverFlatTgTable_claim ["a", "b", "c", "d"] 1 (by decide) (by decide)
     (by decide) "x" "y" "z" (by decide) (by decide) (by decide)⟩

end AKSite
